import Mathlib

/-!
Verification of the gba-go VRAM subsystem: a shallow embedding of the
memory regions, bitmap buffers, double buffering and DMA acceleration
paths of the library, together with proofs of the specified properties.

Hardware memory (VRAM) is modelled as a byte-addressed map `Mem = Nat → Nat`
(every write stores a value reduced mod 256).  The 16-bit and 32-bit
volatile register accesses of the Go source are modelled as little-endian
two- resp. four-byte reads and writes on this map.  Go `int` values are
modelled as `Int`, Go `uintptr` conversions as reduction mod 2^64
(`goUintptr`), and Go `uint16`/`uint8` conversions as reduction mod the
corresponding power of two.  Functions returning a Go `error` are modelled
with `Option` (`none` = error returned).  Busy-waits and the vertical-blank
wait are timing-only and have no memory effect, so they are not modelled.
-/

namespace GbaVram

/-! ### Byte-addressed memory -/

/-- Byte-addressed memory: address to stored byte. -/
abbrev Mem := Nat → Nat

/-- Store one byte (reduced mod 256). -/
def writeByte (m : Mem) (a v : Nat) : Mem :=
  fun b => if b = a then v % 256 else m b

/-- A 16-bit little-endian store, as performed by `volatile.Register16.Set`. -/
def write16 (m : Mem) (a v : Nat) : Mem :=
  writeByte (writeByte m a v) (a + 1) (v / 256)

/-- A 16-bit little-endian load, as performed by `volatile.Register16.Get`. -/
def read16 (m : Mem) (a : Nat) : Nat :=
  m a % 256 + 256 * (m (a + 1) % 256)

/-- A 32-bit little-endian store (`volatile.Register32.Set`). -/
def write32 (m : Mem) (a v : Nat) : Mem :=
  writeByte (writeByte (writeByte (writeByte m a v) (a + 1) (v / 256))
    (a + 2) (v / 65536)) (a + 3) (v / 16777216)

/-- A 32-bit little-endian load (`volatile.Register32.Get`). -/
def read32 (m : Mem) (a : Nat) : Nat :=
  m a % 256 + 256 * (m (a + 1) % 256) + 65536 * (m (a + 2) % 256)
    + 16777216 * (m (a + 3) % 256)

/-- Memory whose cells are genuine bytes (each below 256). -/
def ByteMem (m : Mem) : Prop := ∀ b, m b < 256

/-- The all-zero memory, used for concrete instances. -/
def zeroMem : Mem := fun _ => 0

theorem byteMem_zeroMem : ByteMem zeroMem := by
  intro b
  show (0 : Nat) < 256
  decide

/-- Go's `uintptr(i)` conversion of an `int`: reduction mod 2^64. -/
def goUintptr (i : Int) : Nat := (i % (2 ^ 64 : Int)).toNat

/-- Go's `uint16(i)` conversion of an `int`: reduction mod 2^16. -/
def goUint16 (i : Int) : Nat := (i % (2 ^ 16 : Int)).toNat

/-! ### Memory-layout constants (lib/memory constants and lib/vram/manager.go) -/

def VRAM_BASE : Nat := 0x06000000
def VRAM_SIZE : Nat := 0x18000
def SCREEN_WIDTH : Int := 240
def SCREEN_HEIGHT : Int := 160
def MODE_3 : Int := 3
def MODE_4 : Int := 4
def MODE_5 : Int := 5
def MODE3_FRAME_SIZE : Int := SCREEN_WIDTH * SCREEN_HEIGHT * 2
def MODE4_FRAME_SIZE : Int := SCREEN_WIDTH * SCREEN_HEIGHT
def MODE5_FRAME_SIZE : Int := 160 * 128 * 2
def FRAME0_ADDR : Nat := VRAM_BASE
def FRAME1_ADDR : Nat := VRAM_BASE + 0xA000

/-- `InVRAMBounds` from manager.go. -/
def InVRAMBounds (addr : Nat) : Bool :=
  decide (VRAM_BASE ≤ addr) && decide (addr < VRAM_BASE + VRAM_SIZE)

/-! ### MemoryRegion (lib/memory/color.go) -/

/-- A 16-bit load through a `uintptr` pointer: the pointer arithmetic
wraps, so each byte address is reduced mod 2^64. -/
def read16wrap (m : Mem) (a : Nat) : Nat :=
  m (a % 2 ^ 64) % 256 + 256 * (m ((a + 1) % 2 ^ 64) % 256)

/-- A 16-bit store through a (wrapping) `uintptr` pointer. -/
def write16wrap (m : Mem) (a v : Nat) : Mem :=
  writeByte (writeByte m (a % 2 ^ 64) v) ((a + 1) % 2 ^ 64) (v / 256)

/-- A 32-bit load through a (wrapping) `uintptr` pointer. -/
def read32wrap (m : Mem) (a : Nat) : Nat :=
  m (a % 2 ^ 64) % 256 + 256 * (m ((a + 1) % 2 ^ 64) % 256)
    + 65536 * (m ((a + 2) % 2 ^ 64) % 256) + 16777216 * (m ((a + 3) % 2 ^ 64) % 256)

/-- A 32-bit store through a (wrapping) `uintptr` pointer. -/
def write32wrap (m : Mem) (a v : Nat) : Mem :=
  writeByte (writeByte (writeByte (writeByte m (a % 2 ^ 64) v)
    ((a + 1) % 2 ^ 64) (v / 256)) ((a + 2) % 2 ^ 64) (v / 65536))
    ((a + 3) % 2 ^ 64) (v / 16777216)

structure MemoryRegion where
  base : Nat
  size : Nat

namespace MemoryRegion

/-- `InBounds`: `offset < r.size`. -/
def InBounds (r : MemoryRegion) (offset : Nat) : Bool :=
  decide (offset < r.size)

/-- `Read16` with bounds checking: the guard receives the `uintptr` sum
`offset + 1`, which wraps mod 2^64, and the access goes through the
wrapped pointer `r.base + offset`; checked-out-of-bounds reads return 0. -/
def Read16 (r : MemoryRegion) (m : Mem) (offset : Nat) : Nat :=
  if !r.InBounds ((offset + 1) % 2 ^ 64) then 0
  else read16wrap m (r.base + offset)

/-- `Write16` with bounds checking (wrapping `uintptr` arithmetic);
checked-out-of-bounds writes are no-ops. -/
def Write16 (r : MemoryRegion) (m : Mem) (offset v : Nat) : Mem :=
  if !r.InBounds ((offset + 1) % 2 ^ 64) then m
  else write16wrap m (r.base + offset) v

/-- `Read32` with bounds checking (wrapping `uintptr` arithmetic);
checked-out-of-bounds reads return 0. -/
def Read32 (r : MemoryRegion) (m : Mem) (offset : Nat) : Nat :=
  if !r.InBounds ((offset + 3) % 2 ^ 64) then 0
  else read32wrap m (r.base + offset)

/-- `Write32` with bounds checking (wrapping `uintptr` arithmetic);
checked-out-of-bounds writes are no-ops. -/
def Write32 (r : MemoryRegion) (m : Mem) (offset v : Nat) : Mem :=
  if !r.InBounds ((offset + 3) % 2 ^ 64) then m
  else write32wrap m (r.base + offset) v

end MemoryRegion

/-! ### BitmapBuffer (lib/vram/tiles.go, bitmap section) -/

structure BitmapBuffer where
  base : Nat
  width : Int
  height : Int
  bpp : Nat

namespace BitmapBuffer

/-- `InBounds`: coordinate check against the logical geometry. -/
def InBounds (bb : BitmapBuffer) (x y : Int) : Bool :=
  decide (0 ≤ x) && decide (x < bb.width) && decide (0 ≤ y) && decide (y < bb.height)

/-- `getPixelAddr`: linear pixel address (2 bytes per pixel at 16bpp, 1 otherwise). -/
def getPixelAddr (bb : BitmapBuffer) (x y : Int) : Nat :=
  if bb.bpp = 16 then bb.base + goUintptr ((y * bb.width + x) * 2)
  else bb.base + goUintptr (y * bb.width + x)

/-- `PlotPixel`: bounds-checked pixel write.  At 8 bits per pixel the write
is a read-modify-write of the containing 16-bit word (`offset &^ 1` is
embedded as `offset / 2 * 2`).  `none` models the returned error. -/
def PlotPixel (bb : BitmapBuffer) (m : Mem) (x y : Int) (color : Nat) : Option Mem :=
  if !bb.InBounds x y then none
  else
    let addr := bb.getPixelAddr x y
    if !InVRAMBounds addr then none
    else if bb.bpp = 16 then some (write16 m addr color)
    else
      let offset := goUintptr (y * bb.width + x)
      let waddr := bb.base + offset / 2 * 2
      let current := read16 m waddr
      if offset % 2 = 0 then
        some (write16 m waddr ((current &&& 0xFF00) ||| (color &&& 0xFF)))
      else
        some (write16 m waddr ((current &&& 0x00FF) ||| ((color &&& 0xFF) <<< 8)))

/-- `GetPixel`: bounds-checked pixel read; `none` models the returned error. -/
def GetPixel (bb : BitmapBuffer) (m : Mem) (x y : Int) : Option Nat :=
  if !bb.InBounds x y then none
  else
    let addr := bb.getPixelAddr x y
    if !InVRAMBounds addr then none
    else if bb.bpp = 16 then some (read16 m addr)
    else
      let offset := goUintptr (y * bb.width + x)
      let value := read16 m (bb.base + offset / 2 * 2)
      if offset % 2 = 0 then some (value &&& 0xFF)
      else some (value >>> 8)

/-- `PlotPixelFast`: the unchecked pixel write. -/
def PlotPixelFast (bb : BitmapBuffer) (m : Mem) (x y : Int) (color : Nat) : Mem :=
  if bb.bpp = 16 then write16 m (bb.getPixelAddr x y) color
  else
    let offset := goUintptr (y * bb.width + x)
    let waddr := bb.base + offset / 2 * 2
    let current := read16 m waddr
    if offset % 2 = 0 then
      write16 m waddr ((current &&& 0xFF00) ||| (color &&& 0xFF))
    else
      write16 m waddr ((current &&& 0x00FF) ||| ((color &&& 0xFF) <<< 8))

/-- Inner loop of `FillRect`: `for dx := 0; dx < width; dx++` with the
current x coordinate carried directly. -/
def fillRowAux (bb : BitmapBuffer) (color : Nat) (y : Int) :
    Nat → Int → Mem → Mem
  | 0, _, m => m
  | n + 1, cx, m => fillRowAux bb color y n (cx + 1) (bb.PlotPixelFast m cx y color)

/-- Outer loop of `FillRect`: `for dy := 0; dy < height; dy++`. -/
def fillRectRows (bb : BitmapBuffer) (color : Nat) (x : Int) (w : Nat) :
    Nat → Int → Mem → Mem
  | 0, _, m => m
  | n + 1, cy, m => fillRectRows bb color x w n (cy + 1) (fillRowAux bb color cy w x m)

/-- `FillRect`: clamp the rectangle to the buffer bounds, then fill
pixel by pixel. -/
def FillRect (bb : BitmapBuffer) (m : Mem) (x y width height : Int) (color : Nat) : Mem :=
  let width1 := if x < 0 then width + x else width
  let x1 := if x < 0 then 0 else x
  let height1 := if y < 0 then height + y else height
  let y1 := if y < 0 then 0 else y
  let width2 := if x1 + width1 > bb.width then bb.width - x1 else width1
  let height2 := if y1 + height1 > bb.height then bb.height - y1 else height1
  if width2 ≤ 0 ∨ height2 ≤ 0 then m
  else fillRectRows bb color x1 width2.toNat height2.toNat y1 m

/-- Inner loop of `CopyFrom`: one row, reading each source pixel from the
current memory and writing it unchecked to the destination; a failed
(out-of-VRAM) read skips the write. -/
def copyRowAux (bb src : BitmapBuffer) (srcY dstY : Int) :
    Nat → Int → Int → Mem → Mem
  | 0, _, _, m => m
  | n + 1, sx, dx, m =>
      copyRowAux bb src srcY dstY n (sx + 1) (dx + 1)
        (match src.GetPixel m sx srcY with
         | some p => bb.PlotPixelFast m dx dstY p
         | none => m)

/-- Outer loop of `CopyFrom`. -/
def copyRowsAux (bb src : BitmapBuffer) (srcX dstX : Int) (w : Nat) :
    Nat → Int → Int → Mem → Mem
  | 0, _, _, m => m
  | n + 1, sy, dy, m =>
      copyRowsAux bb src srcX dstX w n (sy + 1) (dy + 1)
        (copyRowAux bb src sy dy w srcX dstX m)

/-- `CopyFrom`: four-sided clamp cascade against source and destination
bounds, then pixel-by-pixel copy. -/
def CopyFrom (bb src : BitmapBuffer) (m : Mem)
    (srcX srcY dstX dstY width height : Int) : Mem :=
  let width1 := if srcX < 0 then width + srcX else width
  let dstX1 := if srcX < 0 then dstX - srcX else dstX
  let srcX1 := if srcX < 0 then 0 else srcX
  let height1 := if srcY < 0 then height + srcY else height
  let dstY1 := if srcY < 0 then dstY - srcY else dstY
  let srcY1 := if srcY < 0 then 0 else srcY
  let width2 := if srcX1 + width1 > src.width then src.width - srcX1 else width1
  let height2 := if srcY1 + height1 > src.height then src.height - srcY1 else height1
  let width3 := if dstX1 < 0 then width2 + dstX1 else width2
  let srcX2 := if dstX1 < 0 then srcX1 - dstX1 else srcX1
  let dstX2 := if dstX1 < 0 then 0 else dstX1
  let height3 := if dstY1 < 0 then height2 + dstY1 else height2
  let srcY2 := if dstY1 < 0 then srcY1 - dstY1 else srcY1
  let dstY2 := if dstY1 < 0 then 0 else dstY1
  let width4 := if dstX2 + width3 > bb.width then bb.width - dstX2 else width3
  let height4 := if dstY2 + height3 > bb.height then bb.height - dstY2 else height3
  if width4 ≤ 0 ∨ height4 ≤ 0 then m
  else copyRowsAux bb src srcX2 dstX2 width4.toNat height4.toNat srcY2 dstY2 m

end BitmapBuffer

/-! ### DMA acceleration (FastFill / FastCopy and the dma helpers) -/

/-- The memory effect of `dma3Fill32`: `n` sequential 32-bit stores of the
same value at `a, a+4, …` (the busy-wait polls have no memory effect). -/
def fillWords : Mem → Nat → Nat → Nat → Mem
  | m, _, _, 0 => m
  | m, a, v, n + 1 => fillWords (write32 m a v) (a + 4) v n

/-- The memory effect of `dma3Copy32`: `n` sequential 32-bit word copies. -/
def copyWords : Mem → Nat → Nat → Nat → Mem
  | m, _, _, 0 => m
  | m, s, d, n + 1 => copyWords (write32 m d (read32 m s)) (s + 4) (d + 4) n

/-- `dma3Fill32`: returns early for non-positive counts; otherwise the
16-bit `DMA3CNT_L` register is programmed with `uint16(wordCount)` — the
count is truncated mod 2^16 — and that many 32-bit stores of `value` are
performed (the busy-wait polls have no memory effect). -/
def dma3Fill32 (m : Mem) (destAddr value : Nat) (wordCount : Int) : Mem :=
  if wordCount ≤ 0 then m
  else fillWords m destAddr value (goUint16 wordCount)

/-- `dma3Copy32`: like `dma3Fill32`, the word count programmed into the
16-bit `DMA3CNT_L` register is `uint16(wordCount)`. -/
def dma3Copy32 (m : Mem) (srcAddr destAddr : Nat) (wordCount : Int) : Mem :=
  if wordCount ≤ 0 then m
  else copyWords m srcAddr destAddr (goUint16 wordCount)

namespace BitmapBuffer

/-- Row loop of `dmaFill16` for clamped fills that do not cover whole rows:
one DMA burst of `width/2` words per row plus an odd trailing pixel. -/
def dmaRow16 (bb : BitmapBuffer) (color : Nat) (x width : Int) (cy : Int) (m : Mem) : Mem :=
  let rowStart := bb.base + goUintptr (cy * bb.width * 2 + x * 2)
  let wordCount := Int.tdiv width 2
  let m1 := if wordCount > 0 then
      dma3Fill32 m rowStart (color ||| (color <<< 16)) wordCount
    else m
  if Int.tmod width 2 = 1 then write16 m1 (rowStart + wordCount.toNat * 4) color
  else m1

/-- `for dy := 0; dy < height; dy++` over `dmaRow16`. -/
def dmaFill16Rows (bb : BitmapBuffer) (color : Nat) (x width : Int) :
    Nat → Int → Mem → Mem
  | 0, _, m => m
  | n + 1, cy, m => dmaFill16Rows bb color x width n (cy + 1) (bb.dmaRow16 color x width cy m)

/-- `dmaFill16`: whole-row fills use one contiguous DMA burst plus an odd
trailing pixel; other fills go row by row. -/
def dmaFill16 (bb : BitmapBuffer) (m : Mem) (x y width height : Int) (color : Nat) : Mem :=
  if x = 0 ∧ width = bb.width then
    let startAddr := bb.base + goUintptr (y * bb.width * 2)
    let wordCount := Int.tdiv (width * height) 2
    let m1 := if wordCount > 0 then
        dma3Fill32 m startAddr (color ||| (color <<< 16)) wordCount
      else m
    let remaining := Int.tmod (width * height) 2
    if remaining > 0 then write16 m1 (startAddr + wordCount.toNat * 4) color
    else m1
  else dmaFill16Rows bb color x width height.toNat y m

/-- The trailing-byte loop of `dmaFill8`
(`for i := 0; i < remaining; i += 2`), with enough fuel for all its
iterations (steps of 2 from 0, so `remaining` iterations suffice). -/
def dmaFill8Rem (addr color remaining : Nat) : Nat → Nat → Mem → Mem
  | 0, _, m => m
  | f + 1, i, m =>
      if i < remaining then
        dmaFill8Rem addr color remaining f (i + 2)
          (if i + 1 < remaining then
             write16 m (addr + i) (color ||| (color <<< 8))
           else
             let current := read16 m (addr + i / 2 * 2)
             if i % 2 = 0 then
               write16 m (addr + i / 2 * 2) ((current &&& 0xFF00) ||| color)
             else
               write16 m (addr + i / 2 * 2) ((current &&& 0x00FF) ||| (color <<< 8)))
      else m

/-- `dmaFill8` (the `color` argument is the Go `uint8`): whole-row fills
use one DMA burst of 4-byte words plus a 0–3 byte remainder; anything else
falls back to `FillRect`. -/
def dmaFill8 (bb : BitmapBuffer) (m : Mem) (x y width height : Int) (color : Nat) : Mem :=
  if x = 0 ∧ width = bb.width then
    let startAddr := bb.base + goUintptr (y * bb.width)
    let wordCount := Int.tdiv (width * height) 4
    let m1 := if wordCount > 0 then
        dma3Fill32 m startAddr
          (color ||| (color <<< 8) ||| (color <<< 16) ||| (color <<< 24)) wordCount
      else m
    let remaining := Int.tmod (width * height) 4
    let addr := startAddr + wordCount.toNat * 4
    dmaFill8Rem addr color remaining.toNat remaining.toNat 0 m1
  else bb.FillRect m x y width height color

/-- `dmaFill`: dispatch on depth; the 8-bit path receives `uint8(color)`. -/
def dmaFill (bb : BitmapBuffer) (m : Mem) (x y width height : Int) (color : Nat) : Mem :=
  if bb.bpp = 16 then bb.dmaFill16 m x y width height color
  else bb.dmaFill8 m x y width height (color % 256)

/-- `FastFill`: clamp exactly as `FillRect` does, then use DMA for 64 or
more pixels and the plain per-pixel path below that. -/
def FastFill (bb : BitmapBuffer) (m : Mem) (x y width height : Int) (color : Nat) : Mem :=
  let width1 := if x < 0 then width + x else width
  let x1 := if x < 0 then 0 else x
  let height1 := if y < 0 then height + y else height
  let y1 := if y < 0 then 0 else y
  let width2 := if x1 + width1 > bb.width then bb.width - x1 else width1
  let height2 := if y1 + height1 > bb.height then bb.height - y1 else height1
  if width2 ≤ 0 ∨ height2 ≤ 0 then m
  else if width2 * height2 ≥ 64 then bb.dmaFill m x1 y1 width2 height2 color
  else bb.FillRect m x1 y1 width2 height2 color

/-- `dmaCopy`: only the exact full-buffer case uses the DMA channel
(in whole 32-bit words, `width*height/2` words at 16bpp and
`width*height/4` at 8bpp); everything else falls back to `CopyFrom`. -/
def dmaCopy (bb src : BitmapBuffer) (m : Mem)
    (srcX srcY dstX dstY width height : Int) : Mem :=
  if srcX = 0 ∧ srcY = 0 ∧ dstX = 0 ∧ dstY = 0 ∧
      width = bb.width ∧ height = bb.height ∧ width = src.width ∧ height = src.height then
    let wordCount := if bb.bpp = 16 then Int.tdiv (width * height) 2
      else Int.tdiv (width * height) 4
    if wordCount > 0 then dma3Copy32 m src.base bb.base wordCount else m
  else bb.CopyFrom src m srcX srcY dstX dstY width height

/-- `FastCopy`: mismatched depths fall back to `CopyFrom`; otherwise DMA is
used at 128 or more pixels. -/
def FastCopy (bb src : BitmapBuffer) (m : Mem) : Mem :=
  if src.bpp ≠ bb.bpp then bb.CopyFrom src m 0 0 0 0 src.width src.height
  else if bb.width * bb.height ≥ 128 then bb.dmaCopy src m 0 0 0 0 bb.width bb.height
  else bb.CopyFrom src m 0 0 0 0 src.width src.height

end BitmapBuffer

/-! ### ScreenData tile map entries (lib/vram/tiles.go, tile section) -/

structure ScreenData where
  base : Nat
  width : Int
  height : Int
  maxEntries : Int

namespace ScreenData

/-- `InBounds` for tile coordinates. -/
def InBounds (sd : ScreenData) (x y : Int) : Bool :=
  decide (0 ≤ x) && decide (x < sd.width) && decide (0 ≤ y) && decide (y < sd.height)

/-- `SetTile`: packs `uint16(tileIndex & 0x3FF) | (attributes & 0xFC00)`
into the map entry (`tileIndex & 0x3FF` is embedded as `tileIndex mod 1024`,
which agrees with the two's-complement `&` for every `int`). -/
def SetTile (sd : ScreenData) (m : Mem) (x y tileIndex : Int) (attributes : Nat) :
    Option Mem :=
  if !sd.InBounds x y then none
  else
    let entryIndex := y * sd.width + x
    if entryIndex ≥ sd.maxEntries then none
    else
      let screenEntry := (tileIndex % (1024 : Int)).toNat ||| (attributes &&& 0xFC00)
      some (write16 m (sd.base + goUintptr (entryIndex * 2)) screenEntry)

/-- `GetTile`: decodes `(entry & 0x3FF, entry & 0xFC00)`. -/
def GetTile (sd : ScreenData) (m : Mem) (x y : Int) : Option (Nat × Nat) :=
  if !sd.InBounds x y then none
  else
    let entryIndex := y * sd.width + x
    if entryIndex ≥ sd.maxEntries then none
    else
      let screenEntry := read16 m (sd.base + goUintptr (entryIndex * 2))
      some (screenEntry &&& 0x3FF, screenEntry &&& 0xFC00)

end ScreenData

/-- `SetTilePalette`: `uint16((palette & 0xF) << 12)` (`palette & 0xF`
embedded as `palette mod 16`). -/
def SetTilePalette (palette : Int) : Nat :=
  (palette % (16 : Int)).toNat <<< 12

/-! ### VRAMManager (lib/vram/manager.go) -/

structure VRAMManager where
  mode : Int
  currentPage : Int
  frameSize : Int
  width : Int
  height : Int
  bpp : Nat

namespace VRAMManager

/-- `SetMode`: per-mode geometry; unrecognized modes fall into the default
branch, which assigns Mode 3 geometry. -/
def SetMode (vm : VRAMManager) (mode : Int) : VRAMManager :=
  if mode = MODE_3 then
    { vm with
      mode := mode
      frameSize := MODE3_FRAME_SIZE
      width := SCREEN_WIDTH
      height := SCREEN_HEIGHT
      bpp := 16 }
  else if mode = MODE_4 then
    { vm with
      mode := mode
      frameSize := MODE4_FRAME_SIZE
      width := SCREEN_WIDTH
      height := SCREEN_HEIGHT
      bpp := 8 }
  else if mode = MODE_5 then
    { vm with
      mode := mode
      frameSize := MODE5_FRAME_SIZE
      width := 160
      height := 128
      bpp := 16 }
  else
    { vm with
      mode := mode
      frameSize := MODE3_FRAME_SIZE
      width := SCREEN_WIDTH
      height := SCREEN_HEIGHT
      bpp := 16 }

/-- `NewVRAMManager`. -/
def NewVRAMManager (mode : Int) : VRAMManager :=
  SetMode { mode := mode, currentPage := 0, frameSize := 0, width := 0, height := 0, bpp := 0 } mode

/-- `SupportsDoubleBuffering`: true only for modes 4 and 5. -/
def SupportsDoubleBuffering (vm : VRAMManager) : Bool :=
  decide (vm.mode = MODE_4) || decide (vm.mode = MODE_5)

/-- `GetCurrentBuffer`. -/
def GetCurrentBuffer (vm : VRAMManager) : BitmapBuffer :=
  if !vm.SupportsDoubleBuffering then
    { base := FRAME0_ADDR, width := vm.width, height := vm.height, bpp := vm.bpp }
  else if vm.currentPage = 0 then
    { base := FRAME0_ADDR, width := vm.width, height := vm.height, bpp := vm.bpp }
  else
    { base := FRAME1_ADDR, width := vm.width, height := vm.height, bpp := vm.bpp }

/-- `GetBackBuffer`. -/
def GetBackBuffer (vm : VRAMManager) : BitmapBuffer :=
  if !vm.SupportsDoubleBuffering then vm.GetCurrentBuffer
  else if vm.currentPage = 0 then
    { base := FRAME1_ADDR, width := vm.width, height := vm.height, bpp := vm.bpp }
  else
    { base := FRAME0_ADDR, width := vm.width, height := vm.height, bpp := vm.bpp }

/-- `SwapBuffers`: flips the page only in double-buffered modes. -/
def SwapBuffers (vm : VRAMManager) : VRAMManager :=
  if vm.SupportsDoubleBuffering then { vm with currentPage := 1 - vm.currentPage }
  else vm

end VRAMManager

/-! ### DoubleBuffer (double-buffer module) -/

structure DoubleBuffer where
  manager : VRAMManager
  frontBuffer : BitmapBuffer
  backBuffer : BitmapBuffer
  vsyncEnabled : Bool

namespace DoubleBuffer

/-- `updateDisplayControl`: the single combined 16-bit value stored to the
display control register — mode bits, background-2 enable (bit 10) and, for
page 1, the page-select bit (bit 4). -/
def updateDisplayControl (db : DoubleBuffer) : Nat :=
  let currentPage := db.manager.currentPage
  let mode := db.manager.mode
  if currentPage = 1 then goUint16 mode ||| (1 <<< 10) ||| (1 <<< 4)
  else goUint16 mode ||| (1 <<< 10)

/-- `Swap`: flip the page, recompute both buffer views, then store the
combined display-control value.  The returned `Nat` is the value written to
the register (the optional vertical-blank wait has no memory effect). -/
def Swap (db : DoubleBuffer) : DoubleBuffer × Nat :=
  let mgr := db.manager.SwapBuffers
  let db' := { db with
               manager := mgr
               frontBuffer := mgr.GetCurrentBuffer
               backBuffer := mgr.GetBackBuffer }
  (db', updateDisplayControl db')

/-- `Present` is an alias for `Swap`. -/
def Present (db : DoubleBuffer) : DoubleBuffer × Nat := Swap db

end DoubleBuffer


/-! ### Bitwise arithmetic helpers -/

theorem testBit_add_mul_two_pow (a b k i : Nat) (ha : a < 2 ^ k) :
    (a + b * 2 ^ k).testBit i = if i < k then a.testBit i else b.testBit (i - k) := by
  rcases Nat.lt_or_ge i k with h | h
  · rw [if_pos h, Nat.testBit_to_div_mod, Nat.testBit_to_div_mod]
    have hk : (2 : Nat) ^ k = 2 ^ (k - i) * 2 ^ i := by
      rw [← Nat.pow_add]; congr 1; omega
    have h2 : (a + b * 2 ^ k) / 2 ^ i = a / 2 ^ i + b * 2 ^ (k - i) := by
      rw [hk, ← Nat.mul_assoc, Nat.add_mul_div_right _ _ (Nat.two_pow_pos i)]
    have h3 : b * 2 ^ (k - i) % 2 = 0 := by
      have he : (2 : Nat) ^ (k - i) = 2 * 2 ^ (k - i - 1) := by
        rw [← Nat.pow_succ']; congr 1; omega
      have he2 : b * 2 ^ (k - i) = b * 2 ^ (k - i - 1) * 2 := by rw [he]; ring
      rw [he2, Nat.mul_mod_left]
    have h4 : (a / 2 ^ i + b * 2 ^ (k - i)) % 2 = a / 2 ^ i % 2 := by omega
    rw [h2, h4]
  · rw [if_neg (Nat.not_lt.mpr h), Nat.testBit_to_div_mod, Nat.testBit_to_div_mod]
    have hk : (2 : Nat) ^ i = 2 ^ k * 2 ^ (i - k) := by
      rw [← Nat.pow_add]; congr 1; omega
    have h2 : (a + b * 2 ^ k) / 2 ^ i = b / 2 ^ (i - k) := by
      rw [hk, ← Nat.div_div_eq_div_mul,
        Nat.add_mul_div_right _ _ (Nat.two_pow_pos k), Nat.div_eq_of_lt ha, Nat.zero_add]
    rw [h2]

theorem testBit_mul_two_pow (b k i : Nat) :
    (b * 2 ^ k).testBit i = if i < k then false else b.testBit (i - k) := by
  have := testBit_add_mul_two_pow 0 b k i (Nat.two_pow_pos k)
  simpa using this

theorem lor_mul_two_pow (a b k : Nat) (ha : a < 2 ^ k) :
    a ||| b * 2 ^ k = a + b * 2 ^ k := by
  apply Nat.eq_of_testBit_eq
  intro i
  rw [Nat.testBit_lor, testBit_add_mul_two_pow a b k i ha, testBit_mul_two_pow]
  rcases Nat.lt_or_ge i k with h | h
  · simp [h]
  · have hfa : a.testBit i = false :=
      Nat.testBit_lt_two_pow (lt_of_lt_of_le ha (Nat.pow_le_pow_right (by norm_num) h))
    simp [Nat.not_lt.mpr h, hfa]

theorem lor_shiftLeft_eq_add (a b k : Nat) (ha : a < 2 ^ k) :
    a ||| (b <<< k) = a + b * 2 ^ k := by
  rw [Nat.shiftLeft_eq]; exact lor_mul_two_pow a b k ha

theorem testBit_two_pow_sub_one (w j : Nat) :
    (2 ^ w - 1).testBit j = decide (j < w) := by
  rcases Nat.lt_or_ge j w with h | h
  · rw [Nat.testBit_to_div_mod]
    have hA : (2 : Nat) ^ w = 2 ^ (w - j) * 2 ^ j := by
      rw [← Nat.pow_add]; congr 1; omega
    have hj := Nat.two_pow_pos j
    have hwj := Nat.two_pow_pos (w - j)
    have h1 : 2 ^ w - 1 = (2 ^ (w - j) - 1) * 2 ^ j + (2 ^ j - 1) := by
      have hsub : (2 ^ (w - j) - 1) * 2 ^ j = 2 ^ (w - j) * 2 ^ j - 2 ^ j := by
        rw [Nat.sub_mul, Nat.one_mul]
      rw [hA, hsub]
      have hle : (2 : Nat) ^ j ≤ 2 ^ (w - j) * 2 ^ j := Nat.le_mul_of_pos_left _ hwj
      omega
    have h2 : (2 ^ w - 1) / 2 ^ j = 2 ^ (w - j) - 1 := by
      rw [h1, Nat.add_comm, Nat.add_mul_div_right _ _ hj,
        Nat.div_eq_of_lt (by omega), Nat.zero_add]
    have h3 : (2 : Nat) ^ (w - j) = 2 * 2 ^ (w - j - 1) := by
      rw [← Nat.pow_succ']; congr 1; omega
    have h4 : (2 ^ (w - j) - 1) % 2 = 1 := by
      have := Nat.two_pow_pos (w - j - 1)
      omega
    rw [h2, h4]
    simp [h]
  · have hlt : (2 : Nat) ^ w - 1 < 2 ^ j := by
      have hle : (2 : Nat) ^ w ≤ 2 ^ j := Nat.pow_le_pow_right (by norm_num) h
      have := Nat.two_pow_pos w
      omega
    rw [Nat.testBit_lt_two_pow hlt]
    exact (decide_eq_false (Nat.not_lt.mpr h)).symm

theorem land_mask_shift (r q k w : Nat) (hr : r < 2 ^ k) (hq : q < 2 ^ w) :
    (r + q * 2 ^ k) &&& ((2 ^ w - 1) <<< k) = q * 2 ^ k := by
  apply Nat.eq_of_testBit_eq
  intro i
  rw [Nat.testBit_land, Nat.testBit_shiftLeft, testBit_add_mul_two_pow r q k i hr,
    testBit_mul_two_pow, testBit_two_pow_sub_one]
  rcases Nat.lt_or_ge i k with h | h
  · simp [h, Nat.not_le.mpr h]
  · rw [if_neg (Nat.not_lt.mpr h), if_neg (Nat.not_lt.mpr h)]
    have hd : decide (i ≥ k) = true := by simpa using h
    rw [hd, Bool.true_and]
    rcases Nat.lt_or_ge (i - k) w with h2 | h2
    · simp [h2]
    · have hqf : q.testBit (i - k) = false :=
        Nat.testBit_lt_two_pow (lt_of_lt_of_le hq (Nat.pow_le_pow_right (by norm_num) h2))
      simp [hqf, Nat.not_lt.mpr h2]

theorem land_ff (x : Nat) : x &&& 0xFF = x % 256 := by
  have h : (0xFF : Nat) = 2 ^ 8 - 1 := by norm_num
  rw [h, Nat.and_pow_two_sub_one_eq_mod]

theorem land_3ff (x : Nat) : x &&& 0x3FF = x % 1024 := by
  have h : (0x3FF : Nat) = 2 ^ 10 - 1 := by norm_num
  rw [h, Nat.and_pow_two_sub_one_eq_mod]

theorem land_ff00 (cur : Nat) (h : cur < 65536) :
    cur &&& 0xFF00 = cur / 256 * 256 := by
  have h2 : (0xFF00 : Nat) = (2 ^ 8 - 1) <<< 8 := by
    rw [Nat.shiftLeft_eq]; norm_num
  have h3 : cur / 256 < 2 ^ 8 := by
    have : (2 : Nat) ^ 8 = 256 := by norm_num
    omega
  have h4 : cur % 256 < 2 ^ 8 := by
    have : (2 : Nat) ^ 8 = 256 := by norm_num
    omega
  have h6 : cur % 256 + cur / 256 * 2 ^ 8 = cur := by
    have : (2 : Nat) ^ 8 = 256 := by norm_num
    omega
  calc cur &&& 0xFF00
      = (cur % 256 + cur / 256 * 2 ^ 8) &&& ((2 ^ 8 - 1) <<< 8) := by rw [h6, ← h2]
    _ = cur / 256 * 2 ^ 8 := land_mask_shift _ _ 8 8 h4 h3
    _ = cur / 256 * 256 := by norm_num

theorem land_fc00 (a : Nat) (h : a < 65536) :
    a &&& 0xFC00 = a / 1024 * 1024 := by
  have h2 : (0xFC00 : Nat) = (2 ^ 6 - 1) <<< 10 := by
    rw [Nat.shiftLeft_eq]; norm_num
  have h3 : a / 1024 < 2 ^ 6 := by
    have : (2 : Nat) ^ 6 = 64 := by norm_num
    omega
  have h4 : a % 1024 < 2 ^ 10 := by
    have : (2 : Nat) ^ 10 = 1024 := by norm_num
    omega
  have h6 : a % 1024 + a / 1024 * 2 ^ 10 = a := by
    have : (2 : Nat) ^ 10 = 1024 := by norm_num
    omega
  calc a &&& 0xFC00
      = (a % 1024 + a / 1024 * 2 ^ 10) &&& ((2 ^ 6 - 1) <<< 10) := by rw [h6, ← h2]
    _ = a / 1024 * 2 ^ 10 := land_mask_shift _ _ 10 6 h4 h3
    _ = a / 1024 * 1024 := by norm_num

theorem rmw_low (cur c : Nat) (h : cur < 65536) :
    (cur &&& 0xFF00) ||| (c &&& 0xFF) = c % 256 + cur / 256 * 256 := by
  rw [land_ff00 cur h, land_ff, Nat.lor_comm]
  have h2 : cur / 256 * 256 = cur / 256 * 2 ^ 8 := by norm_num
  have h3 : c % 256 < 2 ^ 8 := by
    have : (2 : Nat) ^ 8 = 256 := by norm_num
    omega
  rw [h2, lor_mul_two_pow _ _ _ h3]

theorem rmw_high (cur c : Nat) :
    (cur &&& 0x00FF) ||| ((c &&& 0xFF) <<< 8) = cur % 256 + c % 256 * 256 := by
  have h1 : (0x00FF : Nat) = 0xFF := by norm_num
  have h3 : cur % 256 < 2 ^ 8 := by
    have : (2 : Nat) ^ 8 = 256 := by norm_num
    omega
  rw [h1, land_ff, land_ff, lor_shiftLeft_eq_add _ _ _ h3]
  norm_num

theorem or16_double (c : Nat) (h : c < 65536) :
    c ||| (c <<< 16) = c + c * 65536 := by
  have h2 : c < 2 ^ 16 := by
    have : (2 : Nat) ^ 16 = 65536 := by norm_num
    omega
  rw [lor_shiftLeft_eq_add _ _ _ h2]
  norm_num

theorem or8_pair (c : Nat) (h : c < 256) :
    c ||| (c <<< 8) = c + c * 256 := by
  have h2 : c < 2 ^ 8 := by
    have : (2 : Nat) ^ 8 = 256 := by norm_num
    omega
  rw [lor_shiftLeft_eq_add _ _ _ h2]
  norm_num

theorem or8_quad (c : Nat) (h : c < 256) :
    c ||| (c <<< 8) ||| (c <<< 16) ||| (c <<< 24) =
      c + c * 256 + c * 65536 + c * 16777216 := by
  rw [or8_pair c h]
  have h2 : c + c * 256 < 2 ^ 16 := by
    have : (2 : Nat) ^ 16 = 65536 := by norm_num
    omega
  rw [lor_shiftLeft_eq_add _ _ 16 h2]
  have h3 : c + c * 256 + c * 2 ^ 16 < 2 ^ 24 := by
    have e1 : (2 : Nat) ^ 16 = 65536 := by norm_num
    have e2 : (2 : Nat) ^ 24 = 16777216 := by norm_num
    omega
  rw [lor_shiftLeft_eq_add _ _ 24 h3]
  norm_num

/-! ### Memory lemmas -/

theorem writeByte_apply (m : Mem) (a v b : Nat) :
    writeByte m a v b = if b = a then v % 256 else m b := rfl

theorem writeByte_congr (m : Mem) (a : Nat) {v w : Nat} (h : v % 256 = w % 256) :
    writeByte m a v = writeByte m a w := by
  funext b
  simp only [writeByte_apply]
  split <;> simp [h]

theorem writeByte_self (m : Mem) (a : Nat) (hm : m a < 256) :
    writeByte m a (m a) = m := by
  funext b
  simp only [writeByte_apply]
  split
  · next hb => subst hb; omega
  · rfl

theorem byteMem_writeByte {m : Mem} (hm : ByteMem m) (a v : Nat) :
    ByteMem (writeByte m a v) := by
  intro b
  simp only [writeByte_apply]
  split
  · omega
  · exact hm b

theorem byteMem_write16 {m : Mem} (hm : ByteMem m) (a v : Nat) :
    ByteMem (write16 m a v) :=
  byteMem_writeByte (byteMem_writeByte hm a v) (a + 1) (v / 256)

theorem byteMem_write32 {m : Mem} (hm : ByteMem m) (a v : Nat) :
    ByteMem (write32 m a v) :=
  byteMem_writeByte (byteMem_writeByte (byteMem_writeByte
    (byteMem_writeByte hm a v) (a + 1) (v / 256)) (a + 2) (v / 65536))
    (a + 3) (v / 16777216)

theorem write16_apply (m : Mem) (a v b : Nat) :
    write16 m a v b =
      if b = a + 1 then v / 256 % 256 else if b = a then v % 256 else m b := rfl

theorem write16_congr (m : Mem) (a : Nat) {v w : Nat} (h : v % 65536 = w % 65536) :
    write16 m a v = write16 m a w := by
  funext b
  simp only [write16_apply]
  have h1 : v % 256 = w % 256 := by omega
  have h2 : v / 256 % 256 = w / 256 % 256 := by omega
  split <;> [exact h2; skip]
  split <;> [exact h1; rfl]

theorem write16_apply_out (m : Mem) (a v b : Nat) (h1 : b ≠ a) (h2 : b ≠ a + 1) :
    write16 m a v b = m b := by
  simp [write16_apply, h1, h2]

theorem read16_write16_same (m : Mem) (a v : Nat) :
    read16 (write16 m a v) a = v % 65536 := by
  have h1 : write16 m a v a = v % 256 := by
    rw [write16_apply, if_neg (by omega : ¬ a = a + 1), if_pos rfl]
  have h2 : write16 m a v (a + 1) = v / 256 % 256 := by
    rw [write16_apply, if_pos rfl]
  simp only [read16, h1, h2]
  omega

theorem read16_lt (m : Mem) (a : Nat) : read16 m a < 65536 := by
  simp only [read16]; omega

theorem read16_congr_of_eq (m m' : Mem) (a : Nat)
    (h0 : m' a = m a) (h1 : m' (a + 1) = m (a + 1)) :
    read16 m' a = read16 m a := by
  simp only [read16, h0, h1]

theorem write16_as_bytes (m : Mem) (a c : Nat) (hm : m (a + 1) < 256) :
    write16 m a ((read16 m a &&& 0xFF00) ||| (c &&& 0xFF)) = writeByte m a c := by
  have hcur := read16_lt m a
  have hv := rmw_low (read16 m a) c hcur
  have hdiv : read16 m a / 256 = m (a + 1) % 256 := by
    simp only [read16]; omega
  funext b
  rw [write16_apply, writeByte_apply, hv, hdiv]
  split
  · next hb =>
    subst hb
    rw [if_neg (by omega)]
    omega
  · split <;> omega

theorem write16_as_bytes_high (m : Mem) (a c : Nat) (hm : m a < 256) :
    write16 m a ((read16 m a &&& 0x00FF) ||| ((c &&& 0xFF) <<< 8)) =
      writeByte m (a + 1) c := by
  have hv := rmw_high (read16 m a) c
  have hmod : read16 m a % 256 = m a % 256 := by
    simp only [read16]; omega
  funext b
  rw [write16_apply, writeByte_apply, hv, hmod]
  split
  · next hb => subst hb; omega
  · split
    · next hb2 => subst hb2; omega
    · rfl

theorem write32_apply (m : Mem) (a v b : Nat) :
    write32 m a v b =
      if b = a + 3 then v / 16777216 % 256
      else if b = a + 2 then v / 65536 % 256
      else if b = a + 1 then v / 256 % 256
      else if b = a then v % 256 else m b := rfl

theorem write32_split (m : Mem) (a v : Nat) :
    write32 m a v = write16 (write16 m a v) (a + 2) (v / 65536) := by
  have e1 : v / 65536 / 256 = v / 16777216 := by
    rw [Nat.div_div_eq_div_mul]
  funext b
  simp only [write32_apply, write16_apply, e1]

theorem read32_split (m : Mem) (a : Nat) :
    read32 m a = read16 m a + 65536 * read16 m (a + 2) := by
  simp only [read32, read16]
  have : a + 2 + 1 = a + 3 := by omega
  rw [this]
  ring

/-! ### Sequential fill helpers (proof-side canonical forms) -/

/-- `n` sequential 16-bit stores of `c` at `a, a+2, …`. -/
def fill16 : Mem → Nat → Nat → Nat → Mem
  | m, _, _, 0 => m
  | m, a, c, n + 1 => fill16 (write16 m a c) (a + 2) c n

/-- `n` sequential byte stores of `c` at `a, a+1, …`. -/
def fillBytes : Mem → Nat → Nat → Nat → Mem
  | m, _, _, 0 => m
  | m, a, c, n + 1 => fillBytes (writeByte m a c) (a + 1) c n

theorem fill16_append (m : Mem) (a c n1 n2 : Nat) :
    fill16 m a c (n1 + n2) = fill16 (fill16 m a c n1) (a + 2 * n1) c n2 := by
  induction n1 generalizing m a with
  | zero => simp [fill16]
  | succ n ih =>
    have h : n + 1 + n2 = n + n2 + 1 := by omega
    rw [h]
    show fill16 (write16 m a c) (a + 2) c (n + n2) = _
    rw [ih]
    have h2 : a + 2 + 2 * n = a + 2 * (n + 1) := by omega
    rw [h2]
    rfl

theorem fillBytes_append (m : Mem) (a c n1 n2 : Nat) :
    fillBytes m a c (n1 + n2) = fillBytes (fillBytes m a c n1) (a + n1) c n2 := by
  induction n1 generalizing m a with
  | zero => simp [fillBytes]
  | succ n ih =>
    have h : n + 1 + n2 = n + n2 + 1 := by omega
    rw [h]
    show fillBytes (writeByte m a c) (a + 1) c (n + n2) = _
    rw [ih]
    have h2 : a + 1 + n = a + (n + 1) := by omega
    rw [h2]
    rfl

theorem byteMem_fill16 {m : Mem} (hm : ByteMem m) (a c n : Nat) :
    ByteMem (fill16 m a c n) := by
  induction n generalizing m a with
  | zero => exact hm
  | succ n ih =>
    show ByteMem (fill16 (write16 m a c) (a + 2) c n)
    exact ih (byteMem_write16 hm a c) (a + 2)

theorem byteMem_fillBytes {m : Mem} (hm : ByteMem m) (a c n : Nat) :
    ByteMem (fillBytes m a c n) := by
  induction n generalizing m a with
  | zero => exact hm
  | succ n ih =>
    show ByteMem (fillBytes (writeByte m a c) (a + 1) c n)
    exact ih (byteMem_writeByte hm a c) (a + 1)

theorem fillBytes_congr (m : Mem) (a : Nat) {c c' : Nat} (h : c % 256 = c' % 256) :
    ∀ n, fillBytes m a c n = fillBytes m a c' n := by
  intro n
  induction n generalizing m a with
  | zero => rfl
  | succ n ih =>
    show fillBytes (writeByte m a c) (a + 1) c n = fillBytes (writeByte m a c') (a + 1) c' n
    rw [writeByte_congr m a h, ih]

theorem fillWords_fill16 (m : Mem) (a c n : Nat) (hc : c < 65536) :
    fillWords m a (c ||| (c <<< 16)) n = fill16 m a c (2 * n) := by
  induction n generalizing m a with
  | zero => rfl
  | succ n ih =>
    show fillWords (write32 m a (c ||| (c <<< 16))) (a + 4) _ n = _
    have hv : c ||| (c <<< 16) = c + c * 65536 := or16_double c hc
    have hw : write32 m a (c ||| (c <<< 16)) = write16 (write16 m a c) (a + 2) c := by
      rw [hv, write32_split]
      have e1 : (c + c * 65536) / 65536 = c := by omega
      rw [e1]
      have e2 : write16 m a (c + c * 65536) = write16 m a c :=
        write16_congr m a (by omega)
      rw [e2]
    rw [hw, ih]
    have h2 : 2 * (n + 1) = 2 + 2 * n := by omega
    rw [h2]
    have : fill16 m a c (2 + 2 * n) =
        fill16 (fill16 m a c 2) (a + 2 * 2) c (2 * n) := fill16_append m a c 2 (2 * n)
    rw [this]
    rfl

theorem write32_four_bytes (m : Mem) (a c : Nat) (hc : c < 256) :
    write32 m a (c + c * 256 + c * 65536 + c * 16777216) = fillBytes m a c 4 := by
  funext b
  have e0 : (c + c * 256 + c * 65536 + c * 16777216) % 256 = c := by omega
  have e1 : (c + c * 256 + c * 65536 + c * 16777216) / 256 % 256 = c := by omega
  have hX2 : c + c * 256 + c * 65536 + c * 16777216 = c * 257 + c * 257 * 65536 := by
    ring
  have e2 : (c + c * 256 + c * 65536 + c * 16777216) / 65536 % 256 = c := by
    rw [hX2, Nat.add_mul_div_right _ _ (by norm_num : 0 < 65536),
      Nat.div_eq_of_lt (by omega : c * 257 < 65536), Nat.zero_add]
    omega
  have hX3 : c + c * 256 + c * 65536 + c * 16777216 = c * 65793 + c * 16777216 := by
    ring
  have e3 : (c + c * 256 + c * 65536 + c * 16777216) / 16777216 % 256 = c := by
    rw [hX3, Nat.add_mul_div_right _ _ (by norm_num : 0 < 16777216),
      Nat.div_eq_of_lt (by omega : c * 65793 < 16777216), Nat.zero_add]
    omega
  have hfb : fillBytes m a c 4 =
      writeByte (writeByte (writeByte (writeByte m a c) (a + 1) c) (a + 2) c) (a + 3) c := rfl
  rw [write32_apply, hfb]
  simp only [writeByte_apply]
  have hcm : c % 256 = c := by omega
  by_cases h3 : b = a + 3
  · simp [h3, e3, hcm]
  · by_cases h2 : b = a + 2
    · simp [h2, h3, e2, hcm, show ¬(a + 2 = a + 3) by omega]
    · by_cases h1 : b = a + 1
      · simp [h1, h2, h3, e1, hcm, show ¬(a + 1 = a + 3) by omega,
          show ¬(a + 1 = a + 2) by omega]
      · by_cases h0 : b = a
        · simp [h0, h1, h2, h3, e0, hcm, show ¬(a = a + 3) by omega,
            show ¬(a = a + 2) by omega, show ¬(a = a + 1) by omega]
        · simp [h0, h1, h2, h3]

theorem fillWords_fillBytes (m : Mem) (a c n : Nat) (hc : c < 256) :
    fillWords m a (c ||| (c <<< 8) ||| (c <<< 16) ||| (c <<< 24)) n =
      fillBytes m a c (4 * n) := by
  induction n generalizing m a with
  | zero => rfl
  | succ n ih =>
    show fillWords (write32 m a _) (a + 4) _ n = _
    rw [ih, or8_quad c hc, write32_four_bytes m a c hc]
    have h2 : 4 * (n + 1) = 4 + 4 * n := by omega
    rw [h2, fillBytes_append m a c 4 (4 * n)]


/-! ### Pixel-operation reduction lemmas -/

theorem goUintptr_eq (i : Int) (h0 : 0 ≤ i) (h1 : i < 2 ^ 64) :
    goUintptr i = i.toNat := by
  unfold goUintptr
  rw [Int.emod_eq_of_lt h0 h1]

theorem inVRAMBounds_iff (a : Nat) :
    InVRAMBounds a = true ↔ VRAM_BASE ≤ a ∧ a < VRAM_BASE + VRAM_SIZE := by
  simp [InVRAMBounds]

namespace BitmapBuffer

theorem inBounds_iff (bb : BitmapBuffer) (x y : Int) :
    bb.InBounds x y = true ↔ 0 ≤ x ∧ x < bb.width ∧ 0 ≤ y ∧ y < bb.height := by
  simp [InBounds, and_assoc]

theorem plotFast16_eq (bb : BitmapBuffer) (m : Mem) (x y : Int) (c : Nat)
    (hb : bb.bpp = 16) (h0 : 0 ≤ y * bb.width + x)
    (h1 : (y * bb.width + x) * 2 < 2 ^ 64) :
    bb.PlotPixelFast m x y c
      = write16 m (bb.base + ((y * bb.width + x) * 2).toNat) c := by
  simp only [PlotPixelFast, getPixelAddr, if_pos hb]
  rw [goUintptr_eq _ (by omega) h1]

theorem plotFast8_eq (bb : BitmapBuffer) (m : Mem) (x y : Int) (c : Nat)
    (hb : ¬ bb.bpp = 16) (hm : ByteMem m) (h0 : 0 ≤ y * bb.width + x)
    (h1 : y * bb.width + x < 2 ^ 64) :
    bb.PlotPixelFast m x y c
      = writeByte m (bb.base + (y * bb.width + x).toNat) c := by
  simp only [PlotPixelFast, if_neg hb]
  rw [goUintptr_eq _ h0 h1]
  set off := (y * bb.width + x).toNat with hoff
  rcases Nat.even_or_odd off with he | ho
  · have hdiv : off / 2 * 2 = off := by
      rcases he with ⟨t, ht⟩
      omega
    have hmod : off % 2 = 0 := by
      rcases he with ⟨t, ht⟩
      omega
    rw [hdiv, if_pos hmod]
    have := write16_as_bytes m (bb.base + off) c (hm _)
    have hcm : c &&& 0xFF = (c % 256) &&& 0xFF := by
      rw [land_ff, land_ff]
      omega
    rw [this]
  · have hodd : off % 2 = 1 := Nat.odd_iff.mp ho
    have hdiv : off / 2 * 2 = off - 1 := by omega
    have hone : 1 ≤ off := by omega
    rw [hdiv, if_neg (by omega)]
    have := write16_as_bytes_high m (bb.base + (off - 1)) c (hm _)
    rw [this]
    have : bb.base + (off - 1) + 1 = bb.base + off := by omega
    rw [this]

theorem getPixel_none (bb : BitmapBuffer) (m : Mem) (x y : Int)
    (hin : bb.InBounds x y = false) : bb.GetPixel m x y = none := by
  simp [GetPixel, hin]

theorem plotPixel_none (bb : BitmapBuffer) (m : Mem) (x y : Int) (c : Nat)
    (hin : bb.InBounds x y = false) : bb.PlotPixel m x y c = none := by
  simp [PlotPixel, hin]

theorem plotPixel_eq_fast (bb : BitmapBuffer) (m : Mem) (x y : Int) (c : Nat)
    (hin : bb.InBounds x y = true)
    (hv : InVRAMBounds (bb.getPixelAddr x y) = true) :
    bb.PlotPixel m x y c = some (bb.PlotPixelFast m x y c) := by
  simp only [PlotPixel, PlotPixelFast, hin, hv, Bool.not_true, Bool.false_eq_true,
    if_false]
  split
  · rfl
  · split <;> rfl

theorem getPixelAddr16 (bb : BitmapBuffer) (x y : Int) (hb : bb.bpp = 16)
    (h0 : 0 ≤ y * bb.width + x) (h1 : (y * bb.width + x) * 2 < 2 ^ 64) :
    bb.getPixelAddr x y = bb.base + ((y * bb.width + x) * 2).toNat := by
  simp only [getPixelAddr, if_pos hb]
  rw [goUintptr_eq _ (by omega) h1]

theorem getPixelAddr8 (bb : BitmapBuffer) (x y : Int) (hb : ¬ bb.bpp = 16)
    (h0 : 0 ≤ y * bb.width + x) (h1 : y * bb.width + x < 2 ^ 64) :
    bb.getPixelAddr x y = bb.base + (y * bb.width + x).toNat := by
  simp only [getPixelAddr, if_neg hb]
  rw [goUintptr_eq _ h0 h1]

theorem getPixel16_eq (bb : BitmapBuffer) (m : Mem) (x y : Int)
    (hb : bb.bpp = 16) (hin : bb.InBounds x y = true)
    (hv : InVRAMBounds (bb.getPixelAddr x y) = true)
    (h1 : (y * bb.width + x) * 2 < 2 ^ 64) :
    bb.GetPixel m x y = some (read16 m (bb.base + ((y * bb.width + x) * 2).toNat)) := by
  have hin' := (inBounds_iff bb x y).mp hin
  have hW : 0 ≤ bb.width := by omega
  have h0 : 0 ≤ y * bb.width + x := by
    have := Int.mul_nonneg hin'.2.2.1 hW
    omega
  have ha := getPixelAddr16 bb x y hb h0 h1
  rw [ha] at hv
  simp only [GetPixel, hin, ha, hv, Bool.not_true, Bool.false_eq_true, if_false,
    if_pos hb]

theorem getPixel8_eq (bb : BitmapBuffer) (m : Mem) (x y : Int)
    (hb : ¬ bb.bpp = 16) (hin : bb.InBounds x y = true)
    (hv : InVRAMBounds (bb.getPixelAddr x y) = true)
    (h1 : y * bb.width + x < 2 ^ 64) :
    bb.GetPixel m x y = some (m (bb.base + (y * bb.width + x).toNat) % 256) := by
  have hin' := (inBounds_iff bb x y).mp hin
  have hW : 0 ≤ bb.width := by omega
  have h0 : 0 ≤ y * bb.width + x := by
    have := Int.mul_nonneg hin'.2.2.1 hW
    omega
  have ha := getPixelAddr8 bb x y hb h0 h1
  rw [ha] at hv
  simp only [GetPixel, hin, ha, hv, Bool.not_true, Bool.false_eq_true, if_false,
    if_neg hb]
  rw [goUintptr_eq _ h0 h1]
  set off := (y * bb.width + x).toNat with hoff
  rcases Nat.even_or_odd off with he | ho
  · have hdiv : off / 2 * 2 = off := by
      rcases he with ⟨t, ht⟩; omega
    have hmod : off % 2 = 0 := by
      rcases he with ⟨t, ht⟩; omega
    rw [hdiv, if_pos hmod, land_ff]
    simp only [read16]
    have hv2 : (m (bb.base + off) % 256 + 256 * (m (bb.base + off + 1) % 256)) % 256
        = m (bb.base + off) % 256 := by omega
    rw [hv2]
  · have hodd : off % 2 = 1 := Nat.odd_iff.mp ho
    have hdiv : off / 2 * 2 = off - 1 := by omega
    rw [hdiv, if_neg (by omega)]
    have hshift : read16 m (bb.base + (off - 1)) >>> 8
        = read16 m (bb.base + (off - 1)) / 256 := by
      rw [Nat.shiftRight_eq_div_pow]
    rw [hshift]
    simp only [read16]
    have heq : bb.base + (off - 1) + 1 = bb.base + off := by omega
    rw [heq]
    have hv2 : (m (bb.base + (off - 1)) % 256 + 256 * (m (bb.base + off) % 256)) / 256
        = m (bb.base + off) % 256 := by omega
    rw [hv2]

end BitmapBuffer

/-! ### C2: MemoryRegion access contract -/

theorem read16wrap_eq (m : Mem) (a : Nat) (h : a + 1 < 2 ^ 64) :
    read16wrap m a = read16 m a := by
  unfold read16wrap read16
  rw [Nat.mod_eq_of_lt (by omega : a < 2 ^ 64), Nat.mod_eq_of_lt h]

theorem write16wrap_eq (m : Mem) (a v : Nat) (h : a + 1 < 2 ^ 64) :
    write16wrap m a v = write16 m a v := by
  unfold write16wrap write16
  rw [Nat.mod_eq_of_lt (by omega : a < 2 ^ 64), Nat.mod_eq_of_lt h]

theorem read32wrap_eq (m : Mem) (a : Nat) (h : a + 3 < 2 ^ 64) :
    read32wrap m a = read32 m a := by
  unfold read32wrap read32
  rw [Nat.mod_eq_of_lt (by omega : a < 2 ^ 64), Nat.mod_eq_of_lt (by omega : a + 1 < 2 ^ 64),
    Nat.mod_eq_of_lt (by omega : a + 2 < 2 ^ 64), Nat.mod_eq_of_lt h]

theorem write32wrap_eq (m : Mem) (a v : Nat) (h : a + 3 < 2 ^ 64) :
    write32wrap m a v = write32 m a v := by
  unfold write32wrap write32
  rw [Nat.mod_eq_of_lt (by omega : a < 2 ^ 64), Nat.mod_eq_of_lt (by omega : a + 1 < 2 ^ 64),
    Nat.mod_eq_of_lt (by omega : a + 2 < 2 ^ 64), Nat.mod_eq_of_lt h]

/-- C2 (corrected): when the `uintptr` guard and pointer arithmetic do not
wrap (`r.base + offset + 3 < 2^64`), a MemoryRegion access of width `w`
bytes is performed only when `offset + w ≤ size`: out-of-bounds 16/32-bit
reads return 0, out-of-bounds writes leave the memory unchanged, in-bounds
reads read the addressed cells, and an in-bounds write touches no cell
other than the addressed `w` bytes.  At the top of the address space the
guard addition wraps: with `offset = 2^64 - 1` the guard checks
`InBounds 0`, which passes for any nonempty region, and the 16-bit store
is performed at the wrapped addresses even though `offset + 2` far
exceeds the region size — so the unconditional contract of the claim is
false. -/
theorem memoryRegion_bounds_contract (r : MemoryRegion) (m : Mem) (offset v : Nat) :
    (r.base + offset + 3 < 2 ^ 64 →
      (¬ offset + 2 ≤ r.size → r.Read16 m offset = 0 ∧ r.Write16 m offset v = m)
      ∧ (¬ offset + 4 ≤ r.size → r.Read32 m offset = 0 ∧ r.Write32 m offset v = m)
      ∧ (offset + 2 ≤ r.size → r.Read16 m offset = read16 m (r.base + offset)
          ∧ ∀ b : Nat, b ≠ r.base + offset → b ≠ r.base + offset + 1 →
              r.Write16 m offset v b = m b)
      ∧ (offset + 4 ≤ r.size → r.Read32 m offset = read32 m (r.base + offset)
          ∧ ∀ b : Nat, (b < r.base + offset ∨ r.base + offset + 3 < b) →
              r.Write32 m offset v b = m b))
    ∧ (0 < r.size →
        r.Write16 m (2 ^ 64 - 1) v = write16wrap m (r.base + (2 ^ 64 - 1)) v) := by
  constructor
  · intro hnw
    have e1 : (offset + 1) % 2 ^ 64 = offset + 1 := Nat.mod_eq_of_lt (by omega)
    have e3 : (offset + 3) % 2 ^ 64 = offset + 3 := Nat.mod_eq_of_lt (by omega)
    have hR16 : r.Read16 m offset
        = if !r.InBounds (offset + 1) then 0 else read16 m (r.base + offset) := by
      unfold MemoryRegion.Read16
      rw [e1, read16wrap_eq m (r.base + offset) (by omega)]
    have hW16 : r.Write16 m offset v
        = if !r.InBounds (offset + 1) then m else write16 m (r.base + offset) v := by
      unfold MemoryRegion.Write16
      rw [e1, write16wrap_eq m (r.base + offset) v (by omega)]
    have hR32 : r.Read32 m offset
        = if !r.InBounds (offset + 3) then 0 else read32 m (r.base + offset) := by
      unfold MemoryRegion.Read32
      rw [e3, read32wrap_eq m (r.base + offset) (by omega)]
    have hW32 : r.Write32 m offset v
        = if !r.InBounds (offset + 3) then m else write32 m (r.base + offset) v := by
      unfold MemoryRegion.Write32
      rw [e3, write32wrap_eq m (r.base + offset) v (by omega)]
    have h16 : r.InBounds (offset + 1) = true ↔ offset + 2 ≤ r.size := by
      simp [MemoryRegion.InBounds]; omega
    have h32 : r.InBounds (offset + 3) = true ↔ offset + 4 ≤ r.size := by
      simp [MemoryRegion.InBounds]; omega
    refine ⟨?_, ?_, ?_, ?_⟩
    · intro h
      have hb : r.InBounds (offset + 1) = false := by
        rcases Bool.eq_false_or_eq_true (r.InBounds (offset + 1)) with ht | hf
        · exact absurd (h16.mp ht) h
        · exact hf
      constructor
      · rw [hR16]; simp [hb]
      · rw [hW16]; simp [hb]
    · intro h
      have hb : r.InBounds (offset + 3) = false := by
        rcases Bool.eq_false_or_eq_true (r.InBounds (offset + 3)) with ht | hf
        · exact absurd (h32.mp ht) h
        · exact hf
      constructor
      · rw [hR32]; simp [hb]
      · rw [hW32]; simp [hb]
    · intro h
      have hb : r.InBounds (offset + 1) = true := h16.mpr h
      constructor
      · rw [hR16]; simp [hb]
      · intro b hb1 hb2
        rw [hW16]
        simp only [hb, Bool.not_true, Bool.false_eq_true, if_false]
        exact write16_apply_out m _ v b hb1 hb2
    · intro h
      have hb : r.InBounds (offset + 3) = true := h32.mpr h
      constructor
      · rw [hR32]; simp [hb]
      · intro b hbr
        rw [hW32]
        simp only [hb, Bool.not_true, Bool.false_eq_true, if_false]
        rw [write32_apply, if_neg (by omega), if_neg (by omega), if_neg (by omega),
          if_neg (by omega)]
  · intro hsz
    have hg : r.InBounds ((2 ^ 64 - 1 + 1) % 2 ^ 64) = true := by
      have hz : (2 ^ 64 - 1 + 1) % 2 ^ 64 = 0 := by omega
      rw [hz]
      simp [MemoryRegion.InBounds]
      omega
    unfold MemoryRegion.Write16
    rw [hg]
    rfl

/-- C2 counterexample: at `offset = 2^64 - 1` the `uintptr` guard addition
wraps to 0, `InBounds 0` passes for the 4-byte region, and `Write16`
performs a real store at the wrapped addresses `base - 1` and `base`
although `offset + 2` far exceeds the region size — the claimed
out-of-bounds no-op is violated. -/
theorem memoryRegion_wrap_counterexample :
    (¬ (2 ^ 64 - 1) + 2 ≤ (4 : Nat)) ∧
    MemoryRegion.Write16 ⟨16, 4⟩ zeroMem (2 ^ 64 - 1) 258 16 = 1 ∧
    MemoryRegion.Write16 ⟨16, 4⟩ zeroMem (2 ^ 64 - 1) 258 15 = 2 ∧
    MemoryRegion.Write16 ⟨16, 4⟩ zeroMem (2 ^ 64 - 1) 258 ≠ zeroMem := by
  have h1 : MemoryRegion.Write16 ⟨16, 4⟩ zeroMem (2 ^ 64 - 1) 258 16 = 1 := by decide
  refine ⟨by decide, h1, by decide, fun hcontra => ?_⟩
  exact absurd (h1.symm.trans (congrFun hcontra 16)) (by decide)

/-- Witness for C2 at a concrete region, offset and memory, exercising
the out-of-bounds read, the in-bounds write frame and the wrap clause. -/
theorem memoryRegion_bounds_contract_witness :
    (¬ 3 + 2 ≤ (4 : Nat))
    ∧ MemoryRegion.Read16 ⟨100, 4⟩ (fun _ => 7) 3 = 0
    ∧ (0 + 2 ≤ (4 : Nat))
    ∧ MemoryRegion.Write16 ⟨100, 4⟩ (fun _ => 7) 0 5 102 = 7
    ∧ MemoryRegion.Write16 ⟨100, 4⟩ (fun _ => 7) (2 ^ 64 - 1) 5
        = write16wrap (fun _ => 7) (100 + (2 ^ 64 - 1)) 5 := by
  refine ⟨by decide, ?_, by decide, ?_, ?_⟩
  · exact (((memoryRegion_bounds_contract ⟨100, 4⟩ (fun _ => 7) 3 5).1 (by decide)).1
      (by decide)).1
  · exact (((memoryRegion_bounds_contract ⟨100, 4⟩ (fun _ => 7) 0 5).1 (by decide)).2.2.1
      (by decide)).2 102 (by decide) (by decide)
  · exact (memoryRegion_bounds_contract ⟨100, 4⟩ (fun _ => 7) 0 5).2 (by decide)

/-! ### VRAMManager and DoubleBuffer lemmas -/

namespace VRAMManager

theorem swapBuffers_mode (vm : VRAMManager) : vm.SwapBuffers.mode = vm.mode := by
  unfold SwapBuffers
  split <;> rfl

theorem supportsDoubleBuffering_iff (vm : VRAMManager) :
    vm.SupportsDoubleBuffering = true ↔ vm.mode = 4 ∨ vm.mode = 5 := by
  simp [SupportsDoubleBuffering, MODE_4, MODE_5]

theorem swapBuffers_supports (vm : VRAMManager) :
    vm.SwapBuffers.SupportsDoubleBuffering = vm.SupportsDoubleBuffering := by
  unfold SupportsDoubleBuffering
  rw [swapBuffers_mode]

theorem swapBuffers_involutive (vm : VRAMManager) :
    vm.SwapBuffers.SwapBuffers = vm := by
  rcases vm with ⟨mo, p, fs, w, h, bp⟩
  by_cases hs : SupportsDoubleBuffering ⟨mo, p, fs, w, h, bp⟩ = true
  · have h1 : SwapBuffers ⟨mo, p, fs, w, h, bp⟩ = ⟨mo, 1 - p, fs, w, h, bp⟩ := by
      unfold SwapBuffers
      rw [if_pos hs]
    have hs2 : SupportsDoubleBuffering ⟨mo, 1 - p, fs, w, h, bp⟩ = true := hs
    have h2 : SwapBuffers ⟨mo, 1 - p, fs, w, h, bp⟩ = ⟨mo, 1 - (1 - p), fs, w, h, bp⟩ := by
      unfold SwapBuffers
      rw [if_pos hs2]
    rw [h1, h2]
    simp
  · have hs' : ¬ SupportsDoubleBuffering ⟨mo, p, fs, w, h, bp⟩ = true := hs
    have h1 : SwapBuffers ⟨mo, p, fs, w, h, bp⟩ = ⟨mo, p, fs, w, h, bp⟩ := by
      unfold SwapBuffers
      rw [if_neg hs']
    rw [h1, h1]

theorem swapBuffers_page (vm : VRAMManager)
    (hs : vm.SupportsDoubleBuffering = true) :
    vm.SwapBuffers.currentPage = 1 - vm.currentPage := by
  unfold SwapBuffers
  rw [if_pos hs]

end VRAMManager

namespace DoubleBuffer

theorem swap_fst (db : DoubleBuffer) :
    (db.Swap).1 = { db with
      manager := db.manager.SwapBuffers
      frontBuffer := db.manager.SwapBuffers.GetCurrentBuffer
      backBuffer := db.manager.SwapBuffers.GetBackBuffer } := rfl

theorem swap_snd (db : DoubleBuffer) :
    (db.Swap).2 = updateDisplayControl (db.Swap).1 := rfl

theorem updateDisplayControl_formula (db : DoubleBuffer) :
    db.updateDisplayControl =
      if db.manager.currentPage = 1
      then goUint16 db.manager.mode ||| (1 <<< 10) ||| (1 <<< 4)
      else goUint16 db.manager.mode ||| (1 <<< 10) := rfl

end DoubleBuffer

/-! ### C4: the combined display-control store of Swap/Present -/

/-- C4: every `Swap` (and `Present`, an alias of `Swap`) stores the display
control register as one combined value: `mode ||| 1<<<10 ||| 1<<<4` when the
new front page is 1 and `mode ||| 1<<<10` when it is 0, and for the two
double-buffered modes this value consists of exactly the mode bits [2:0],
the background-2 enable bit [10] and the page-select bit [4]. -/
theorem swap_display_control (db : DoubleBuffer)
    (hmode : db.manager.mode = 4 ∨ db.manager.mode = 5) :
    (db.Present = db.Swap)
    ∧ ((db.Swap).2 =
        if (db.manager.SwapBuffers).currentPage = 1
        then goUint16 db.manager.mode ||| (1 <<< 10) ||| (1 <<< 4)
        else goUint16 db.manager.mode ||| (1 <<< 10))
    ∧ (db.Swap).2 % 8 = (db.manager.mode % 8).toNat
    ∧ (db.Swap).2.testBit 10 = true
    ∧ (db.Swap).2.testBit 4 = decide ((db.manager.SwapBuffers).currentPage = 1)
    ∧ (db.Swap).2 < 2 ^ 16 := by
  have hu : goUint16 db.manager.mode = (db.manager.mode % 8).toNat := by
    unfold goUint16
    rcases hmode with h | h <;> rw [h] <;> rfl
  have hval : (db.Swap).2 =
      if (db.manager.SwapBuffers).currentPage = 1
      then goUint16 db.manager.mode ||| (1 <<< 10) ||| (1 <<< 4)
      else goUint16 db.manager.mode ||| (1 <<< 10) := by
    rw [DoubleBuffer.swap_snd, DoubleBuffer.updateDisplayControl_formula]
    have hm2 : (db.Swap).1.manager.mode = db.manager.mode := by
      rw [DoubleBuffer.swap_fst]
      exact VRAMManager.swapBuffers_mode db.manager
    have hp2 : (db.Swap).1.manager.currentPage = (db.manager.SwapBuffers).currentPage := by
      rw [DoubleBuffer.swap_fst]
    rw [hm2, hp2]
  have hgu : goUint16 db.manager.mode = 4 ∨ goUint16 db.manager.mode = 5 := by
    rcases hmode with h | h
    · left; rw [hu, h]; rfl
    · right; rw [hu, h]; rfl
  have hconc1 : (goUint16 db.manager.mode ||| (1 <<< 10) ||| (1 <<< 4)) % 8
        = goUint16 db.manager.mode
      ∧ (goUint16 db.manager.mode ||| (1 <<< 10) ||| (1 <<< 4)).testBit 10 = true
      ∧ (goUint16 db.manager.mode ||| (1 <<< 10) ||| (1 <<< 4)).testBit 4 = true
      ∧ (goUint16 db.manager.mode ||| (1 <<< 10) ||| (1 <<< 4)) < 2 ^ 16 := by
    rcases hgu with h | h <;> rw [h] <;> refine ⟨by decide, by decide, by decide, by decide⟩
  have hconc0 : (goUint16 db.manager.mode ||| (1 <<< 10)) % 8
        = goUint16 db.manager.mode
      ∧ (goUint16 db.manager.mode ||| (1 <<< 10)).testBit 10 = true
      ∧ (goUint16 db.manager.mode ||| (1 <<< 10)).testBit 4 = false
      ∧ (goUint16 db.manager.mode ||| (1 <<< 10)) < 2 ^ 16 := by
    rcases hgu with h | h <;> rw [h] <;> refine ⟨by decide, by decide, by decide, by decide⟩
  refine ⟨rfl, hval, ?_, ?_, ?_, ?_⟩
  · rw [hval]
    by_cases hp : (db.manager.SwapBuffers).currentPage = 1
    · rw [if_pos hp, hconc1.1, hu]
    · rw [if_neg hp, hconc0.1, hu]
  · rw [hval]
    by_cases hp : (db.manager.SwapBuffers).currentPage = 1
    · rw [if_pos hp, hconc1.2.1]
    · rw [if_neg hp, hconc0.2.1]
  · rw [hval]
    by_cases hp : (db.manager.SwapBuffers).currentPage = 1
    · rw [if_pos hp, hconc1.2.2.1]
      exact (decide_eq_true hp).symm
    · rw [if_neg hp, hconc0.2.2.1]
      exact (decide_eq_false hp).symm
  · rw [hval]
    by_cases hp : (db.manager.SwapBuffers).currentPage = 1
    · rw [if_pos hp]
      exact hconc1.2.2.2
    · rw [if_neg hp]
      exact hconc0.2.2.2

/-- Witness for C4 at a concrete double buffer in mode 4, page 0. -/
theorem swap_display_control_witness :
    ((⟨⟨4, 0, 38400, 240, 160, 8⟩, ⟨FRAME0_ADDR, 240, 160, 8⟩,
        ⟨FRAME1_ADDR, 240, 160, 8⟩, true⟩ : DoubleBuffer).manager.mode = 4
      ∨ (⟨⟨4, 0, 38400, 240, 160, 8⟩, ⟨FRAME0_ADDR, 240, 160, 8⟩,
        ⟨FRAME1_ADDR, 240, 160, 8⟩, true⟩ : DoubleBuffer).manager.mode = 5)
    ∧ ((⟨⟨4, 0, 38400, 240, 160, 8⟩, ⟨FRAME0_ADDR, 240, 160, 8⟩,
        ⟨FRAME1_ADDR, 240, 160, 8⟩, true⟩ : DoubleBuffer).Swap).2 = 4 + 1024 + 16 := by
  constructor
  · left; rfl
  · have h := (swap_display_control
      ⟨⟨4, 0, 38400, 240, 160, 8⟩, ⟨FRAME0_ADDR, 240, 160, 8⟩,
        ⟨FRAME1_ADDR, 240, 160, 8⟩, true⟩ (Or.inl rfl)).2.1
    rw [h]
    decide

/-! ### C5: double swap restores the double-buffer state -/

/-- C5: for every well-formed DoubleBuffer state (its buffer views agree
with its manager), swapping twice restores the page index, both buffer
views (hence the front/back base addresses), and the display-control value
of the pre-swap state — in particular the page-select bit 4. -/
theorem swap_swap_restores (db : DoubleBuffer)
    (hf : db.frontBuffer = db.manager.GetCurrentBuffer)
    (hb : db.backBuffer = db.manager.GetBackBuffer) :
    ((db.Swap).1.Swap).1 = db
    ∧ ((db.Swap).1.Swap).1.manager.currentPage = db.manager.currentPage
    ∧ ((db.Swap).1.Swap).1.frontBuffer.base = db.frontBuffer.base
    ∧ ((db.Swap).1.Swap).1.backBuffer.base = db.backBuffer.base
    ∧ ((db.Swap).1.Swap).2 = db.updateDisplayControl
    ∧ ((db.Swap).1.Swap).2.testBit 4 = db.updateDisplayControl.testBit 4 := by
  rcases db with ⟨vm, f, bq, vs⟩
  have h1 : ((⟨vm, f, bq, vs⟩ : DoubleBuffer).Swap).1
      = ⟨vm.SwapBuffers, vm.SwapBuffers.GetCurrentBuffer,
         vm.SwapBuffers.GetBackBuffer, vs⟩ := rfl
  have h2 : ((⟨vm.SwapBuffers, vm.SwapBuffers.GetCurrentBuffer,
        vm.SwapBuffers.GetBackBuffer, vs⟩ : DoubleBuffer).Swap).1
      = ⟨vm.SwapBuffers.SwapBuffers, vm.SwapBuffers.SwapBuffers.GetCurrentBuffer,
         vm.SwapBuffers.SwapBuffers.GetBackBuffer, vs⟩ := rfl
  have hmain : (((⟨vm, f, bq, vs⟩ : DoubleBuffer).Swap).1.Swap).1
      = (⟨vm, f, bq, vs⟩ : DoubleBuffer) := by
    rw [h1, h2, VRAMManager.swapBuffers_involutive]
    have hf' : f = vm.GetCurrentBuffer := hf
    have hb' : bq = vm.GetBackBuffer := hb
    rw [← hf', ← hb']
  refine ⟨hmain, by rw [hmain], by rw [hmain], by rw [hmain], ?_, ?_⟩
  · rw [DoubleBuffer.swap_snd, hmain]
  · rw [DoubleBuffer.swap_snd, hmain]

/-- Witness for C5 at a concrete mode-5 double buffer on page 1. -/
theorem swap_swap_restores_witness :
    ((⟨⟨5, 1, 40960, 160, 128, 16⟩,
        VRAMManager.GetCurrentBuffer ⟨5, 1, 40960, 160, 128, 16⟩,
        VRAMManager.GetBackBuffer ⟨5, 1, 40960, 160, 128, 16⟩,
        false⟩ : DoubleBuffer).frontBuffer
      = VRAMManager.GetCurrentBuffer ⟨5, 1, 40960, 160, 128, 16⟩)
    ∧ (((⟨⟨5, 1, 40960, 160, 128, 16⟩,
        VRAMManager.GetCurrentBuffer ⟨5, 1, 40960, 160, 128, 16⟩,
        VRAMManager.GetBackBuffer ⟨5, 1, 40960, 160, 128, 16⟩,
        false⟩ : DoubleBuffer).Swap).1.Swap).1
      = ⟨⟨5, 1, 40960, 160, 128, 16⟩,
        VRAMManager.GetCurrentBuffer ⟨5, 1, 40960, 160, 128, 16⟩,
        VRAMManager.GetBackBuffer ⟨5, 1, 40960, 160, 128, 16⟩,
        false⟩ := by
  refine ⟨rfl, ?_⟩
  exact (swap_swap_restores _ rfl rfl).1

/-! ### C8: the mode table -/

/-- C8 fails as stated: a tile-mode selector does not pass through without
bitmap geometry — `SetMode 0` overwrites the geometry fields with Mode 3's
bitmap geometry (240×160, 16bpp, 76800-byte frame). -/
theorem setMode_tile_mode_counterexample :
    (VRAMManager.SetMode ⟨3, 0, 0, 7, 9, 0⟩ 0).width = 240
    ∧ ¬ (VRAMManager.SetMode ⟨3, 0, 0, 7, 9, 0⟩ 0).width = 7
    ∧ (VRAMManager.SetMode ⟨3, 0, 0, 7, 9, 0⟩ 0).frameSize = 76800
    ∧ (VRAMManager.SetMode ⟨3, 0, 0, 7, 9, 0⟩ 0).bpp = 16 := by
  exact ⟨rfl, by decide, rfl, rfl⟩

/-- C8 (amended): the mode-to-configuration table is exact for the three
bitmap modes (including the one-page behaviour of mode 3 and the second
page at base+0xA000 for modes 4 and 5); the three tile-mode selectors keep
the requested mode value but receive the default Mode-3 bitmap geometry;
and double buffering is supported exactly in modes 4 and 5. -/
theorem setMode_table (vm : VRAMManager) (mode : Int) :
    ((vm.SetMode 3).mode = 3 ∧ (vm.SetMode 3).width = 240
      ∧ (vm.SetMode 3).height = 160 ∧ (vm.SetMode 3).bpp = 16
      ∧ (vm.SetMode 3).frameSize = 76800
      ∧ (vm.SetMode 3).SupportsDoubleBuffering = false
      ∧ (vm.SetMode 3).GetBackBuffer = (vm.SetMode 3).GetCurrentBuffer
      ∧ (vm.SetMode 3).GetCurrentBuffer.base = VRAM_BASE)
    ∧ ((vm.SetMode 4).mode = 4 ∧ (vm.SetMode 4).width = 240
      ∧ (vm.SetMode 4).height = 160 ∧ (vm.SetMode 4).bpp = 8
      ∧ (vm.SetMode 4).frameSize = 38400
      ∧ (vm.SetMode 4).SupportsDoubleBuffering = true
      ∧ (vm.currentPage = 0 →
          (vm.SetMode 4).GetCurrentBuffer.base = VRAM_BASE
          ∧ (vm.SetMode 4).GetBackBuffer.base = VRAM_BASE + 0xA000))
    ∧ ((vm.SetMode 5).mode = 5 ∧ (vm.SetMode 5).width = 160
      ∧ (vm.SetMode 5).height = 128 ∧ (vm.SetMode 5).bpp = 16
      ∧ (vm.SetMode 5).frameSize = 40960
      ∧ (vm.SetMode 5).SupportsDoubleBuffering = true
      ∧ (vm.currentPage = 0 →
          (vm.SetMode 5).GetCurrentBuffer.base = VRAM_BASE
          ∧ (vm.SetMode 5).GetBackBuffer.base = VRAM_BASE + 0xA000))
    ∧ ((mode = 0 ∨ mode = 1 ∨ mode = 2) →
        (vm.SetMode mode).mode = mode
        ∧ (vm.SetMode mode).width = 240 ∧ (vm.SetMode mode).height = 160
        ∧ (vm.SetMode mode).bpp = 16 ∧ (vm.SetMode mode).frameSize = 76800
        ∧ (vm.SetMode mode).SupportsDoubleBuffering = false)
    ∧ (vm.SupportsDoubleBuffering = true ↔ vm.mode = 4 ∨ vm.mode = 5) := by
  refine ⟨⟨rfl, rfl, rfl, rfl, rfl, rfl, rfl, rfl⟩,
    ⟨rfl, rfl, rfl, rfl, rfl, rfl, ?_⟩,
    ⟨rfl, rfl, rfl, rfl, rfl, rfl, ?_⟩, ?_, VRAMManager.supportsDoubleBuffering_iff vm⟩
  · intro hp
    have hsup : (vm.SetMode 4).SupportsDoubleBuffering = true := rfl
    have hpage : (vm.SetMode 4).currentPage = 0 := hp
    constructor
    · simp [VRAMManager.GetCurrentBuffer, hsup, hpage, FRAME0_ADDR]
    · simp [VRAMManager.GetBackBuffer, hsup, hpage, FRAME1_ADDR]
  · intro hp
    have hsup : (vm.SetMode 5).SupportsDoubleBuffering = true := rfl
    have hpage : (vm.SetMode 5).currentPage = 0 := hp
    constructor
    · simp [VRAMManager.GetCurrentBuffer, hsup, hpage, FRAME0_ADDR]
    · simp [VRAMManager.GetBackBuffer, hsup, hpage, FRAME1_ADDR]
  · intro hmode
    rcases hmode with h | h | h <;> subst h <;>
      exact ⟨rfl, rfl, rfl, rfl, rfl, rfl⟩

/-- Witness for C8 at concrete managers and mode 0. -/
theorem setMode_table_witness :
    ((VRAMManager.NewVRAMManager 3).currentPage = 0)
    ∧ ((VRAMManager.NewVRAMManager 3).SetMode 4).GetBackBuffer.base
        = VRAM_BASE + 0xA000
    ∧ ((VRAMManager.NewVRAMManager 3).SetMode 0).width = 240
    ∧ ((VRAMManager.NewVRAMManager 3).SetMode 4).frameSize = 38400 := by
  refine ⟨rfl, ?_, ?_, ?_⟩
  · exact ((setMode_table (VRAMManager.NewVRAMManager 3) 0).2.1.2.2.2.2.2.2 rfl).2
  · exact ((setMode_table (VRAMManager.NewVRAMManager 3) 0).2.2.2.1
      (Or.inl rfl)).2.1
  · exact (setMode_table (VRAMManager.NewVRAMManager 3) 0).2.1.2.2.2.2.1

/-! ### C9: screen-entry packing of SetTile / GetTile -/

namespace ScreenData

theorem screenData_inBounds_iff (sd : ScreenData) (x y : Int) :
    sd.InBounds x y = true ↔ 0 ≤ x ∧ x < sd.width ∧ 0 ≤ y ∧ y < sd.height := by
  simp [InBounds, and_assoc]

end ScreenData

/-- C9: `SetTile` packs the map entry as tileIndex in bits 0–9 merged with
the caller attributes masked to bits 10–15 (hFlip 10, vFlip 11, palette
12–15), i.e. the entry equals `tileIndex + (attributes/1024)*1024`, and a
subsequent `GetTile` decodes the same tile index and the same masked
attributes (so the palette bits `attributes >>> 12` are recovered). -/
theorem setTile_getTile_roundtrip (sd : ScreenData) (m : Mem)
    (x y tileIndex : Int) (attributes : Nat)
    (hin : sd.InBounds x y = true)
    (hidx : y * sd.width + x < sd.maxEntries)
    (ht0 : 0 ≤ tileIndex) (ht1 : tileIndex < 1024)
    (ha : attributes < 65536)
    (hsz : (y * sd.width + x) * 2 < 2 ^ 64) :
    ∃ m', sd.SetTile m x y tileIndex attributes = some m'
      ∧ sd.GetTile m' x y = some (tileIndex.toNat, attributes &&& 0xFC00)
      ∧ tileIndex.toNat ||| (attributes &&& 0xFC00)
          = tileIndex.toNat + attributes / 1024 * 1024
      ∧ (attributes &&& 0xFC00) >>> 12 = attributes / 4096 := by
  have hin' := (ScreenData.screenData_inBounds_iff sd x y).mp hin
  have hW : 0 ≤ sd.width := by omega
  have h0 : 0 ≤ y * sd.width + x := by
    have := Int.mul_nonneg hin'.2.2.1 hW
    omega
  have hmodt : tileIndex % (1024 : Int) = tileIndex := Int.emod_eq_of_lt ht0 ht1
  have htn : tileIndex.toNat < 1024 := by omega
  have hq : attributes / 1024 < 64 := by omega
  have hmask : attributes &&& 0xFC00 = attributes / 1024 * 1024 := land_fc00 attributes ha
  have hpack : tileIndex.toNat ||| (attributes &&& 0xFC00)
      = tileIndex.toNat + attributes / 1024 * 1024 := by
    rw [hmask]
    have h1024 : attributes / 1024 * 1024 = attributes / 1024 * 2 ^ 10 := by norm_num
    rw [h1024, lor_mul_two_pow _ _ _ (by norm_num; omega)]
  have hentry_lt : tileIndex.toNat + attributes / 1024 * 1024 < 65536 := by omega
  have haddr : goUintptr ((y * sd.width + x) * 2) = ((y * sd.width + x) * 2).toNat :=
    goUintptr_eq _ (by omega) hsz
  refine ⟨write16 m (sd.base + ((y * sd.width + x) * 2).toNat)
      (tileIndex.toNat ||| (attributes &&& 0xFC00)), ?_, ?_, hpack, ?_⟩
  · simp only [ScreenData.SetTile, hin, Bool.not_true, Bool.false_eq_true, if_false,
      if_neg (by omega : ¬ y * sd.width + x ≥ sd.maxEntries), hmodt, haddr]
  · simp only [ScreenData.GetTile, hin, Bool.not_true, Bool.false_eq_true, if_false,
      if_neg (by omega : ¬ y * sd.width + x ≥ sd.maxEntries), haddr]
    rw [read16_write16_same, hpack, Nat.mod_eq_of_lt hentry_lt]
    have hdec1 : (tileIndex.toNat + attributes / 1024 * 1024) &&& 0x3FF
        = tileIndex.toNat := by
      rw [land_3ff]
      omega
    have hdec2 : (tileIndex.toNat + attributes / 1024 * 1024) &&& 0xFC00
        = attributes &&& 0xFC00 := by
      rw [land_fc00 _ hentry_lt, hmask]
      have : (tileIndex.toNat + attributes / 1024 * 1024) / 1024 = attributes / 1024 := by
        omega
      rw [this]
    rw [hdec1, hdec2]
  · rw [hmask, Nat.shiftRight_eq_div_pow]
    have h212 : (2 : Nat) ^ 12 = 4096 := by norm_num
    rw [h212]
    omega

/-- Witness for C9: the spec scenario — a 32×32 screen block, tile 7 at
(5,5) with palette 3 — decodes tile index 7 and palette bits 0x3000. -/
theorem setTile_getTile_roundtrip_witness :
    SetTilePalette 3 = 0x3000
    ∧ (∃ m', ScreenData.SetTile ⟨VRAM_BASE, 32, 32, 1024⟩ (fun _ => 0) 5 5 7
          (SetTilePalette 3) = some m'
        ∧ ScreenData.GetTile ⟨VRAM_BASE, 32, 32, 1024⟩ m' 5 5
            = some ((7 : Int).toNat, SetTilePalette 3 &&& 0xFC00)
        ∧ (7 : Int).toNat ||| (SetTilePalette 3 &&& 0xFC00)
            = (7 : Int).toNat + SetTilePalette 3 / 1024 * 1024
        ∧ (SetTilePalette 3 &&& 0xFC00) >>> 12 = SetTilePalette 3 / 4096) := by
  constructor
  · decide
  · exact setTile_getTile_roundtrip ⟨VRAM_BASE, 32, 32, 1024⟩ (fun _ => 0) 5 5 7
      (SetTilePalette 3) (by decide) (by decide) (by decide) (by decide)
      (by decide) (by decide)

/-! ### C10 and C1: PlotPixel/GetPixel round trips and 8bpp truncation -/

namespace BitmapBuffer

theorem getPixel_none_vram (bb : BitmapBuffer) (m : Mem) (x y : Int)
    (hv : InVRAMBounds (bb.getPixelAddr x y) = false) :
    bb.GetPixel m x y = none := by
  simp [GetPixel, hv]

theorem plotPixel_roundtrip8 (bb : BitmapBuffer) (m : Mem) (x y : Int) (c : Nat)
    (hb : ¬ bb.bpp = 16) (hm : ByteMem m)
    (hin : bb.InBounds x y = true)
    (hv : InVRAMBounds (bb.getPixelAddr x y) = true)
    (hsz : y * bb.width + x < 2 ^ 64) :
    (bb.PlotPixel m x y c).bind (fun m2 => bb.GetPixel m2 x y) = some (c % 256) := by
  have hin' := (inBounds_iff bb x y).mp hin
  have hW : 0 ≤ bb.width := by omega
  have h0 : 0 ≤ y * bb.width + x := by
    have := Int.mul_nonneg hin'.2.2.1 hW
    omega
  rw [plotPixel_eq_fast bb m x y c hin hv, Option.some_bind,
    plotFast8_eq bb m x y c hb hm h0 hsz,
    getPixel8_eq bb _ x y hb hin hv hsz]
  have hwb : writeByte m (bb.base + (y * bb.width + x).toNat) c
      (bb.base + (y * bb.width + x).toNat) = c % 256 := by
    rw [writeByte_apply, if_pos rfl]
  have h2 : c % 256 % 256 = c % 256 := by omega
  rw [hwb, h2]

end BitmapBuffer

/-- C10: at 8 bits per pixel an in-range `PlotPixel` silently stores only
the low byte `c mod 256` (instead of rejecting colors ≥ 256), the
subsequent `GetPixel` returns `c mod 256`, and every value `GetPixel`
returns on an 8bpp buffer is below 256. -/
theorem plotPixel8_low_byte (bb : BitmapBuffer) (m : Mem) (x y : Int) (c : Nat)
    (hb : bb.bpp = 8) (hm : ByteMem m)
    (hin : bb.InBounds x y = true)
    (hv : InVRAMBounds (bb.getPixelAddr x y) = true)
    (hsz : y * bb.width + x < 2 ^ 64) :
    (bb.PlotPixel m x y c).bind (fun m2 => bb.GetPixel m2 x y) = some (c % 256)
    ∧ ∀ (m0 : Mem) (x0 y0 : Int) (v : Nat), bb.GetPixel m0 x0 y0 = some v → v < 256 := by
  have hb' : ¬ bb.bpp = 16 := by omega
  constructor
  · exact BitmapBuffer.plotPixel_roundtrip8 bb m x y c hb' hm hin hv hsz
  · intro m0 x0 y0 v hget
    simp only [BitmapBuffer.GetPixel] at hget
    by_cases hin0 : bb.InBounds x0 y0 = true
    · rw [hin0] at hget
      simp only [Bool.not_true, Bool.false_eq_true, if_false] at hget
      by_cases hv0 : InVRAMBounds (bb.getPixelAddr x0 y0) = true
      · rw [hv0] at hget
        simp only [Bool.not_true, Bool.false_eq_true, if_false] at hget
        rw [if_neg hb'] at hget
        have hlt := read16_lt m0 (bb.base + goUintptr (y0 * bb.width + x0) / 2 * 2)
        split at hget
        · have hv' := Option.some.inj hget
          rw [land_ff] at hv'
          omega
        · have hv' := Option.some.inj hget
          rw [Nat.shiftRight_eq_div_pow] at hv'
          have h28 : (2 : Nat) ^ 8 = 256 := by norm_num
          rw [h28] at hv'
          omega
      · have hv0' : InVRAMBounds (bb.getPixelAddr x0 y0) = false := by
          rcases Bool.eq_false_or_eq_true (InVRAMBounds (bb.getPixelAddr x0 y0)) with ht | hf
          · exact absurd ht hv0
          · exact hf
        rw [hv0'] at hget
        simp at hget
    · have hin0' : bb.InBounds x0 y0 = false := by
        rcases Bool.eq_false_or_eq_true (bb.InBounds x0 y0) with ht | hf
        · exact absurd ht hin0
        · exact hf
      rw [hin0'] at hget
      simp at hget

/-- Witness for C10 at a concrete 8bpp buffer: color 300 stores and reads
back as 44. -/
theorem plotPixel8_low_byte_witness :
    (BitmapBuffer.PlotPixel ⟨0x06000000, 240, 160, 8⟩ zeroMem 2 1 300).bind
      (fun m2 => BitmapBuffer.GetPixel ⟨0x06000000, 240, 160, 8⟩ m2 2 1)
      = some 44 := by
  have h := (plotPixel8_low_byte ⟨0x06000000, 240, 160, 8⟩ zeroMem 2 1 300
    rfl byteMem_zeroMem (by decide) (by decide) (by decide)).1
  rw [h]

/-- C1 fails as stated: on an 8bpp buffer, plotting color 256 at an
in-range coordinate and reading it back yields 0, not 256. -/
theorem plotPixel_roundtrip_counterexample :
    (BitmapBuffer.PlotPixel ⟨0x06000000, 240, 160, 8⟩ (fun _ => 0) 0 0 256).bind
      (fun m2 => BitmapBuffer.GetPixel ⟨0x06000000, 240, 160, 8⟩ m2 0 0) = some 0
    ∧ (some 0 : Option Nat) ≠ some 256 := by
  constructor
  · decide
  · decide

/-- C1 (amended): for every in-range coordinate whose pixel address passes
the VRAM check, `PlotPixel` then `GetPixel` returns `c` at 16 bits per
pixel and `c mod 256` at any other depth (in particular 8bpp). -/
theorem plotPixel_getPixel_roundtrip (bb : BitmapBuffer) (m : Mem) (x y : Int)
    (c : Nat) (hc : c < 65536) (hm : ByteMem m)
    (hin : bb.InBounds x y = true)
    (hv : InVRAMBounds (bb.getPixelAddr x y) = true)
    (hsz : (y * bb.width + x) * 2 < 2 ^ 64) :
    (bb.PlotPixel m x y c).bind (fun m2 => bb.GetPixel m2 x y)
      = some (if bb.bpp = 16 then c else c % 256) := by
  have hin' := (BitmapBuffer.inBounds_iff bb x y).mp hin
  have hW : 0 ≤ bb.width := by omega
  have h0 : 0 ≤ y * bb.width + x := by
    have := Int.mul_nonneg hin'.2.2.1 hW
    omega
  by_cases hb : bb.bpp = 16
  · rw [if_pos hb]
    rw [BitmapBuffer.plotPixel_eq_fast bb m x y c hin hv, Option.some_bind,
      BitmapBuffer.plotFast16_eq bb m x y c hb h0 hsz,
      BitmapBuffer.getPixel16_eq bb _ x y hb hin hv hsz,
      read16_write16_same, Nat.mod_eq_of_lt hc]
  · rw [if_neg hb]
    exact BitmapBuffer.plotPixel_roundtrip8 bb m x y c hb hm hin hv (by omega)

/-- Witness for C1 at a concrete 16bpp buffer. -/
theorem plotPixel_getPixel_roundtrip_witness :
    (BitmapBuffer.PlotPixel ⟨0x06000000, 240, 160, 16⟩ zeroMem 3 2 0x1234).bind
      (fun m2 => BitmapBuffer.GetPixel ⟨0x06000000, 240, 160, 16⟩ m2 3 2)
      = some 0x1234 := by
  have h := plotPixel_getPixel_roundtrip ⟨0x06000000, 240, 160, 16⟩ zeroMem
    3 2 0x1234 (by decide) byteMem_zeroMem (by decide) (by decide) (by decide)
  rw [h]
  rfl

/-! ### C3: PlotPixel frame effect -/

theorem pixel_offset_lt (W H x y : Int) (hx : 0 ≤ x) (hx2 : x < W)
    (hy : 0 ≤ y) (hy2 : y < H) : y * W + x < W * H := by
  have hW : 0 ≤ W := by omega
  have h1 : y + 1 ≤ H := by omega
  have h2 : (y + 1) * W ≤ H * W := Int.mul_le_mul_of_nonneg_right h1 hW
  have h3 : (y + 1) * W = y * W + W := by ring
  have h4 : H * W = W * H := by ring
  omega

theorem pixel_index_inj (W x y x' y' : Int) (hx : 0 ≤ x) (hx2 : x < W)
    (hx' : 0 ≤ x') (hx2' : x' < W) (hne : ¬ (x' = x ∧ y' = y)) :
    y' * W + x' ≠ y * W + x := by
  intro heq
  rcases Int.lt_trichotomy y' y with h | h | h
  · have h1 : 1 ≤ y - y' := by omega
    have hW : 0 ≤ W := by omega
    have h2 : 1 * W ≤ (y - y') * W := Int.mul_le_mul_of_nonneg_right h1 hW
    have h3 : (y - y') * W = y * W - y' * W := by ring
    omega
  · apply hne
    constructor
    · subst h
      omega
    · exact h
  · have h1 : 1 ≤ y' - y := by omega
    have hW : 0 ≤ W := by omega
    have h2 : 1 * W ≤ (y' - y) * W := Int.mul_le_mul_of_nonneg_right h1 hW
    have h3 : (y' - y) * W = y' * W - y * W := by ring
    omega

/-- C3: an in-range `PlotPixel` modifies only the pixel at (x,y): every
other coordinate reads back exactly as before — at 8bpp the
read-modify-write preserves the sibling byte sharing the 16-bit word, so
in particular the sibling pixel is unchanged — while out-of-range
coordinates make `PlotPixel` return the error without producing a memory
and make `GetPixel` return the error. -/
theorem plotPixel_frame (bb : BitmapBuffer) (m m' : Mem) (x y : Int) (c : Nat)
    (hm : ByteMem m)
    (hsz : bb.width * bb.height * 2 ≤ 2 ^ 64) :
    (bb.InBounds x y = false → bb.PlotPixel m x y c = none ∧ bb.GetPixel m x y = none)
    ∧ (bb.PlotPixel m x y c = some m' →
        ∀ x' y' : Int, ¬ (x' = x ∧ y' = y) →
          bb.GetPixel m' x' y' = bb.GetPixel m x' y') := by
  constructor
  · intro hout
    exact ⟨BitmapBuffer.plotPixel_none bb m x y c hout,
      BitmapBuffer.getPixel_none bb m x y hout⟩
  · intro hplot x' y' hne
    have hin : bb.InBounds x y = true := by
      rcases Bool.eq_false_or_eq_true (bb.InBounds x y) with ht | hf
      · exact ht
      · rw [BitmapBuffer.plotPixel_none bb m x y c hf] at hplot
        exact absurd hplot (by simp)
    have hv : InVRAMBounds (bb.getPixelAddr x y) = true := by
      rcases Bool.eq_false_or_eq_true (InVRAMBounds (bb.getPixelAddr x y)) with ht | hf
      · exact ht
      · exfalso
        simp only [BitmapBuffer.PlotPixel, hin, Bool.not_true, Bool.false_eq_true,
          if_false, hf, Bool.not_false, if_true] at hplot
        exact Option.noConfusion hplot
    have hm' : m' = bb.PlotPixelFast m x y c := by
      rw [BitmapBuffer.plotPixel_eq_fast bb m x y c hin hv] at hplot
      exact (Option.some.inj hplot).symm
    have hin' := (BitmapBuffer.inBounds_iff bb x y).mp hin
    have hW : 0 ≤ bb.width := by omega
    have hH : 0 ≤ bb.height := by omega
    have hofflt : y * bb.width + x < bb.width * bb.height :=
      pixel_offset_lt bb.width bb.height x y hin'.1 hin'.2.1 hin'.2.2.1 hin'.2.2.2
    have h0 : 0 ≤ y * bb.width + x := by
      have := Int.mul_nonneg hin'.2.2.1 hW
      omega
    have hWH : 0 ≤ bb.width * bb.height := Int.mul_nonneg hW hH
    have hsz1 : (y * bb.width + x) * 2 < 2 ^ 64 := by omega
    by_cases hin2 : bb.InBounds x' y' = true
    · by_cases hv2 : InVRAMBounds (bb.getPixelAddr x' y') = true
      · have hin2' := (BitmapBuffer.inBounds_iff bb x' y').mp hin2
        have hofflt' : y' * bb.width + x' < bb.width * bb.height :=
          pixel_offset_lt bb.width bb.height x' y' hin2'.1 hin2'.2.1
            hin2'.2.2.1 hin2'.2.2.2
        have h0' : 0 ≤ y' * bb.width + x' := by
          have := Int.mul_nonneg hin2'.2.2.1 hW
          omega
        have hsz2 : (y' * bb.width + x') * 2 < 2 ^ 64 := by omega
        have hneq : y' * bb.width + x' ≠ y * bb.width + x :=
          pixel_index_inj bb.width x y x' y' hin'.1 hin'.2.1 hin2'.1 hin2'.2.1 hne
        by_cases hb : bb.bpp = 16
        · rw [BitmapBuffer.getPixel16_eq bb m' x' y' hb hin2 hv2 hsz2,
            BitmapBuffer.getPixel16_eq bb m x' y' hb hin2 hv2 hsz2, hm',
            BitmapBuffer.plotFast16_eq bb m x y c hb h0 hsz1]
          have hA : ((y' * bb.width + x') * 2).toNat ≠ ((y * bb.width + x) * 2).toNat := by
            omega
          have hgap : ∀ b0 : Nat,
              b0 = bb.base + ((y' * bb.width + x') * 2).toNat
              ∨ b0 = bb.base + ((y' * bb.width + x') * 2).toNat + 1 →
              write16 m (bb.base + ((y * bb.width + x) * 2).toNat) c b0 = m b0 := by
            intro b0 hb0
            apply write16_apply_out
            · omega
            · omega
          rw [read16_congr_of_eq m
            (write16 m (bb.base + ((y * bb.width + x) * 2).toNat) c) _
            (hgap _ (Or.inl rfl)) (hgap _ (Or.inr rfl))]
        · rw [BitmapBuffer.getPixel8_eq bb m' x' y' hb hin2 hv2 (by omega),
            BitmapBuffer.getPixel8_eq bb m x' y' hb hin2 hv2 (by omega), hm',
            BitmapBuffer.plotFast8_eq bb m x y c hb hm h0 (by omega)]
          have hbyte : writeByte m (bb.base + (y * bb.width + x).toNat) c
              (bb.base + (y' * bb.width + x').toNat)
              = m (bb.base + (y' * bb.width + x').toNat) := by
            rw [writeByte_apply, if_neg (by omega)]
          rw [hbyte]
      · have hv2' : InVRAMBounds (bb.getPixelAddr x' y') = false := by
          rcases Bool.eq_false_or_eq_true (InVRAMBounds (bb.getPixelAddr x' y')) with ht | hf
          · exact absurd ht hv2
          · exact hf
        rw [BitmapBuffer.getPixel_none_vram bb m' x' y' hv2',
          BitmapBuffer.getPixel_none_vram bb m x' y' hv2']
    · have hin2' : bb.InBounds x' y' = false := by
        rcases Bool.eq_false_or_eq_true (bb.InBounds x' y') with ht | hf
        · exact absurd ht hin2
        · exact hf
      rw [BitmapBuffer.getPixel_none bb m' x' y' hin2',
        BitmapBuffer.getPixel_none bb m x' y' hin2']

/-- Witness for C3: plotting at (1,0) on a concrete 8bpp buffer leaves the
sibling pixel (0,0) unchanged, and out-of-range access errors out. -/
theorem plotPixel_frame_witness :
    BitmapBuffer.InBounds ⟨0x06000000, 240, 160, 8⟩ 240 0 = false
    ∧ BitmapBuffer.PlotPixel ⟨0x06000000, 240, 160, 8⟩ zeroMem 240 0 9 = none
    ∧ BitmapBuffer.PlotPixel ⟨0x06000000, 240, 160, 8⟩ zeroMem 1 0 9
        = some (BitmapBuffer.PlotPixelFast ⟨0x06000000, 240, 160, 8⟩ zeroMem 1 0 9)
    ∧ BitmapBuffer.GetPixel ⟨0x06000000, 240, 160, 8⟩
        (BitmapBuffer.PlotPixelFast ⟨0x06000000, 240, 160, 8⟩ zeroMem 1 0 9) 0 0
      = BitmapBuffer.GetPixel ⟨0x06000000, 240, 160, 8⟩ zeroMem 0 0 := by
  refine ⟨by decide, ?_,
    BitmapBuffer.plotPixel_eq_fast ⟨0x06000000, 240, 160, 8⟩ zeroMem 1 0 9
      (by decide) (by decide), ?_⟩
  · exact ((plotPixel_frame ⟨0x06000000, 240, 160, 8⟩ zeroMem zeroMem 240 0 9
      byteMem_zeroMem (by decide)).1 (by decide)).1
  · exact (plotPixel_frame ⟨0x06000000, 240, 160, 8⟩ zeroMem
      (BitmapBuffer.PlotPixelFast ⟨0x06000000, 240, 160, 8⟩ zeroMem 1 0 9) 1 0 9
      byteMem_zeroMem (by decide)).2
      (BitmapBuffer.plotPixel_eq_fast ⟨0x06000000, 240, 160, 8⟩ zeroMem 1 0 9
        (by decide) (by decide)) 0 0 (by decide)

/-! ### Pointwise characterisation of the fill helpers -/

theorem fillBytes_apply (c : Nat) :
    ∀ (n : Nat) (m : Mem) (a b : Nat),
    fillBytes m a c n b = if a ≤ b ∧ b < a + n then c % 256 else m b := by
  intro n
  induction n with
  | zero =>
    intro m a b
    rw [if_neg (by omega)]
    rfl
  | succ n ih =>
    intro m a b
    show fillBytes (writeByte m a c) (a + 1) c n b = _
    rw [ih]
    by_cases h1 : a + 1 ≤ b ∧ b < a + 1 + n
    · rw [if_pos h1, if_pos (by omega)]
    · rw [if_neg h1, writeByte_apply]
      by_cases h2 : b = a
      · rw [if_pos h2, if_pos (by omega)]
      · rw [if_neg h2, if_neg (by omega)]

theorem fill16_apply (c : Nat) :
    ∀ (n : Nat) (m : Mem) (a b : Nat),
    fill16 m a c n b =
      if a ≤ b ∧ b < a + 2 * n then
        (if (b - a) % 2 = 0 then c % 256 else c / 256 % 256)
      else m b := by
  intro n
  induction n with
  | zero =>
    intro m a b
    rw [if_neg (by omega)]
    rfl
  | succ n ih =>
    intro m a b
    show fill16 (write16 m a c) (a + 2) c n b = _
    rw [ih]
    by_cases h1 : a + 2 ≤ b ∧ b < a + 2 + 2 * n
    · rw [if_pos h1, if_pos (show a ≤ b ∧ b < a + 2 * (n + 1) by omega)]
      have hsub : (b - (a + 2)) % 2 = (b - a) % 2 := by omega
      rw [hsub]
    · rw [if_neg h1, write16_apply]
      by_cases h2 : b = a + 1
      · rw [if_pos h2, if_pos (show a ≤ b ∧ b < a + 2 * (n + 1) by omega),
          if_neg (show ¬ (b - a) % 2 = 0 by omega)]
      · rw [if_neg h2]
        by_cases h3 : b = a
        · rw [if_pos h3, if_pos (show a ≤ b ∧ b < a + 2 * (n + 1) by omega),
            if_pos (show (b - a) % 2 = 0 by omega)]
        · rw [if_neg h3, if_neg (show ¬ (a ≤ b ∧ b < a + 2 * (n + 1)) by omega)]

/-! ### Canonical row-by-row forms of the fill loops -/

/-- Canonical form: `n` rows of `wn` 16-bit pixel stores starting at row
`Y`, column `X`, on a buffer of `W` pixels per row. -/
def rows16 (base c W X wn : Nat) : Nat → Nat → Mem → Mem
  | 0, _, m => m
  | n + 1, Y, m => rows16 base c W X wn n (Y + 1) (fill16 m (base + (Y * W + X) * 2) c wn)

/-- Canonical form: `n` rows of `wn` byte stores. -/
def rows8 (base c W X wn : Nat) : Nat → Nat → Mem → Mem
  | 0, _, m => m
  | n + 1, Y, m => rows8 base c W X wn n (Y + 1) (fillBytes m (base + (Y * W + X)) c wn)

theorem byteMem_rows8 (base c W X wn : Nat) :
    ∀ (n Y : Nat) {m : Mem}, ByteMem m → ByteMem (rows8 base c W X wn n Y m) := by
  intro n
  induction n with
  | zero => intro Y m hm; exact hm
  | succ n ih =>
    intro Y m hm
    exact ih (Y + 1) (byteMem_fillBytes hm _ c wn)

namespace BitmapBuffer

theorem fillRowAux_eq16 (bb : BitmapBuffer) (c : Nat) (W Y : Nat)
    (hw : bb.width = (W : Int)) (hb : bb.bpp = 16) :
    ∀ (n X : Nat) (m : Mem), (Y * W + X + n) * 2 ≤ 2 ^ 64 →
    bb.fillRowAux c (Y : Int) n (X : Int) m
      = fill16 m (bb.base + (Y * W + X) * 2) c n := by
  intro n
  induction n with
  | zero => intro X m _; rfl
  | succ n ih =>
    intro X m hsz
    show bb.fillRowAux c (Y : Int) n ((X : Int) + 1)
        (bb.PlotPixelFast m (X : Int) (Y : Int) c) = _
    have hoff : (Y : Int) * bb.width + (X : Int) = ((Y * W + X : Nat) : Int) := by
      rw [hw]
      push_cast
      ring
    have hplot := plotFast16_eq bb m (X : Int) (Y : Int) c hb
      (by rw [hoff]; exact_mod_cast Nat.zero_le _)
      (by rw [hoff]
          have : ((Y * W + X : Nat) : Int) * 2 = (((Y * W + X) * 2 : Nat) : Int) := by
            push_cast; ring
          rw [this]
          exact_mod_cast (by omega : (Y * W + X) * 2 < 2 ^ 64))
    have htn : (((Y : Int) * bb.width + (X : Int)) * 2).toNat = (Y * W + X) * 2 := by
      rw [hoff]
      omega
    rw [hplot, htn]
    have hc1 : ((X : Int) + 1) = ((X + 1 : Nat) : Int) := by push_cast; ring
    rw [hc1, ih (X + 1) _ (by omega)]
    show fill16 _ (bb.base + (Y * W + (X + 1)) * 2) c n
        = fill16 (write16 m (bb.base + (Y * W + X) * 2) c) (bb.base + (Y * W + X) * 2 + 2) c n
    have haddr : bb.base + (Y * W + (X + 1)) * 2 = bb.base + (Y * W + X) * 2 + 2 := by
      omega
    rw [haddr]

theorem fillRowAux_eq8 (bb : BitmapBuffer) (c : Nat) (W Y : Nat)
    (hw : bb.width = (W : Int)) (hb : ¬ bb.bpp = 16) :
    ∀ (n X : Nat) (m : Mem), ByteMem m → Y * W + X + n ≤ 2 ^ 64 →
    bb.fillRowAux c (Y : Int) n (X : Int) m
      = fillBytes m (bb.base + (Y * W + X)) c n := by
  intro n
  induction n with
  | zero => intro X m _ _; rfl
  | succ n ih =>
    intro X m hm hsz
    show bb.fillRowAux c (Y : Int) n ((X : Int) + 1)
        (bb.PlotPixelFast m (X : Int) (Y : Int) c) = _
    have hoff : (Y : Int) * bb.width + (X : Int) = ((Y * W + X : Nat) : Int) := by
      rw [hw]
      push_cast
      ring
    have hplot := plotFast8_eq bb m (X : Int) (Y : Int) c hb hm
      (by rw [hoff]; exact_mod_cast Nat.zero_le _)
      (by rw [hoff]; exact_mod_cast (by omega : Y * W + X < 2 ^ 64))
    have htn : ((Y : Int) * bb.width + (X : Int)).toNat = Y * W + X := by
      rw [hoff]
      omega
    rw [hplot, htn]
    have hc1 : ((X : Int) + 1) = ((X + 1 : Nat) : Int) := by push_cast; ring
    rw [hc1, ih (X + 1) _ (byteMem_writeByte hm _ c) (by omega)]
    show fillBytes _ (bb.base + (Y * W + (X + 1))) c n
        = fillBytes (writeByte m (bb.base + (Y * W + X)) c) (bb.base + (Y * W + X) + 1) c n
    have haddr : bb.base + (Y * W + (X + 1)) = bb.base + (Y * W + X) + 1 := by
      omega
    rw [haddr]

theorem fillRectRows_eq16 (bb : BitmapBuffer) (c : Nat) (W X wn : Nat)
    (hw : bb.width = (W : Int)) (hb : bb.bpp = 16) (hXw : X + wn ≤ W) :
    ∀ (n Y : Nat) (m : Mem), (Y + n) * W * 2 ≤ 2 ^ 64 →
    bb.fillRectRows c (X : Int) wn n (Y : Int) m = rows16 bb.base c W X wn n Y m := by
  intro n
  induction n with
  | zero => intro Y m _; rfl
  | succ n ih =>
    intro Y m hsz
    show bb.fillRectRows c (X : Int) wn n ((Y : Int) + 1)
        (bb.fillRowAux c (Y : Int) wn (X : Int) m) = _
    have hrow : Y * W + X + wn ≤ (Y + 1) * W := by
      have h1 : (Y + 1) * W = Y * W + W := by ring
      omega
    have hmono : (Y + 1) * W ≤ (Y + (n + 1)) * W :=
      Nat.mul_le_mul_right W (by omega)
    rw [fillRowAux_eq16 bb c W Y hw hb wn X m (by omega)]
    have hc1 : ((Y : Int) + 1) = ((Y + 1 : Nat) : Int) := by push_cast; ring
    have hsz' : (Y + 1 + n) * W * 2 ≤ 2 ^ 64 := by
      have he : Y + 1 + n = Y + (n + 1) := by omega
      rw [he]
      exact hsz
    rw [hc1, ih (Y + 1) _ hsz']
    rfl

theorem fillRectRows_eq8 (bb : BitmapBuffer) (c : Nat) (W X wn : Nat)
    (hw : bb.width = (W : Int)) (hb : ¬ bb.bpp = 16) (hXw : X + wn ≤ W) :
    ∀ (n Y : Nat) (m : Mem), ByteMem m → (Y + n) * W ≤ 2 ^ 64 →
    bb.fillRectRows c (X : Int) wn n (Y : Int) m = rows8 bb.base c W X wn n Y m := by
  intro n
  induction n with
  | zero => intro Y m _ _; rfl
  | succ n ih =>
    intro Y m hm hsz
    show bb.fillRectRows c (X : Int) wn n ((Y : Int) + 1)
        (bb.fillRowAux c (Y : Int) wn (X : Int) m) = _
    have hrow : Y * W + X + wn ≤ (Y + 1) * W := by
      have h1 : (Y + 1) * W = Y * W + W := by ring
      omega
    have hmono : (Y + 1) * W ≤ (Y + (n + 1)) * W :=
      Nat.mul_le_mul_right W (by omega)
    rw [fillRowAux_eq8 bb c W Y hw hb wn X m hm (by omega)]
    have hc1 : ((Y : Int) + 1) = ((Y + 1 : Nat) : Int) := by push_cast; ring
    have hsz' : (Y + 1 + n) * W ≤ 2 ^ 64 := by
      have he : Y + 1 + n = Y + (n + 1) := by omega
      rw [he]
      exact hsz
    rw [hc1, ih (Y + 1) _ (byteMem_fillBytes hm _ c wn) hsz']
    rfl

end BitmapBuffer

theorem rows16_full (base c W : Nat) :
    ∀ (n Y : Nat) (m : Mem),
    rows16 base c W 0 W n Y m = fill16 m (base + Y * W * 2) c (W * n) := by
  intro n
  induction n with
  | zero =>
    intro Y m
    rfl
  | succ n ih =>
    intro Y m
    show rows16 base c W 0 W n (Y + 1) (fill16 m (base + (Y * W + 0) * 2) c W) = _
    rw [ih]
    have h1 : W * (n + 1) = W + W * n := by ring
    rw [h1, fill16_append]
    have e1 : base + (Y * W + 0) * 2 = base + Y * W * 2 := by omega
    have e2 : base + (Y + 1) * W * 2 = base + Y * W * 2 + 2 * W := by
      have h3 : (Y + 1) * W = Y * W + W := by ring
      omega
    rw [e1, e2]

theorem rows8_full (base c W : Nat) :
    ∀ (n Y : Nat) (m : Mem),
    rows8 base c W 0 W n Y m = fillBytes m (base + Y * W) c (W * n) := by
  intro n
  induction n with
  | zero =>
    intro Y m
    rfl
  | succ n ih =>
    intro Y m
    show rows8 base c W 0 W n (Y + 1) (fillBytes m (base + (Y * W + 0)) c W) = _
    rw [ih]
    have h1 : W * (n + 1) = W + W * n := by ring
    rw [h1, fillBytes_append]
    have e1 : base + (Y * W + 0) = base + Y * W := by omega
    have e2 : base + (Y + 1) * W = base + Y * W + W := by
      have h3 : (Y + 1) * W = Y * W + W := by ring
      omega
    rw [e1, e2]

/-! ### Pointwise characterization of the row-by-row fills -/

theorem rows16_apply_out (base c W X wn : Nat) :
    ∀ (n Y : Nat) (m : Mem) (b : Nat),
      (∀ r, Y ≤ r → r < Y + n →
        ¬(base + (r * W + X) * 2 ≤ b ∧ b < base + (r * W + X) * 2 + 2 * wn)) →
      rows16 base c W X wn n Y m b = m b := by
  intro n
  induction n with
  | zero => intro Y m b _; rfl
  | succ n ih =>
    intro Y m b hout
    show rows16 base c W X wn n (Y + 1) (fill16 m (base + (Y * W + X) * 2) c wn) b = m b
    rw [ih (Y + 1) _ b (fun r h1 h2 => hout r (by omega) (by omega))]
    rw [fill16_apply, if_neg (hout Y (by omega) (by omega))]

theorem rows8_apply_out (base c W X wn : Nat) :
    ∀ (n Y : Nat) (m : Mem) (b : Nat),
      (∀ r, Y ≤ r → r < Y + n →
        ¬(base + (r * W + X) ≤ b ∧ b < base + (r * W + X) + wn)) →
      rows8 base c W X wn n Y m b = m b := by
  intro n
  induction n with
  | zero => intro Y m b _; rfl
  | succ n ih =>
    intro Y m b hout
    show rows8 base c W X wn n (Y + 1) (fillBytes m (base + (Y * W + X)) c wn) b = m b
    rw [ih (Y + 1) _ b (fun r h1 h2 => hout r (by omega) (by omega))]
    rw [fillBytes_apply, if_neg (hout Y (by omega) (by omega))]

theorem rows16_apply_in (base c W X wn : Nat) (hXw : X + wn ≤ W) :
    ∀ (n Y : Nat) (m : Mem) (r b : Nat), Y ≤ r → r < Y + n →
      base + (r * W + X) * 2 ≤ b → b < base + (r * W + X) * 2 + 2 * wn →
      rows16 base c W X wn n Y m b =
        (if (b - (base + (r * W + X) * 2)) % 2 = 0 then c % 256 else c / 256 % 256) := by
  intro n
  induction n with
  | zero => intro Y m r b h1 h2 _ _; omega
  | succ n ih =>
    intro Y m r b h1 h2 h3 h4
    show rows16 base c W X wn n (Y + 1) (fill16 m (base + (Y * W + X) * 2) c wn) b = _
    by_cases hr : r = Y
    · subst hr
      rw [rows16_apply_out base c W X wn n (r + 1) _ b (by
        intro r' hr1 hr2 hband
        obtain ⟨hb1, hb2⟩ := hband
        have hm1 : (r + 1) * W = r * W + W := by ring
        have hm2 : (r + 1) * W ≤ r' * W := Nat.mul_le_mul_right W (by omega)
        omega)]
      rw [fill16_apply, if_pos ⟨h3, h4⟩]
    · exact ih (Y + 1) _ r b (by omega) (by omega) h3 h4

theorem rows8_apply_in (base c W X wn : Nat) (hXw : X + wn ≤ W) :
    ∀ (n Y : Nat) (m : Mem) (r b : Nat), Y ≤ r → r < Y + n →
      base + (r * W + X) ≤ b → b < base + (r * W + X) + wn →
      rows8 base c W X wn n Y m b = c % 256 := by
  intro n
  induction n with
  | zero => intro Y m r b h1 h2 _ _; omega
  | succ n ih =>
    intro Y m r b h1 h2 h3 h4
    show rows8 base c W X wn n (Y + 1) (fillBytes m (base + (Y * W + X)) c wn) b = _
    by_cases hr : r = Y
    · subst hr
      rw [rows8_apply_out base c W X wn n (r + 1) _ b (by
        intro r' hr1 hr2 hband
        obtain ⟨hb1, hb2⟩ := hband
        have hm1 : (r + 1) * W = r * W + W := by ring
        have hm2 : (r + 1) * W ≤ r' * W := Nat.mul_le_mul_right W (by omega)
        omega)]
      rw [fillBytes_apply, if_pos ⟨h3, h4⟩]
    · exact ih (Y + 1) _ r b (by omega) (by omega) h3 h4

/-! ### Clamp unfolding for FillRect -/

theorem rows8_congr (base : Nat) {c c' : Nat} (h : c % 256 = c' % 256) (W X wn : Nat) :
    ∀ (n Y : Nat) (m : Mem), rows8 base c W X wn n Y m = rows8 base c' W X wn n Y m := by
  intro n
  induction n with
  | zero => intro Y m; rfl
  | succ n ih =>
    intro Y m
    show rows8 base c W X wn n (Y + 1) (fillBytes m (base + (Y * W + X)) c wn)
        = rows8 base c' W X wn n (Y + 1) (fillBytes m (base + (Y * W + X)) c' wn)
    rw [fillBytes_congr m (base + (Y * W + X)) h wn, ih]

namespace BitmapBuffer

theorem fillRect_unfold (bb : BitmapBuffer) (m : Mem) (x y w h : Int) (c : Nat)
    (w1 x1 h1 y1 w2 h2 : Int)
    (hw1 : w1 = if x < 0 then w + x else w)
    (hx1 : x1 = if x < 0 then 0 else x)
    (hh1 : h1 = if y < 0 then h + y else h)
    (hy1 : y1 = if y < 0 then 0 else y)
    (hw2 : w2 = if x1 + w1 > bb.width then bb.width - x1 else w1)
    (hh2 : h2 = if y1 + h1 > bb.height then bb.height - y1 else h1) :
    bb.FillRect m x y w h c =
      if w2 ≤ 0 ∨ h2 ≤ 0 then m
      else bb.fillRectRows c x1 w2.toNat h2.toNat y1 m := by
  subst hw2
  subst hh2
  subst hw1
  subst hx1
  subst hh1
  subst hy1
  rfl

theorem fillRect_clamped_eq (bb : BitmapBuffer) (m : Mem) (x1 y1 w2 h2 : Int) (c : Nat)
    (hx : 0 ≤ x1) (hy : 0 ≤ y1) (hxw : x1 + w2 ≤ bb.width) (hyh : y1 + h2 ≤ bb.height) :
    bb.FillRect m x1 y1 w2 h2 c =
      if w2 ≤ 0 ∨ h2 ≤ 0 then m else bb.fillRectRows c x1 w2.toNat h2.toNat y1 m :=
  fillRect_unfold bb m x1 y1 w2 h2 c w2 x1 h2 y1 w2 h2
    (by rw [if_neg (by omega : ¬ x1 < 0)])
    (by rw [if_neg (by omega : ¬ x1 < 0)])
    (by rw [if_neg (by omega : ¬ y1 < 0)])
    (by rw [if_neg (by omega : ¬ y1 < 0)])
    (by rw [if_neg (by omega : ¬ x1 + w2 > bb.width)])
    (by rw [if_neg (by omega : ¬ y1 + h2 > bb.height)])

theorem fillRect_eq_clamped (bb : BitmapBuffer) (m : Mem) (x y w h : Int) (c : Nat)
    (w1 x1 h1 y1 w2 h2 : Int)
    (hw1 : w1 = if x < 0 then w + x else w)
    (hx1 : x1 = if x < 0 then 0 else x)
    (hh1 : h1 = if y < 0 then h + y else h)
    (hy1 : y1 = if y < 0 then 0 else y)
    (hw2 : w2 = if x1 + w1 > bb.width then bb.width - x1 else w1)
    (hh2 : h2 = if y1 + h1 > bb.height then bb.height - y1 else h1) :
    bb.FillRect m x y w h c = bb.FillRect m x1 y1 w2 h2 c := by
  have h0x : 0 ≤ x1 := by rw [hx1]; split_ifs <;> omega
  have h0y : 0 ≤ y1 := by rw [hy1]; split_ifs <;> omega
  have hxw : x1 + w2 ≤ bb.width := by rw [hw2]; split_ifs <;> omega
  have hyh : y1 + h2 ≤ bb.height := by rw [hh2]; split_ifs <;> omega
  rw [fillRect_unfold bb m x y w h c w1 x1 h1 y1 w2 h2 hw1 hx1 hh1 hy1 hw2 hh2,
    fillRect_clamped_eq bb m x1 y1 w2 h2 c h0x h0y hxw hyh]

end BitmapBuffer

namespace BitmapBuffer

/-- Pointwise content of an in-bounds `FillRect`: every pixel of the
rectangle reads back `c` (16bpp) or `c % 256` (8bpp), and every other
in-bounds pixel is unchanged. -/
theorem fillRect_pixels (bb : BitmapBuffer) (m : Mem) (hm : ByteMem m)
    (W H : Nat) (hW : bb.width = (W : Int)) (hH : bb.height = (H : Int))
    (hvb : VRAM_BASE ≤ bb.base)
    (hvs : bb.base + H * W * (if bb.bpp = 16 then 2 else 1) ≤ VRAM_BASE + VRAM_SIZE)
    (x y w h : Int) (c : Nat) (hc : c < 65536)
    (hx : 0 ≤ x) (hy : 0 ≤ y) (hxw : x + w ≤ bb.width) (hyh : y + h ≤ bb.height)
    (i j : Int) :
    ((x ≤ i ∧ i < x + w ∧ y ≤ j ∧ j < y + h) →
      bb.GetPixel (bb.FillRect m x y w h c) i j
        = some (if bb.bpp = 16 then c else c % 256)) ∧
    (¬(x ≤ i ∧ i < x + w ∧ y ≤ j ∧ j < y + h) → bb.InBounds i j = true →
      bb.GetPixel (bb.FillRect m x y w h c) i j = bb.GetPixel m i j) := by
  have hfr := fillRect_clamped_eq bb m x y w h c hx hy hxw hyh
  by_cases hdeg : w ≤ 0 ∨ h ≤ 0
  · rw [if_pos hdeg] at hfr
    exact ⟨fun hcon => absurd hcon (by omega), fun _ _ => by rw [hfr]⟩
  · rw [if_neg hdeg] at hfr
    have hw0 : 0 < w := by omega
    have hh0 : 0 < h := by omega
    obtain ⟨X, rfl⟩ : ∃ k : Nat, x = (k : Int) := ⟨x.toNat, (Int.toNat_of_nonneg hx).symm⟩
    obtain ⟨Y, rfl⟩ : ∃ k : Nat, y = (k : Int) := ⟨y.toNat, (Int.toNat_of_nonneg hy).symm⟩
    obtain ⟨wn, rfl⟩ : ∃ k : Nat, w = (k : Int) := ⟨w.toNat, (Int.toNat_of_nonneg hw0.le).symm⟩
    obtain ⟨hn, rfl⟩ : ∃ k : Nat, h = (k : Int) := ⟨h.toNat, (Int.toNat_of_nonneg hh0.le).symm⟩
    have etn1 : ((wn : Int)).toNat = wn := rfl
    have etn2 : ((hn : Int)).toNat = hn := rfl
    rw [etn1, etn2] at hfr
    rw [hW] at hxw
    rw [hH] at hyh
    have hXw : X + wn ≤ W := by exact_mod_cast hxw
    have hYH : Y + hn ≤ H := by exact_mod_cast hyh
    have hmono0 : (Y + hn) * W ≤ H * W := Nat.mul_le_mul_right W hYH
    by_cases hbpp : bb.bpp = 16
    · -- 16 bits per pixel
      rw [if_pos hbpp] at hvs
      have hVB : VRAM_BASE = 0x06000000 := rfl
      have hVS : VRAM_SIZE = 0x18000 := rfl
      have h2n : (Y + hn) * W * 2 ≤ 2 ^ 64 := by omega
      rw [fillRectRows_eq16 bb c W X wn hW hbpp hXw hn Y m h2n] at hfr
      constructor
      · rintro ⟨h1, h2, h3, h4⟩
        have h0i : 0 ≤ i := le_trans (by exact_mod_cast Nat.zero_le X) h1
        have h0j : 0 ≤ j := le_trans (by exact_mod_cast Nat.zero_le Y) h3
        obtain ⟨inn, rfl⟩ : ∃ k : Nat, i = (k : Int) := ⟨i.toNat, (Int.toNat_of_nonneg h0i).symm⟩
        obtain ⟨jn, rfl⟩ : ∃ k : Nat, j = (k : Int) := ⟨j.toNat, (Int.toNat_of_nonneg h0j).symm⟩
        have hXi : X ≤ inn := by exact_mod_cast h1
        have hiXw : inn < X + wn := by exact_mod_cast h2
        have hYj : Y ≤ jn := by exact_mod_cast h3
        have hjYh : jn < Y + hn := by exact_mod_cast h4
        have hiW : inn < W := by omega
        have hjH : jn < H := by omega
        have hsp : (jn + 1) * W = jn * W + W := by ring
        have hmono : (jn + 1) * W ≤ H * W := Nat.mul_le_mul_right W (by omega)
        have hcast : ((jn : Int) * bb.width + (inn : Int)) * 2
            = (((jn * W + inn) * 2 : Nat) : Int) := by rw [hW]; push_cast; ring
        have hszN : (jn * W + inn) * 2 < 2 ^ 64 := by omega
        have hsz1 : ((jn : Int) * bb.width + (inn : Int)) * 2 < 2 ^ 64 := by
          rw [hcast]; exact_mod_cast hszN
        have htn : (((jn : Int) * bb.width + (inn : Int)) * 2).toNat = (jn * W + inn) * 2 := by
          rw [hcast]; rfl
        have h00 : 0 ≤ (jn : Int) * bb.width + (inn : Int) := by
          rw [hW]; exact_mod_cast Nat.zero_le (jn * W + inn)
        have hin : bb.InBounds (inn : Int) (jn : Int) = true := by
          apply (inBounds_iff bb _ _).mpr
          rw [hW, hH]
          exact ⟨by exact_mod_cast Nat.zero_le inn, by exact_mod_cast hiW,
            by exact_mod_cast Nat.zero_le jn, by exact_mod_cast hjH⟩
        have hvaddr : InVRAMBounds (bb.getPixelAddr (inn : Int) (jn : Int)) = true := by
          rw [getPixelAddr16 bb _ _ hbpp h00 hsz1, htn]
          exact (inVRAMBounds_iff _).mpr ⟨by omega, by omega⟩
        rw [hfr, getPixel16_eq bb (rows16 bb.base c W X wn hn Y m) (inn : Int) (jn : Int)
          hbpp hin hvaddr hsz1, htn, if_pos hbpp]
        have hband1 : bb.base + (jn * W + X) * 2 ≤ bb.base + (jn * W + inn) * 2 := by omega
        have hband2 : bb.base + (jn * W + inn) * 2
            < bb.base + (jn * W + X) * 2 + 2 * wn := by omega
        have e0 := rows16_apply_in bb.base c W X wn hXw hn Y m jn
          (bb.base + (jn * W + inn) * 2) hYj hjYh hband1 hband2
        rw [if_pos (by omega)] at e0
        have hband1s : bb.base + (jn * W + X) * 2 ≤ bb.base + (jn * W + inn) * 2 + 1 := by omega
        have hband2s : bb.base + (jn * W + inn) * 2 + 1
            < bb.base + (jn * W + X) * 2 + 2 * wn := by omega
        have e1 := rows16_apply_in bb.base c W X wn hXw hn Y m jn
          (bb.base + (jn * W + inn) * 2 + 1) hYj hjYh hband1s hband2s
        rw [if_neg (by omega)] at e1
        simp only [read16, e0, e1]
        have hval : c % 256 % 256 + 256 * (c / 256 % 256 % 256) = c := by omega
        rw [hval]
      · rintro hnot hinb
        have hinb' := (inBounds_iff bb i j).mp hinb
        have h0i : 0 ≤ i := hinb'.1
        have h0j : 0 ≤ j := hinb'.2.2.1
        obtain ⟨inn, rfl⟩ : ∃ k : Nat, i = (k : Int) := ⟨i.toNat, (Int.toNat_of_nonneg h0i).symm⟩
        obtain ⟨jn, rfl⟩ : ∃ k : Nat, j = (k : Int) := ⟨j.toNat, (Int.toNat_of_nonneg h0j).symm⟩
        rw [hW, hH] at hinb'
        have hiW : inn < W := by exact_mod_cast hinb'.2.1
        have hjH : jn < H := by exact_mod_cast hinb'.2.2.2
        have hsp : (jn + 1) * W = jn * W + W := by ring
        have hmono : (jn + 1) * W ≤ H * W := Nat.mul_le_mul_right W (by omega)
        have hcast : ((jn : Int) * bb.width + (inn : Int)) * 2
            = (((jn * W + inn) * 2 : Nat) : Int) := by rw [hW]; push_cast; ring
        have hszN : (jn * W + inn) * 2 < 2 ^ 64 := by omega
        have hsz1 : ((jn : Int) * bb.width + (inn : Int)) * 2 < 2 ^ 64 := by
          rw [hcast]; exact_mod_cast hszN
        have htn : (((jn : Int) * bb.width + (inn : Int)) * 2).toNat = (jn * W + inn) * 2 := by
          rw [hcast]; rfl
        have h00 : 0 ≤ (jn : Int) * bb.width + (inn : Int) := by
          rw [hW]; exact_mod_cast Nat.zero_le (jn * W + inn)
        have hvaddr : InVRAMBounds (bb.getPixelAddr (inn : Int) (jn : Int)) = true := by
          rw [getPixelAddr16 bb _ _ hbpp h00 hsz1, htn]
          exact (inVRAMBounds_iff _).mpr ⟨by omega, by omega⟩
        have hnotN : ¬(X ≤ inn ∧ inn < X + wn ∧ Y ≤ jn ∧ jn < Y + hn) := by
          intro hcon
          exact hnot ⟨by exact_mod_cast hcon.1, by exact_mod_cast hcon.2.1,
            by exact_mod_cast hcon.2.2.1, by exact_mod_cast hcon.2.2.2⟩
        have hout : ∀ b, bb.base + (jn * W + inn) * 2 ≤ b →
            b ≤ bb.base + (jn * W + inn) * 2 + 1 →
            ∀ r, Y ≤ r → r < Y + hn →
            ¬(bb.base + (r * W + X) * 2 ≤ b ∧ b < bb.base + (r * W + X) * 2 + 2 * wn) := by
          intro b hbl hbr r hr1 hr2 hband
          obtain ⟨hb1, hb2⟩ := hband
          rcases Nat.lt_trichotomy r jn with hlt | heq | hgt
          · have hm1 : (r + 1) * W = r * W + W := by ring
            have hm2 : (r + 1) * W ≤ jn * W := Nat.mul_le_mul_right W (by omega)
            omega
          · subst heq
            exact hnotN ⟨by omega, by omega, hr1, hr2⟩
          · have hm1 : (jn + 1) * W = jn * W + W := by ring
            have hm2 : (jn + 1) * W ≤ r * W := Nat.mul_le_mul_right W (by omega)
            omega
        have q0 := rows16_apply_out bb.base c W X wn hn Y m
          (bb.base + (jn * W + inn) * 2) (hout _ (le_refl _) (by omega))
        have q1 := rows16_apply_out bb.base c W X wn hn Y m
          (bb.base + (jn * W + inn) * 2 + 1) (hout _ (by omega) (le_refl _))
        rw [hfr, getPixel16_eq bb (rows16 bb.base c W X wn hn Y m) (inn : Int) (jn : Int)
          hbpp hinb hvaddr hsz1,
          getPixel16_eq bb m (inn : Int) (jn : Int) hbpp hinb hvaddr hsz1, htn]
        exact congrArg some (read16_congr_of_eq m (rows16 bb.base c W X wn hn Y m) _ q0 q1)
    · -- 8 bits per pixel
      rw [if_neg hbpp] at hvs
      have hVB : VRAM_BASE = 0x06000000 := rfl
      have hVS : VRAM_SIZE = 0x18000 := rfl
      have h1n : (Y + hn) * W ≤ 2 ^ 64 := by omega
      rw [fillRectRows_eq8 bb c W X wn hW hbpp hXw hn Y m hm h1n] at hfr
      constructor
      · rintro ⟨h1, h2, h3, h4⟩
        have h0i : 0 ≤ i := le_trans (by exact_mod_cast Nat.zero_le X) h1
        have h0j : 0 ≤ j := le_trans (by exact_mod_cast Nat.zero_le Y) h3
        obtain ⟨inn, rfl⟩ : ∃ k : Nat, i = (k : Int) := ⟨i.toNat, (Int.toNat_of_nonneg h0i).symm⟩
        obtain ⟨jn, rfl⟩ : ∃ k : Nat, j = (k : Int) := ⟨j.toNat, (Int.toNat_of_nonneg h0j).symm⟩
        have hXi : X ≤ inn := by exact_mod_cast h1
        have hiXw : inn < X + wn := by exact_mod_cast h2
        have hYj : Y ≤ jn := by exact_mod_cast h3
        have hjYh : jn < Y + hn := by exact_mod_cast h4
        have hiW : inn < W := by omega
        have hjH : jn < H := by omega
        have hsp : (jn + 1) * W = jn * W + W := by ring
        have hmono : (jn + 1) * W ≤ H * W := Nat.mul_le_mul_right W (by omega)
        have hcast : ((jn : Int) * bb.width + (inn : Int))
            = (((jn * W + inn) : Nat) : Int) := by rw [hW]; push_cast; ring
        have hszN : jn * W + inn < 2 ^ 64 := by omega
        have hsz1 : ((jn : Int) * bb.width + (inn : Int)) < 2 ^ 64 := by
          rw [hcast]; exact_mod_cast hszN
        have htn : (((jn : Int) * bb.width + (inn : Int))).toNat = jn * W + inn := by
          rw [hcast]; rfl
        have h00 : 0 ≤ (jn : Int) * bb.width + (inn : Int) := by
          rw [hW]; exact_mod_cast Nat.zero_le (jn * W + inn)
        have hin : bb.InBounds (inn : Int) (jn : Int) = true := by
          apply (inBounds_iff bb _ _).mpr
          rw [hW, hH]
          exact ⟨by exact_mod_cast Nat.zero_le inn, by exact_mod_cast hiW,
            by exact_mod_cast Nat.zero_le jn, by exact_mod_cast hjH⟩
        have hvaddr : InVRAMBounds (bb.getPixelAddr (inn : Int) (jn : Int)) = true := by
          rw [getPixelAddr8 bb _ _ hbpp h00 hsz1, htn]
          exact (inVRAMBounds_iff _).mpr ⟨by omega, by omega⟩
        rw [hfr, getPixel8_eq bb (rows8 bb.base c W X wn hn Y m) (inn : Int) (jn : Int)
          hbpp hin hvaddr hsz1, htn, if_neg hbpp]
        have e0 := rows8_apply_in bb.base c W X wn hXw hn Y m jn
          (bb.base + (jn * W + inn)) hYj hjYh (by omega) (by omega)
        rw [e0]
        have hval : c % 256 % 256 = c % 256 := by omega
        rw [hval]
      · rintro hnot hinb
        have hinb' := (inBounds_iff bb i j).mp hinb
        have h0i : 0 ≤ i := hinb'.1
        have h0j : 0 ≤ j := hinb'.2.2.1
        obtain ⟨inn, rfl⟩ : ∃ k : Nat, i = (k : Int) := ⟨i.toNat, (Int.toNat_of_nonneg h0i).symm⟩
        obtain ⟨jn, rfl⟩ : ∃ k : Nat, j = (k : Int) := ⟨j.toNat, (Int.toNat_of_nonneg h0j).symm⟩
        rw [hW, hH] at hinb'
        have hiW : inn < W := by exact_mod_cast hinb'.2.1
        have hjH : jn < H := by exact_mod_cast hinb'.2.2.2
        have hsp : (jn + 1) * W = jn * W + W := by ring
        have hmono : (jn + 1) * W ≤ H * W := Nat.mul_le_mul_right W (by omega)
        have hcast : ((jn : Int) * bb.width + (inn : Int))
            = (((jn * W + inn) : Nat) : Int) := by rw [hW]; push_cast; ring
        have hszN : jn * W + inn < 2 ^ 64 := by omega
        have hsz1 : ((jn : Int) * bb.width + (inn : Int)) < 2 ^ 64 := by
          rw [hcast]; exact_mod_cast hszN
        have htn : (((jn : Int) * bb.width + (inn : Int))).toNat = jn * W + inn := by
          rw [hcast]; rfl
        have h00 : 0 ≤ (jn : Int) * bb.width + (inn : Int) := by
          rw [hW]; exact_mod_cast Nat.zero_le (jn * W + inn)
        have hvaddr : InVRAMBounds (bb.getPixelAddr (inn : Int) (jn : Int)) = true := by
          rw [getPixelAddr8 bb _ _ hbpp h00 hsz1, htn]
          exact (inVRAMBounds_iff _).mpr ⟨by omega, by omega⟩
        have hnotN : ¬(X ≤ inn ∧ inn < X + wn ∧ Y ≤ jn ∧ jn < Y + hn) := by
          intro hcon
          exact hnot ⟨by exact_mod_cast hcon.1, by exact_mod_cast hcon.2.1,
            by exact_mod_cast hcon.2.2.1, by exact_mod_cast hcon.2.2.2⟩
        have hout : ∀ r, Y ≤ r → r < Y + hn →
            ¬(bb.base + (r * W + X) ≤ bb.base + (jn * W + inn) ∧
              bb.base + (jn * W + inn) < bb.base + (r * W + X) + wn) := by
          intro r hr1 hr2 hband
          obtain ⟨hb1, hb2⟩ := hband
          rcases Nat.lt_trichotomy r jn with hlt | heq | hgt
          · have hm1 : (r + 1) * W = r * W + W := by ring
            have hm2 : (r + 1) * W ≤ jn * W := Nat.mul_le_mul_right W (by omega)
            omega
          · subst heq
            exact hnotN ⟨by omega, by omega, hr1, hr2⟩
          · have hm1 : (jn + 1) * W = jn * W + W := by ring
            have hm2 : (jn + 1) * W ≤ r * W := Nat.mul_le_mul_right W (by omega)
            omega
        have q0 := rows8_apply_out bb.base c W X wn hn Y m
          (bb.base + (jn * W + inn)) hout
        rw [hfr, getPixel8_eq bb (rows8 bb.base c W X wn hn Y m) (inn : Int) (jn : Int)
          hbpp hinb hvaddr hsz1,
          getPixel8_eq bb m (inn : Int) (jn : Int) hbpp hinb hvaddr hsz1, htn, q0]

end BitmapBuffer

/-! ### C6: FillRect clamping and pixel content -/

/-- C6 (corrected): `FillRect` equals first clamping the rectangle to the
buffer bounds (negative offsets shrinking width/height) and then filling,
and degenerates to a no-op once the clamped width or height is `≤ 0`.  A
fully in-bounds fill sets exactly the `w×h` pixels of the rectangle and no
other in-bounds pixel — but the value a filled pixel reads back is `c`
only at 16bpp; at 8bpp it is `c % 256` (the stored color is truncated to
its low byte), contradicting the claim's unqualified "sets the pixels to
c". -/
theorem fillRect_spec (bb : BitmapBuffer) (m : Mem) (hm : ByteMem m)
    (W H : Nat) (hW : bb.width = (W : Int)) (hH : bb.height = (H : Int))
    (hvb : VRAM_BASE ≤ bb.base)
    (hvs : bb.base + H * W * (if bb.bpp = 16 then 2 else 1) ≤ VRAM_BASE + VRAM_SIZE)
    (x y w h : Int) (c : Nat) (hc : c < 65536) :
    (∀ w1 x1 h1 y1 w2 h2 : Int,
      w1 = (if x < 0 then w + x else w) →
      x1 = (if x < 0 then 0 else x) →
      h1 = (if y < 0 then h + y else h) →
      y1 = (if y < 0 then 0 else y) →
      w2 = (if x1 + w1 > bb.width then bb.width - x1 else w1) →
      h2 = (if y1 + h1 > bb.height then bb.height - y1 else h1) →
      bb.FillRect m x y w h c = bb.FillRect m x1 y1 w2 h2 c ∧
      ((w2 ≤ 0 ∨ h2 ≤ 0) → bb.FillRect m x y w h c = m)) ∧
    (0 ≤ x → 0 ≤ y → x + w ≤ bb.width → y + h ≤ bb.height →
      ∀ i j : Int,
        ((x ≤ i ∧ i < x + w ∧ y ≤ j ∧ j < y + h) →
          bb.GetPixel (bb.FillRect m x y w h c) i j
            = some (if bb.bpp = 16 then c else c % 256)) ∧
        (¬(x ≤ i ∧ i < x + w ∧ y ≤ j ∧ j < y + h) → bb.InBounds i j = true →
          bb.GetPixel (bb.FillRect m x y w h c) i j = bb.GetPixel m i j)) := by
  constructor
  · intro w1 x1 h1 y1 w2 h2 hw1 hx1 hh1 hy1 hw2 hh2
    refine ⟨BitmapBuffer.fillRect_eq_clamped bb m x y w h c w1 x1 h1 y1 w2 h2
      hw1 hx1 hh1 hy1 hw2 hh2, fun hdeg => ?_⟩
    rw [BitmapBuffer.fillRect_unfold bb m x y w h c w1 x1 h1 y1 w2 h2
      hw1 hx1 hh1 hy1 hw2 hh2, if_pos hdeg]
  · intro hx hy hxw hyh i j
    exact BitmapBuffer.fillRect_pixels bb m hm W H hW hH hvb hvs x y w h c hc
      hx hy hxw hyh i j

set_option maxRecDepth 100000 in
/-- C6 counterexample: an 8bpp `FillRect` with color 300 stores
`300 % 256 = 44`, so the filled pixel does not read back as the requested
color — refuting the claim that an in-bounds fill "sets the pixels to c"
for every buffer. -/
theorem fillRect_counterexample :
    BitmapBuffer.GetPixel ⟨VRAM_BASE, 4, 4, 8⟩
        (BitmapBuffer.FillRect ⟨VRAM_BASE, 4, 4, 8⟩ zeroMem 0 0 1 1 300) 0 0 = some 44 ∧
    BitmapBuffer.GetPixel ⟨VRAM_BASE, 4, 4, 8⟩
        (BitmapBuffer.FillRect ⟨VRAM_BASE, 4, 4, 8⟩ zeroMem 0 0 1 1 300) 0 0 ≠ some 300 := by
  refine ⟨by decide, by decide⟩

theorem fillRect_spec_witness :
    BitmapBuffer.GetPixel ⟨VRAM_BASE, 4, 4, 16⟩
        (BitmapBuffer.FillRect ⟨VRAM_BASE, 4, 4, 16⟩ zeroMem 1 1 2 2 7) 1 1
      = some (if (⟨VRAM_BASE, 4, 4, 16⟩ : BitmapBuffer).bpp = 16 then 7 else 7 % 256) := by
  have h := fillRect_spec ⟨VRAM_BASE, 4, 4, 16⟩ zeroMem byteMem_zeroMem 4 4 rfl rfl
    (by decide) (by decide) 1 1 2 2 7 (by decide)
  exact ((h.2 (by decide) (by decide) (by decide) (by decide) 1 1).1 (by decide))

/-! ### DMA fill reduction: cast helpers and burst lemmas -/

theorem int_toNat_cast (n : Nat) : ((n : Int)).toNat = n := rfl

theorem tdiv_cast_two (a : Nat) : Int.tdiv (a : Int) 2 = ((a / 2 : Nat) : Int) := rfl

theorem tmod_cast_two (a : Nat) : Int.tmod (a : Int) 2 = ((a % 2 : Nat) : Int) := rfl

theorem tdiv_cast_four (a : Nat) : Int.tdiv (a : Int) 4 = ((a / 4 : Nat) : Int) := rfl

theorem tmod_cast_four (a : Nat) : Int.tmod (a : Int) 4 = ((a % 4 : Nat) : Int) := rfl

theorem int_cast_pos_eq (n : Nat) : (((n : Int)) > 0) = (0 < n) :=
  propext (by exact_mod_cast Iff.rfl)

theorem int_cast_eq_one (n : Nat) : (((n : Int)) = 1) = (n = 1) :=
  propext (by exact_mod_cast Iff.rfl)

theorem goUintptr_natCast (n : Nat) (h : n < 2 ^ 64) : goUintptr (n : Int) = n := by
  rw [goUintptr_eq _ (by exact_mod_cast Nat.zero_le n) (by exact_mod_cast h)]
  rfl

theorem dma3Fill32_eq (m : Mem) (a v : Nat) (q : Nat) (h0 : 0 < q) (hq : q < 65536) :
    dma3Fill32 m a v ((q : Nat) : Int) = fillWords m a v q := by
  unfold dma3Fill32
  rw [if_neg (by omega : ¬ ((q : Nat) : Int) ≤ 0)]
  have hg : goUint16 ((q : Nat) : Int) = q := by
    unfold goUint16
    omega
  rw [hg]

theorem dma3Copy32_eq (m : Mem) (sa da : Nat) (q : Nat) (h0 : 0 < q) (hq : q < 65536) :
    dma3Copy32 m sa da ((q : Nat) : Int) = copyWords m sa da q := by
  unfold dma3Copy32
  rw [if_neg (by omega : ¬ ((q : Nat) : Int) ≤ 0)]
  have hg : goUint16 ((q : Nat) : Int) = q := by
    unfold goUint16
    omega
  rw [hg]

theorem fill16_snoc (m : Mem) (a c n : Nat) :
    write16 (fill16 m a c n) (a + 2 * n) c = fill16 m a c (n + 1) := by
  rw [fill16_append m a c n 1]
  rfl

theorem write16_double (m : Mem) (a c : Nat) (hc : c < 256) :
    write16 m a (c + c * 256) = fillBytes m a c 2 := by
  have h2 : fillBytes m a c 2 = writeByte (writeByte m a c) (a + 1) c := rfl
  have hd : (c + c * 256) / 256 = c := by
    rw [Nat.add_mul_div_right c c (by norm_num : (0 : Nat) < 256)]
    omega
  rw [h2]
  funext b
  simp only [write16_apply, writeByte_apply]
  rw [hd]
  split_ifs <;> first | rfl | omega

theorem fill16_burst (m : Mem) (a c N : Nat) (hc : c < 65536) (hN : N < 131072)
    (q r : Nat) (hq : q = N / 2) (hr : r = N % 2) :
    (if r = 1 then
       write16 (if 0 < q then dma3Fill32 m a (c ||| c <<< 16) ((q : Nat) : Int) else m)
         (a + q * 4) c
     else (if 0 < q then dma3Fill32 m a (c ||| c <<< 16) ((q : Nat) : Int) else m))
    = fill16 m a c N := by
  subst hq
  subst hr
  by_cases hq0 : 0 < N / 2
  · rw [if_pos hq0, dma3Fill32_eq m a (c ||| c <<< 16) (N / 2) hq0 (by omega),
      fillWords_fill16 m a c (N / 2) hc]
    by_cases hr1 : N % 2 = 1
    · rw [if_pos hr1]
      have ha : a + N / 2 * 4 = a + 2 * (2 * (N / 2)) := by omega
      rw [ha, fill16_snoc]
      have hN : 2 * (N / 2) + 1 = N := by omega
      rw [hN]
    · rw [if_neg hr1]
      have hN : 2 * (N / 2) = N := by omega
      rw [hN]
  · rw [if_neg hq0]
    by_cases hr1 : N % 2 = 1
    · rw [if_pos hr1]
      have hN : N = 1 := by omega
      subst hN
      have ha : a + 0 * 4 = a := by omega
      rw [ha]
      rfl
    · rw [if_neg hr1]
      have hN : N = 0 := by omega
      rw [hN]
      rfl

namespace BitmapBuffer

theorem dmaFill8Rem_eq (addr c : Nat) (hc : c < 256) (m : Mem) (hm : ByteMem m)
    (r : Nat) (hr : r < 4) :
    dmaFill8Rem addr c r r 0 m = fillBytes m addr c r := by
  have hcf : c &&& 0xFF = c := by rw [land_ff]; omega
  interval_cases r
  · rfl
  · have h1 : dmaFill8Rem addr c 1 1 0 m
        = write16 m (addr + 0 / 2 * 2) ((read16 m (addr + 0 / 2 * 2) &&& 0xFF00) ||| c) := rfl
    have ha : addr + 0 / 2 * 2 = addr := by omega
    have hwb := write16_as_bytes m addr c (hm _)
    rw [hcf] at hwb
    rw [h1, ha, hwb]
    rfl
  · have h1 : dmaFill8Rem addr c 2 2 0 m = write16 m (addr + 0) (c ||| c <<< 8) := rfl
    have ha : addr + 0 = addr := by omega
    rw [h1, ha, or8_pair c hc, write16_double m addr c hc]
  · have h1 : dmaFill8Rem addr c 3 3 0 m
        = write16 (write16 m (addr + 0) (c ||| c <<< 8)) (addr + 2 / 2 * 2)
            ((read16 (write16 m (addr + 0) (c ||| c <<< 8)) (addr + 2 / 2 * 2) &&& 0xFF00)
              ||| c) := rfl
    have ha : addr + 0 = addr := by omega
    have ha2 : addr + 2 / 2 * 2 = addr + 2 := by omega
    rw [h1, ha, ha2, or8_pair c hc, write16_double m addr c hc]
    have hmB : ByteMem (fillBytes m addr c 2) := byteMem_fillBytes hm addr c 2
    have hwb := write16_as_bytes (fillBytes m addr c 2) (addr + 2) c (hmB _)
    rw [hcf] at hwb
    rw [hwb]
    have h3 : (3 : Nat) = 2 + 1 := rfl
    rw [h3, fillBytes_append]
    rfl

theorem fill8_burst (m : Mem) (hm : ByteMem m) (a c N : Nat) (hc : c < 256)
    (hN : N < 262144) :
    dmaFill8Rem (a + N / 4 * 4) c (N % 4) (N % 4) 0
      (if 0 < N / 4 then
        dma3Fill32 m a (c ||| c <<< 8 ||| c <<< 16 ||| c <<< 24) ((N / 4 : Nat) : Int)
        else m)
    = fillBytes m a c N := by
  by_cases hq0 : 0 < N / 4
  · rw [if_pos hq0,
      dma3Fill32_eq m a (c ||| c <<< 8 ||| c <<< 16 ||| c <<< 24) (N / 4) hq0 (by omega),
      fillWords_fillBytes m a c (N / 4) hc]
    rw [dmaFill8Rem_eq (a + N / 4 * 4) c hc _ (byteMem_fillBytes hm a c (4 * (N / 4)))
      (N % 4) (by omega)]
    have ha : a + N / 4 * 4 = a + 4 * (N / 4) := by omega
    rw [ha, ← fillBytes_append]
    have hN : 4 * (N / 4) + N % 4 = N := by omega
    rw [hN]
  · rw [if_neg hq0]
    rw [dmaFill8Rem_eq (a + N / 4 * 4) c hc m hm (N % 4) (by omega)]
    have hq : N / 4 = 0 := by omega
    have ha : a + N / 4 * 4 = a := by omega
    rw [ha]
    have hN : N % 4 = N := by omega
    rw [hN]

end BitmapBuffer

namespace BitmapBuffer

theorem dmaRow16_eq (bb : BitmapBuffer) (c : Nat) (hc : c < 65536)
    (W : Nat) (hw : bb.width = (W : Int)) (X wn Y' : Nat) (hwn : wn < 131072)
    (hszs : (Y' * W + X + wn) * 2 < 2 ^ 64) (m : Mem) :
    bb.dmaRow16 c (X : Int) (wn : Int) (Y' : Int) m
      = fill16 m (bb.base + (Y' * W + X) * 2) c wn := by
  simp only [dmaRow16]
  have hcast : (Y' : Int) * bb.width * 2 + (X : Int) * 2
      = (((Y' * W + X) * 2 : Nat) : Int) := by
    rw [hw]; push_cast; ring
  rw [hcast, goUintptr_natCast _ (by omega), tdiv_cast_two, tmod_cast_two]
  simp only [int_cast_pos_eq, int_cast_eq_one, int_toNat_cast]
  exact fill16_burst m (bb.base + (Y' * W + X) * 2) c wn hc hwn _ _ rfl rfl

theorem dmaFill16Rows_eq (bb : BitmapBuffer) (c : Nat) (hc : c < 65536)
    (W : Nat) (hw : bb.width = (W : Int)) (X wn : Nat) (hXw : X + wn ≤ W)
    (hwn : wn < 131072) :
    ∀ (n Y : Nat) (m : Mem), (Y + n) * W * 2 < 2 ^ 64 →
    bb.dmaFill16Rows c (X : Int) (wn : Int) n (Y : Int) m
      = rows16 bb.base c W X wn n Y m := by
  intro n
  induction n with
  | zero => intro Y m _; rfl
  | succ n ih =>
    intro Y m hsz
    show bb.dmaFill16Rows c (X : Int) (wn : Int) n ((Y : Int) + 1)
        (bb.dmaRow16 c (X : Int) (wn : Int) (Y : Int) m) = _
    have hsp : (Y + 1) * W = Y * W + W := by ring
    have hmono : (Y + 1) * W ≤ (Y + (n + 1)) * W := Nat.mul_le_mul_right W (by omega)
    rw [dmaRow16_eq bb c hc W hw X wn Y hwn (by omega) m]
    have hc1 : ((Y : Int) + 1) = ((Y + 1 : Nat) : Int) := by push_cast; ring
    have hsz' : (Y + 1 + n) * W * 2 < 2 ^ 64 := by
      have he : Y + 1 + n = Y + (n + 1) := by omega
      rw [he]
      exact hsz
    rw [hc1, ih (Y + 1) _ hsz']
    rfl

theorem dmaFill16_eq (bb : BitmapBuffer) (c : Nat) (hc : c < 65536)
    (W : Nat) (hw : bb.width = (W : Int)) (X wn : Nat) (hXw : X + wn ≤ W)
    (hn Y : Nat) (hcnt : wn * hn < 131072) (m : Mem)
    (hsz : (Y + hn) * W * 2 < 2 ^ 64) :
    bb.dmaFill16 m (X : Int) (Y : Int) (wn : Int) (hn : Int) c
      = rows16 bb.base c W X wn hn Y m := by
  simp only [dmaFill16]
  by_cases hfull : (X : Int) = 0 ∧ (wn : Int) = bb.width
  · rw [if_pos hfull]
    obtain ⟨hX0, hwnW⟩ := hfull
    have hX0' : X = 0 := by exact_mod_cast hX0
    have hwnW' : wn = W := by rw [hw] at hwnW; exact_mod_cast hwnW
    have hmono : Y * W ≤ (Y + hn) * W := Nat.mul_le_mul_right W (by omega)
    have hcast1 : (Y : Int) * bb.width * 2 = ((Y * W * 2 : Nat) : Int) := by
      rw [hw]; push_cast; ring
    rw [hcast1, goUintptr_natCast _ (by omega)]
    have hcast2 : (wn : Int) * (hn : Int) = ((wn * hn : Nat) : Int) := by push_cast; ring
    rw [hcast2, tdiv_cast_two, tmod_cast_two]
    simp only [int_cast_pos_eq, int_toNat_cast]
    have hcond : (0 < wn * hn % 2) = (wn * hn % 2 = 1) := propext (by omega)
    simp only [hcond]
    rw [fill16_burst m (bb.base + Y * W * 2) c (wn * hn) hc hcnt _ _ rfl rfl]
    rw [hX0', hwnW', rows16_full bb.base c W hn Y m]
  · rw [if_neg hfull]
    simp only [int_toNat_cast]
    rcases Nat.eq_zero_or_pos hn with h0 | hpos
    · subst h0
      rfl
    · have hwn : wn < 131072 := by
        have hle : wn ≤ wn * hn := Nat.le_mul_of_pos_right wn hpos
        omega
      exact dmaFill16Rows_eq bb c hc W hw X wn hXw hwn hn Y m hsz

theorem dmaFill8_eq (bb : BitmapBuffer) (c : Nat) (hc : c < 256)
    (W H : Nat) (hw : bb.width = (W : Int)) (hH : bb.height = (H : Int))
    (X wn : Nat) (hXw : X + wn ≤ W) (hbpp : ¬ bb.bpp = 16)
    (hn Y : Nat) (hYH : Y + hn ≤ H) (hw0 : 0 < wn) (hh0 : 0 < hn)
    (hcnt : wn * hn < 262144)
    (m : Mem) (hm : ByteMem m) (hsz : (Y + hn) * W < 2 ^ 64) :
    bb.dmaFill8 m (X : Int) (Y : Int) (wn : Int) (hn : Int) c
      = rows8 bb.base c W X wn hn Y m := by
  simp only [dmaFill8]
  by_cases hfull : (X : Int) = 0 ∧ (wn : Int) = bb.width
  · rw [if_pos hfull]
    obtain ⟨hX0, hwnW⟩ := hfull
    have hX0' : X = 0 := by exact_mod_cast hX0
    have hwnW' : wn = W := by rw [hw] at hwnW; exact_mod_cast hwnW
    have hmono : Y * W ≤ (Y + hn) * W := Nat.mul_le_mul_right W (by omega)
    have hcast1 : (Y : Int) * bb.width = ((Y * W : Nat) : Int) := by
      rw [hw]; push_cast; ring
    rw [hcast1, goUintptr_natCast _ (by omega)]
    have hcast2 : (wn : Int) * (hn : Int) = ((wn * hn : Nat) : Int) := by push_cast; ring
    rw [hcast2, tdiv_cast_four, tmod_cast_four]
    simp only [int_cast_pos_eq, int_toNat_cast]
    rw [fill8_burst m hm (bb.base + Y * W) c (wn * hn) hc hcnt]
    rw [hX0', hwnW', rows8_full bb.base c W hn Y m]
  · rw [if_neg hfull]
    have h0X : (0 : Int) ≤ (X : Int) := by exact_mod_cast Nat.zero_le X
    have h0Y : (0 : Int) ≤ (Y : Int) := by exact_mod_cast Nat.zero_le Y
    have hxw : (X : Int) + (wn : Int) ≤ bb.width := by rw [hw]; exact_mod_cast hXw
    have hyh : (Y : Int) + (hn : Int) ≤ bb.height := by rw [hH]; exact_mod_cast hYH
    rw [fillRect_clamped_eq bb m (X : Int) (Y : Int) (wn : Int) (hn : Int) c
      h0X h0Y hxw hyh]
    rw [if_neg (by omega : ¬ ((wn : Int) ≤ 0 ∨ (hn : Int) ≤ 0))]
    simp only [int_toNat_cast]
    exact fillRectRows_eq8 bb c W X wn hw hbpp hXw hn Y m hm (by omega)

end BitmapBuffer

namespace BitmapBuffer

theorem fastFill_unfold (bb : BitmapBuffer) (m : Mem) (x y w h : Int) (c : Nat)
    (w1 x1 h1 y1 w2 h2 : Int)
    (hw1 : w1 = if x < 0 then w + x else w)
    (hx1 : x1 = if x < 0 then 0 else x)
    (hh1 : h1 = if y < 0 then h + y else h)
    (hy1 : y1 = if y < 0 then 0 else y)
    (hw2 : w2 = if x1 + w1 > bb.width then bb.width - x1 else w1)
    (hh2 : h2 = if y1 + h1 > bb.height then bb.height - y1 else h1) :
    bb.FastFill m x y w h c =
      if w2 ≤ 0 ∨ h2 ≤ 0 then m
      else if w2 * h2 ≥ 64 then bb.dmaFill m x1 y1 w2 h2 c
      else bb.FillRect m x1 y1 w2 h2 c := by
  subst hw2
  subst hh2
  subst hw1
  subst hx1
  subst hh1
  subst hy1
  rfl

/-- `FastFill` computes exactly the same memory as the per-pixel
`FillRect`, for every rectangle and both pixel depths. -/
theorem fastFill_eq_fillRect (bb : BitmapBuffer) (m : Mem) (hm : ByteMem m)
    (W H : Nat) (hW : bb.width = (W : Int)) (hH : bb.height = (H : Int))
    (hsz : bb.base + H * W * 2 < 2 ^ 64)
    (hWH : if bb.bpp = 16 then W * H < 131072 else W * H < 262144)
    (x y w h : Int) (c : Nat) (hc : c < 65536) :
    bb.FastFill m x y w h c = bb.FillRect m x y w h c := by
  obtain ⟨cw1, ew1⟩ : ∃ v : Int, v = (if x < 0 then w + x else w) := ⟨_, rfl⟩
  obtain ⟨cx1, ex1⟩ : ∃ v : Int, v = (if x < 0 then 0 else x) := ⟨_, rfl⟩
  obtain ⟨ch1, eh1⟩ : ∃ v : Int, v = (if y < 0 then h + y else h) := ⟨_, rfl⟩
  obtain ⟨cy1, ey1⟩ : ∃ v : Int, v = (if y < 0 then 0 else y) := ⟨_, rfl⟩
  obtain ⟨cw2, ew2⟩ : ∃ v : Int,
    v = (if cx1 + cw1 > bb.width then bb.width - cx1 else cw1) := ⟨_, rfl⟩
  obtain ⟨ch2, eh2⟩ : ∃ v : Int,
    v = (if cy1 + ch1 > bb.height then bb.height - cy1 else ch1) := ⟨_, rfl⟩
  have h0x : 0 ≤ cx1 := by rw [ex1]; split_ifs <;> omega
  have h0y : 0 ≤ cy1 := by rw [ey1]; split_ifs <;> omega
  have hxw2 : cx1 + cw2 ≤ bb.width := by rw [ew2]; split_ifs <;> omega
  have hyh2 : cy1 + ch2 ≤ bb.height := by rw [eh2]; split_ifs <;> omega
  rw [fastFill_unfold bb m x y w h c cw1 cx1 ch1 cy1 cw2 ch2 ew1 ex1 eh1 ey1 ew2 eh2,
    fillRect_eq_clamped bb m x y w h c cw1 cx1 ch1 cy1 cw2 ch2 ew1 ex1 eh1 ey1 ew2 eh2,
    fillRect_clamped_eq bb m cx1 cy1 cw2 ch2 c h0x h0y hxw2 hyh2]
  by_cases hdeg : cw2 ≤ 0 ∨ ch2 ≤ 0
  · rw [if_pos hdeg, if_pos hdeg]
  · rw [if_neg hdeg, if_neg hdeg]
    have hw20 : 0 < cw2 := by omega
    have hh20 : 0 < ch2 := by omega
    by_cases hbig : cw2 * ch2 ≥ 64
    · rw [if_pos hbig]
      obtain ⟨X, hX⟩ : ∃ k : Nat, cx1 = (k : Int) := ⟨cx1.toNat, (Int.toNat_of_nonneg h0x).symm⟩
      obtain ⟨Y, hY⟩ : ∃ k : Nat, cy1 = (k : Int) := ⟨cy1.toNat, (Int.toNat_of_nonneg h0y).symm⟩
      obtain ⟨wn, hwn⟩ : ∃ k : Nat, cw2 = (k : Int) :=
        ⟨cw2.toNat, (Int.toNat_of_nonneg hw20.le).symm⟩
      obtain ⟨hnn, hhn⟩ : ∃ k : Nat, ch2 = (k : Int) :=
        ⟨ch2.toNat, (Int.toNat_of_nonneg hh20.le).symm⟩
      rw [hX, hY, hwn, hhn]
      rw [hX, hwn] at hxw2
      rw [hY, hhn] at hyh2
      rw [hW] at hxw2
      rw [hH] at hyh2
      have hXw : X + wn ≤ W := by exact_mod_cast hxw2
      have hYH : Y + hnn ≤ H := by exact_mod_cast hyh2
      have hmono : (Y + hnn) * W ≤ H * W := Nat.mul_le_mul_right W hYH
      have hw0' : 0 < wn := by rw [hwn] at hw20; exact_mod_cast hw20
      have hh0' : 0 < hnn := by rw [hhn] at hh20; exact_mod_cast hh20
      have hmul : wn * hnn ≤ W * H :=
        Nat.mul_le_mul (by omega : wn ≤ W) (by omega : hnn ≤ H)
      simp only [int_toNat_cast, dmaFill]
      by_cases hbpp : bb.bpp = 16
      · rw [if_pos hbpp]
        rw [if_pos hbpp] at hWH
        rw [dmaFill16_eq bb c hc W hW X wn hXw hnn Y (by omega) m (by omega)]
        rw [fillRectRows_eq16 bb c W X wn hW hbpp hXw hnn Y m (by omega)]
      · rw [if_neg hbpp]
        rw [if_neg hbpp] at hWH
        rw [dmaFill8_eq bb (c % 256) (by omega) W H hW hH X wn hXw hbpp hnn Y hYH
          hw0' hh0' (by omega) m hm (by omega)]
        rw [fillRectRows_eq8 bb c W X wn hW hbpp hXw hnn Y m hm (by omega)]
        exact rows8_congr bb.base (by omega : c % 256 % 256 = c % 256) W X wn hnn Y m
    · rw [if_neg hbig]

end BitmapBuffer

/-! ### Sequential copy helpers (proof-side canonical forms) -/

/-- `n` sequential 16-bit word copies reading the current memory. -/
def copySeq16 : Mem → Nat → Nat → Nat → Mem
  | m, _, _, 0 => m
  | m, s, d, n + 1 => copySeq16 (write16 m d (read16 m s)) (s + 2) (d + 2) n

/-- `n` sequential byte copies reading the current memory. -/
def copySeqBytes : Mem → Nat → Nat → Nat → Mem
  | m, _, _, 0 => m
  | m, s, d, n + 1 => copySeqBytes (writeByte m d (m s)) (s + 1) (d + 1) n

theorem copySeq16_append (m : Mem) (s d n1 n2 : Nat) :
    copySeq16 m s d (n1 + n2)
      = copySeq16 (copySeq16 m s d n1) (s + 2 * n1) (d + 2 * n1) n2 := by
  induction n1 generalizing m s d with
  | zero => simp [copySeq16]
  | succ n ih =>
    have h : n + 1 + n2 = n + n2 + 1 := by omega
    rw [h]
    show copySeq16 (write16 m d (read16 m s)) (s + 2) (d + 2) (n + n2) = _
    rw [ih]
    have h2 : s + 2 + 2 * n = s + 2 * (n + 1) := by omega
    have h3 : d + 2 + 2 * n = d + 2 * (n + 1) := by omega
    rw [h2, h3]
    rfl

theorem copySeqBytes_append (m : Mem) (s d n1 n2 : Nat) :
    copySeqBytes m s d (n1 + n2)
      = copySeqBytes (copySeqBytes m s d n1) (s + n1) (d + n1) n2 := by
  induction n1 generalizing m s d with
  | zero => simp [copySeqBytes]
  | succ n ih =>
    have h : n + 1 + n2 = n + n2 + 1 := by omega
    rw [h]
    show copySeqBytes (writeByte m d (m s)) (s + 1) (d + 1) (n + n2) = _
    rw [ih]
    have h2 : s + 1 + n = s + (n + 1) := by omega
    have h3 : d + 1 + n = d + (n + 1) := by omega
    rw [h2, h3]
    rfl

theorem byteMem_copySeq16 : ∀ (n : Nat) (s d : Nat) {m : Mem}, ByteMem m →
    ByteMem (copySeq16 m s d n) := by
  intro n
  induction n with
  | zero => intro s d m hm; exact hm
  | succ n ih =>
    intro s d m hm
    exact ih (s + 2) (d + 2) (byteMem_write16 hm d (read16 m s))

theorem byteMem_copySeqBytes : ∀ (n : Nat) (s d : Nat) {m : Mem}, ByteMem m →
    ByteMem (copySeqBytes m s d n) := by
  intro n
  induction n with
  | zero => intro s d m hm; exact hm
  | succ n ih =>
    intro s d m hm
    exact ih (s + 1) (d + 1) (byteMem_writeByte hm d (m s))

theorem read32_bytes (m : Mem) (hm : ByteMem m) (s : Nat) :
    read32 m s % 256 = m s ∧ read32 m s / 256 % 256 = m (s + 1) ∧
    read32 m s / 65536 % 256 = m (s + 2) ∧ read32 m s / 16777216 % 256 = m (s + 3) := by
  have h0 := hm s
  have h1 := hm (s + 1)
  have h2 := hm (s + 2)
  have h3 := hm (s + 3)
  have e0 : m s % 256 = m s := Nat.mod_eq_of_lt h0
  have e1 : m (s + 1) % 256 = m (s + 1) := Nat.mod_eq_of_lt h1
  have e2 : m (s + 2) % 256 = m (s + 2) := Nat.mod_eq_of_lt h2
  have e3 : m (s + 3) % 256 = m (s + 3) := Nat.mod_eq_of_lt h3
  have hv : read32 m s
      = m s + 256 * m (s + 1) + 65536 * m (s + 2) + 16777216 * m (s + 3) := by
    simp only [read32, e0, e1, e2, e3]
  refine ⟨?_, ?_, ?_, ?_⟩
  · rw [hv]; omega
  · rw [hv]
    have hd : (m s + 256 * m (s + 1) + 65536 * m (s + 2) + 16777216 * m (s + 3)) / 256
        = m (s + 1) + 256 * m (s + 2) + 65536 * m (s + 3) := by
      have hr : m s + 256 * m (s + 1) + 65536 * m (s + 2) + 16777216 * m (s + 3)
          = m s + (m (s + 1) + 256 * m (s + 2) + 65536 * m (s + 3)) * 256 := by ring
      rw [hr, Nat.add_mul_div_right _ _ (by norm_num : (0 : Nat) < 256),
        Nat.div_eq_of_lt h0]
      omega
    rw [hd]
    omega
  · rw [hv]
    have hd : (m s + 256 * m (s + 1) + 65536 * m (s + 2) + 16777216 * m (s + 3)) / 65536
        = m (s + 2) + 256 * m (s + 3) := by
      have hr : m s + 256 * m (s + 1) + 65536 * m (s + 2) + 16777216 * m (s + 3)
          = (m s + 256 * m (s + 1)) + (m (s + 2) + 256 * m (s + 3)) * 65536 := by ring
      rw [hr, Nat.add_mul_div_right _ _ (by norm_num : (0 : Nat) < 65536),
        Nat.div_eq_of_lt (by omega : m s + 256 * m (s + 1) < 65536)]
      omega
    rw [hd]
    omega
  · rw [hv]
    have hd : (m s + 256 * m (s + 1) + 65536 * m (s + 2) + 16777216 * m (s + 3)) / 16777216
        = m (s + 3) := by
      have hr : m s + 256 * m (s + 1) + 65536 * m (s + 2) + 16777216 * m (s + 3)
          = (m s + 256 * m (s + 1) + 65536 * m (s + 2)) + m (s + 3) * 16777216 := by ring
      rw [hr, Nat.add_mul_div_right _ _ (by norm_num : (0 : Nat) < 16777216),
        Nat.div_eq_of_lt (by omega : m s + 256 * m (s + 1) + 65536 * m (s + 2) < 16777216)]
      omega
    rw [hd]
    omega

theorem copySeqBytes_apply :
    ∀ (n : Nat) (m : Mem) (s d : Nat), ByteMem m → (s + n ≤ d ∨ d + n ≤ s) →
    ∀ b, copySeqBytes m s d n b = if d ≤ b ∧ b < d + n then m (s + (b - d)) else m b := by
  intro n
  induction n with
  | zero =>
    intro m s d _ _ b
    rw [if_neg (by omega)]
    rfl
  | succ n ih =>
    intro m s d hm hdisj b
    show copySeqBytes (writeByte m d (m s)) (s + 1) (d + 1) n b = _
    rw [ih (writeByte m d (m s)) (s + 1) (d + 1)
      (byteMem_writeByte hm d (m s)) (by omega) b]
    by_cases h1 : d + 1 ≤ b ∧ b < d + 1 + n
    · rw [if_pos h1, if_pos (by omega : d ≤ b ∧ b < d + (n + 1))]
      have he : s + 1 + (b - (d + 1)) = s + (b - d) := by omega
      rw [he, writeByte_apply, if_neg (by omega : ¬ s + (b - d) = d)]
    · rw [if_neg h1, writeByte_apply]
      by_cases h2 : b = d
      · rw [if_pos h2, if_pos (by omega : d ≤ b ∧ b < d + (n + 1))]
        have he : s + (b - d) = s := by omega
        rw [he, Nat.mod_eq_of_lt (hm s)]
      · rw [if_neg h2, if_neg (by omega : ¬ (d ≤ b ∧ b < d + (n + 1)))]

theorem copySeq16_apply :
    ∀ (n : Nat) (m : Mem) (s d : Nat), ByteMem m → (s + 2 * n ≤ d ∨ d + 2 * n ≤ s) →
    ∀ b, copySeq16 m s d n b
      = if d ≤ b ∧ b < d + 2 * n then m (s + (b - d)) else m b := by
  intro n
  induction n with
  | zero =>
    intro m s d _ _ b
    rw [if_neg (by omega)]
    rfl
  | succ n ih =>
    intro m s d hm hdisj b
    show copySeq16 (write16 m d (read16 m s)) (s + 2) (d + 2) n b = _
    rw [ih (write16 m d (read16 m s)) (s + 2) (d + 2)
      (byteMem_write16 hm d (read16 m s)) (by omega) b]
    have hs0 := hm s
    have hs1 := hm (s + 1)
    have hr16 : read16 m s % 256 = m s := by
      simp only [read16, Nat.mod_eq_of_lt (hm s), Nat.mod_eq_of_lt (hm (s + 1))]
      omega
    have hr16h : read16 m s / 256 % 256 = m (s + 1) := by
      simp only [read16, Nat.mod_eq_of_lt (hm s), Nat.mod_eq_of_lt (hm (s + 1))]
      have hd : (m s + 256 * m (s + 1)) / 256 = m (s + 1) := by
        have hr : m s + 256 * m (s + 1) = m s + m (s + 1) * 256 := by ring
        rw [hr, Nat.add_mul_div_right _ _ (by norm_num : (0 : Nat) < 256),
          Nat.div_eq_of_lt (hm s)]
        omega
      rw [hd, Nat.mod_eq_of_lt (hm (s + 1))]
    by_cases h1 : d + 2 ≤ b ∧ b < d + 2 + 2 * n
    · rw [if_pos h1, if_pos (by omega : d ≤ b ∧ b < d + 2 * (n + 1))]
      have he : s + 2 + (b - (d + 2)) = s + (b - d) := by omega
      rw [he, write16_apply_out m d (read16 m s) (s + (b - d))
        (by omega) (by omega)]
    · rw [if_neg h1, write16_apply]
      by_cases h2 : b = d + 1
      · rw [if_pos h2, if_pos (by omega : d ≤ b ∧ b < d + 2 * (n + 1)), hr16h]
        have he : s + (b - d) = s + 1 := by omega
        rw [he]
      · rw [if_neg h2]
        by_cases h3 : b = d
        · rw [if_pos h3, if_pos (by omega : d ≤ b ∧ b < d + 2 * (n + 1)), hr16]
          have he : s + (b - d) = s := by omega
          rw [he]
        · rw [if_neg h3, if_neg (by omega : ¬ (d ≤ b ∧ b < d + 2 * (n + 1)))]

theorem copyWords_apply :
    ∀ (n : Nat) (m : Mem) (s d : Nat), ByteMem m → (s + 4 * n ≤ d ∨ d + 4 * n ≤ s) →
    ∀ b, copyWords m s d n b
      = if d ≤ b ∧ b < d + 4 * n then m (s + (b - d)) else m b := by
  intro n
  induction n with
  | zero =>
    intro m s d _ _ b
    rw [if_neg (by omega)]
    rfl
  | succ n ih =>
    intro m s d hm hdisj b
    show copyWords (write32 m d (read32 m s)) (s + 4) (d + 4) n b = _
    rw [ih (write32 m d (read32 m s)) (s + 4) (d + 4)
      (byteMem_write32 hm d (read32 m s)) (by omega) b]
    obtain ⟨hb0, hb1, hb2, hb3⟩ := read32_bytes m hm s
    by_cases h1 : d + 4 ≤ b ∧ b < d + 4 + 4 * n
    · rw [if_pos h1, if_pos (by omega : d ≤ b ∧ b < d + 4 * (n + 1))]
      have he : s + 4 + (b - (d + 4)) = s + (b - d) := by omega
      rw [he, write32_apply]
      rw [if_neg (by omega : ¬ s + (b - d) = d + 3),
        if_neg (by omega : ¬ s + (b - d) = d + 2),
        if_neg (by omega : ¬ s + (b - d) = d + 1),
        if_neg (by omega : ¬ s + (b - d) = d)]
    · rw [if_neg h1, write32_apply]
      by_cases h2 : b = d + 3
      · rw [if_pos h2, if_pos (by omega : d ≤ b ∧ b < d + 4 * (n + 1)), hb3]
        have he : s + (b - d) = s + 3 := by omega
        rw [he]
      · rw [if_neg h2]
        by_cases h3 : b = d + 2
        · rw [if_pos h3, if_pos (by omega : d ≤ b ∧ b < d + 4 * (n + 1)), hb2]
          have he : s + (b - d) = s + 2 := by omega
          rw [he]
        · rw [if_neg h3]
          by_cases h4 : b = d + 1
          · rw [if_pos h4, if_pos (by omega : d ≤ b ∧ b < d + 4 * (n + 1)), hb1]
            have he : s + (b - d) = s + 1 := by omega
            rw [he]
          · rw [if_neg h4]
            by_cases h5 : b = d
            · rw [if_pos h5, if_pos (by omega : d ≤ b ∧ b < d + 4 * (n + 1)), hb0]
              have he : s + (b - d) = s := by omega
              rw [he]
            · rw [if_neg h5, if_neg (by omega : ¬ (d ≤ b ∧ b < d + 4 * (n + 1)))]

namespace BitmapBuffer

theorem copyRowAux_eq16 (bb src : BitmapBuffer) (W H : Nat)
    (hbW : bb.width = (W : Int)) (hsW : src.width = (W : Int)) (hsH : src.height = (H : Int))
    (hbb : bb.bpp = 16) (hsb : src.bpp = 16)
    (hsvb : VRAM_BASE ≤ src.base) (hsvs : src.base + H * W * 2 ≤ VRAM_BASE + VRAM_SIZE)
    (j : Nat) (hjH : j < H) :
    ∀ (n X : Nat) (m : Mem), X + n ≤ W →
    copyRowAux bb src (j : Int) (j : Int) n (X : Int) (X : Int) m
      = copySeq16 m (src.base + (j * W + X) * 2) (bb.base + (j * W + X) * 2) n := by
  have hVB : VRAM_BASE = 0x06000000 := rfl
  have hVS : VRAM_SIZE = 0x18000 := rfl
  intro n
  induction n with
  | zero => intro X m _; rfl
  | succ n ih =>
    intro X m hXn
    have hXW : X < W := by omega
    have hsp : (j + 1) * W = j * W + W := by ring
    have hmono : (j + 1) * W ≤ H * W := Nat.mul_le_mul_right W (by omega)
    have hcasts : ((j : Int) * src.width + (X : Int)) * 2
        = (((j * W + X) * 2 : Nat) : Int) := by rw [hsW]; push_cast; ring
    have hcastb : ((j : Int) * bb.width + (X : Int)) * 2
        = (((j * W + X) * 2 : Nat) : Int) := by rw [hbW]; push_cast; ring
    have hszN : (j * W + X) * 2 < 2 ^ 64 := by omega
    have hsz1s : ((j : Int) * src.width + (X : Int)) * 2 < 2 ^ 64 := by
      rw [hcasts]; exact_mod_cast hszN
    have hsz1b : ((j : Int) * bb.width + (X : Int)) * 2 < 2 ^ 64 := by
      rw [hcastb]; exact_mod_cast hszN
    have htns : (((j : Int) * src.width + (X : Int)) * 2).toNat = (j * W + X) * 2 := by
      rw [hcasts]; rfl
    have htnb : (((j : Int) * bb.width + (X : Int)) * 2).toNat = (j * W + X) * 2 := by
      rw [hcastb]; rfl
    have h00s : 0 ≤ (j : Int) * src.width + (X : Int) := by
      rw [hsW]; exact_mod_cast Nat.zero_le (j * W + X)
    have h00b : 0 ≤ (j : Int) * bb.width + (X : Int) := by
      rw [hbW]; exact_mod_cast Nat.zero_le (j * W + X)
    have hin : src.InBounds (X : Int) (j : Int) = true := by
      apply (inBounds_iff src _ _).mpr
      rw [hsW, hsH]
      exact ⟨by exact_mod_cast Nat.zero_le X, by exact_mod_cast hXW,
        by exact_mod_cast Nat.zero_le j, by exact_mod_cast hjH⟩
    have hv : InVRAMBounds (src.getPixelAddr (X : Int) (j : Int)) = true := by
      rw [getPixelAddr16 src _ _ hsb h00s hsz1s, htns]
      exact (inVRAMBounds_iff _).mpr ⟨by omega, by omega⟩
    have hget := getPixel16_eq src m (X : Int) (j : Int) hsb hin hv hsz1s
    have harm : (match src.GetPixel m (X : Int) (j : Int) with
        | some p => bb.PlotPixelFast m (X : Int) (j : Int) p
        | none => m)
        = write16 m (bb.base + (j * W + X) * 2)
            (read16 m (src.base + (j * W + X) * 2)) := by
      rw [hget, htns]
      show bb.PlotPixelFast m (X : Int) (j : Int)
          (read16 m (src.base + (j * W + X) * 2)) = _
      rw [plotFast16_eq bb m (X : Int) (j : Int)
        (read16 m (src.base + (j * W + X) * 2)) hbb h00b hsz1b, htnb]
    show copyRowAux bb src (j : Int) (j : Int) n ((X : Int) + 1) ((X : Int) + 1)
        (match src.GetPixel m (X : Int) (j : Int) with
         | some p => bb.PlotPixelFast m (X : Int) (j : Int) p
         | none => m) = _
    rw [harm]
    have hc1 : ((X : Int) + 1) = ((X + 1 : Nat) : Int) := by push_cast; ring
    rw [hc1, ih (X + 1) _ (by omega)]
    have es : src.base + (j * W + (X + 1)) * 2 = src.base + (j * W + X) * 2 + 2 := by omega
    have ed : bb.base + (j * W + (X + 1)) * 2 = bb.base + (j * W + X) * 2 + 2 := by omega
    rw [es, ed]
    rfl

theorem copyRowsAux_eq16 (bb src : BitmapBuffer) (W H : Nat)
    (hbW : bb.width = (W : Int)) (hsW : src.width = (W : Int)) (hsH : src.height = (H : Int))
    (hbb : bb.bpp = 16) (hsb : src.bpp = 16)
    (hsvb : VRAM_BASE ≤ src.base) (hsvs : src.base + H * W * 2 ≤ VRAM_BASE + VRAM_SIZE) :
    ∀ (n j : Nat) (m : Mem), j + n ≤ H →
    copyRowsAux bb src 0 0 W n (j : Int) (j : Int) m
      = copySeq16 m (src.base + j * W * 2) (bb.base + j * W * 2) (W * n) := by
  intro n
  induction n with
  | zero => intro j m _; rfl
  | succ n ih =>
    intro j m hjn
    show copyRowsAux bb src 0 0 W n ((j : Int) + 1) ((j : Int) + 1)
        (copyRowAux bb src (j : Int) (j : Int) W 0 0 m) = _
    have hrow := copyRowAux_eq16 bb src W H hbW hsW hsH hbb hsb hsvb hsvs j
      (by omega) W 0 m (by omega)
    simp only [Nat.cast_zero] at hrow
    rw [hrow]
    have hc1 : ((j : Int) + 1) = ((j + 1 : Nat) : Int) := by push_cast; ring
    rw [hc1, ih (j + 1) _ (by omega)]
    have h1 : W * (n + 1) = W + W * n := by ring
    rw [h1, copySeq16_append]
    have e0s : src.base + (j * W + 0) * 2 = src.base + j * W * 2 := by omega
    have e0d : bb.base + (j * W + 0) * 2 = bb.base + j * W * 2 := by omega
    have e1s : src.base + (j + 1) * W * 2 = src.base + j * W * 2 + 2 * W := by
      have h3 : (j + 1) * W = j * W + W := by ring
      omega
    have e1d : bb.base + (j + 1) * W * 2 = bb.base + j * W * 2 + 2 * W := by
      have h3 : (j + 1) * W = j * W + W := by ring
      omega
    rw [e0s, e0d, e1s, e1d]

theorem copyRowAux_eq8 (bb src : BitmapBuffer) (W H : Nat)
    (hbW : bb.width = (W : Int)) (hsW : src.width = (W : Int)) (hsH : src.height = (H : Int))
    (hbb : ¬ bb.bpp = 16) (hsb : ¬ src.bpp = 16)
    (hsvb : VRAM_BASE ≤ src.base) (hsvs : src.base + H * W ≤ VRAM_BASE + VRAM_SIZE)
    (j : Nat) (hjH : j < H) :
    ∀ (n X : Nat) (m : Mem), ByteMem m → X + n ≤ W →
    copyRowAux bb src (j : Int) (j : Int) n (X : Int) (X : Int) m
      = copySeqBytes m (src.base + (j * W + X)) (bb.base + (j * W + X)) n := by
  have hVB : VRAM_BASE = 0x06000000 := rfl
  have hVS : VRAM_SIZE = 0x18000 := rfl
  intro n
  induction n with
  | zero => intro X m _ _; rfl
  | succ n ih =>
    intro X m hm hXn
    have hXW : X < W := by omega
    have hsp : (j + 1) * W = j * W + W := by ring
    have hmono : (j + 1) * W ≤ H * W := Nat.mul_le_mul_right W (by omega)
    have hcasts : ((j : Int) * src.width + (X : Int))
        = (((j * W + X) : Nat) : Int) := by rw [hsW]; push_cast; ring
    have hcastb : ((j : Int) * bb.width + (X : Int))
        = (((j * W + X) : Nat) : Int) := by rw [hbW]; push_cast; ring
    have hszN : j * W + X < 2 ^ 64 := by omega
    have hsz1s : ((j : Int) * src.width + (X : Int)) < 2 ^ 64 := by
      rw [hcasts]; exact_mod_cast hszN
    have hsz1b : ((j : Int) * bb.width + (X : Int)) < 2 ^ 64 := by
      rw [hcastb]; exact_mod_cast hszN
    have htns : (((j : Int) * src.width + (X : Int))).toNat = j * W + X := by
      rw [hcasts]; rfl
    have htnb : (((j : Int) * bb.width + (X : Int))).toNat = j * W + X := by
      rw [hcastb]; rfl
    have h00s : 0 ≤ (j : Int) * src.width + (X : Int) := by
      rw [hsW]; exact_mod_cast Nat.zero_le (j * W + X)
    have h00b : 0 ≤ (j : Int) * bb.width + (X : Int) := by
      rw [hbW]; exact_mod_cast Nat.zero_le (j * W + X)
    have hin : src.InBounds (X : Int) (j : Int) = true := by
      apply (inBounds_iff src _ _).mpr
      rw [hsW, hsH]
      exact ⟨by exact_mod_cast Nat.zero_le X, by exact_mod_cast hXW,
        by exact_mod_cast Nat.zero_le j, by exact_mod_cast hjH⟩
    have hv : InVRAMBounds (src.getPixelAddr (X : Int) (j : Int)) = true := by
      rw [getPixelAddr8 src _ _ hsb h00s hsz1s, htns]
      exact (inVRAMBounds_iff _).mpr ⟨by omega, by omega⟩
    have hget := getPixel8_eq src m (X : Int) (j : Int) hsb hin hv hsz1s
    have harm : (match src.GetPixel m (X : Int) (j : Int) with
        | some p => bb.PlotPixelFast m (X : Int) (j : Int) p
        | none => m)
        = writeByte m (bb.base + (j * W + X)) (m (src.base + (j * W + X))) := by
      rw [hget, htns]
      show bb.PlotPixelFast m (X : Int) (j : Int)
          (m (src.base + (j * W + X)) % 256) = _
      rw [plotFast8_eq bb m (X : Int) (j : Int)
        (m (src.base + (j * W + X)) % 256) hbb hm h00b hsz1b, htnb]
      exact writeByte_congr m _ (by omega)
    show copyRowAux bb src (j : Int) (j : Int) n ((X : Int) + 1) ((X : Int) + 1)
        (match src.GetPixel m (X : Int) (j : Int) with
         | some p => bb.PlotPixelFast m (X : Int) (j : Int) p
         | none => m) = _
    rw [harm]
    have hc1 : ((X : Int) + 1) = ((X + 1 : Nat) : Int) := by push_cast; ring
    rw [hc1, ih (X + 1) _ (byteMem_writeByte hm _ _) (by omega)]
    have es : src.base + (j * W + (X + 1)) = src.base + (j * W + X) + 1 := by omega
    have ed : bb.base + (j * W + (X + 1)) = bb.base + (j * W + X) + 1 := by omega
    rw [es, ed]
    rfl

theorem copyRowsAux_eq8 (bb src : BitmapBuffer) (W H : Nat)
    (hbW : bb.width = (W : Int)) (hsW : src.width = (W : Int)) (hsH : src.height = (H : Int))
    (hbb : ¬ bb.bpp = 16) (hsb : ¬ src.bpp = 16)
    (hsvb : VRAM_BASE ≤ src.base) (hsvs : src.base + H * W ≤ VRAM_BASE + VRAM_SIZE) :
    ∀ (n j : Nat) (m : Mem), ByteMem m → j + n ≤ H →
    copyRowsAux bb src 0 0 W n (j : Int) (j : Int) m
      = copySeqBytes m (src.base + j * W) (bb.base + j * W) (W * n) := by
  intro n
  induction n with
  | zero => intro j m _ _; rfl
  | succ n ih =>
    intro j m hm hjn
    show copyRowsAux bb src 0 0 W n ((j : Int) + 1) ((j : Int) + 1)
        (copyRowAux bb src (j : Int) (j : Int) W 0 0 m) = _
    have hrow := copyRowAux_eq8 bb src W H hbW hsW hsH hbb hsb hsvb hsvs j
      (by omega) W 0 m hm (by omega)
    simp only [Nat.cast_zero] at hrow
    rw [hrow]
    have hc1 : ((j : Int) + 1) = ((j + 1 : Nat) : Int) := by push_cast; ring
    rw [hc1, ih (j + 1) _ (byteMem_copySeqBytes W _ _ hm) (by omega)]
    have h1 : W * (n + 1) = W + W * n := by ring
    rw [h1, copySeqBytes_append]
    have e0s : src.base + (j * W + 0) = src.base + j * W := by omega
    have e0d : bb.base + (j * W + 0) = bb.base + j * W := by omega
    have e1s : src.base + (j + 1) * W = src.base + j * W + W := by
      have h3 : (j + 1) * W = j * W + W := by ring
      omega
    have e1d : bb.base + (j + 1) * W = bb.base + j * W + W := by
      have h3 : (j + 1) * W = j * W + W := by ring
      omega
    rw [e0s, e0d, e1s, e1d]

end BitmapBuffer

namespace BitmapBuffer

theorem copyFrom_zero_eq (bb src : BitmapBuffer) (m : Mem) (W H : Nat)
    (hbW : bb.width = (W : Int)) (hsW : src.width = (W : Int))
    (hbH : bb.height = (H : Int)) (hsH : src.height = (H : Int))
    (hW0 : 0 < W) (hH0 : 0 < H) :
    bb.CopyFrom src m 0 0 0 0 (W : Int) (H : Int)
      = copyRowsAux bb src 0 0 W H 0 0 m := by
  have h0 : bb.CopyFrom src m 0 0 0 0 (W : Int) (H : Int) =
      (let w2 : Int := if 0 + (W : Int) > src.width then src.width - 0 else (W : Int)
       let h2 : Int := if 0 + (H : Int) > src.height then src.height - 0 else (H : Int)
       let w4 : Int := if 0 + w2 > bb.width then bb.width - 0 else w2
       let h4 : Int := if 0 + h2 > bb.height then bb.height - 0 else h2
       if w4 ≤ 0 ∨ h4 ≤ 0 then m
       else copyRowsAux bb src 0 0 w4.toNat h4.toNat 0 0 m) := rfl
  rw [h0]
  simp only [hsW, hsH, hbW, hbH]
  rw [if_neg (by omega : ¬ (0 + (W : Int) > (W : Int))),
    if_neg (by omega : ¬ (0 + (H : Int) > (H : Int))),
    if_neg (by omega : ¬ (0 + (W : Int) > (W : Int))),
    if_neg (by omega : ¬ (0 + (H : Int) > (H : Int))),
    if_neg (by omega : ¬ ((W : Int) ≤ 0 ∨ (H : Int) ≤ 0))]
  simp only [int_toNat_cast]

/-- `FastCopy` for same-depth, same-geometry buffers equals the per-pixel
`CopyFrom`, given that the source lies in VRAM, the two pixel buffers do
not overlap, and the pixel count is word-aligned (even at 16bpp, a
multiple of four at 8bpp). -/
theorem fastCopy_eq_copyFrom (bb src : BitmapBuffer) (m : Mem) (hm : ByteMem m)
    (W H : Nat) (hbW : bb.width = (W : Int)) (hbH : bb.height = (H : Int))
    (hsW : src.width = (W : Int)) (hsH : src.height = (H : Int))
    (hbpp : src.bpp = bb.bpp)
    (hsvb : VRAM_BASE ≤ src.base)
    (hsvs : src.base + H * W * (if bb.bpp = 16 then 2 else 1) ≤ VRAM_BASE + VRAM_SIZE)
    (hdisj : src.base + H * W * (if bb.bpp = 16 then 2 else 1) ≤ bb.base ∨
      bb.base + H * W * (if bb.bpp = 16 then 2 else 1) ≤ src.base)
    (hdiv : if bb.bpp = 16 then 2 ∣ W * H else 4 ∣ W * H) :
    bb.FastCopy src m = bb.CopyFrom src m 0 0 0 0 src.width src.height := by
  simp only [FastCopy, dmaCopy]
  rw [hbW, hbH, hsW, hsH]
  rw [if_neg (show ¬ src.bpp ≠ bb.bpp from fun hne => hne hbpp)]
  have hcast : (W : Int) * (H : Int) = ((W * H : Nat) : Int) := by push_cast; ring
  simp only [hcast]
  have hcond128 : (((W * H : Nat) : Int) ≥ 128) = (128 ≤ W * H) :=
    propext (by exact_mod_cast Iff.rfl)
  simp only [hcond128]
  by_cases hbig : 128 ≤ W * H
  · rw [if_pos hbig]
    have hW0 : 0 < W := by
      rcases Nat.eq_zero_or_pos W with h | h
      · rw [h] at hbig; omega
      · exact h
    have hH0 : 0 < H := by
      rcases Nat.eq_zero_or_pos H with h | h
      · rw [h] at hbig; omega
      · exact h
    have hcomm : H * W = W * H := Nat.mul_comm H W
    have hVB : VRAM_BASE = 0x06000000 := rfl
    have hVS : VRAM_SIZE = 0x18000 := rfl
    simp only [and_self, ite_true]
    rw [copyFrom_zero_eq bb src m W H hbW hsW hbH hsH hW0 hH0]
    by_cases hb16 : bb.bpp = 16
    · rw [if_pos hb16]
      rw [if_pos hb16] at hdisj hsvs hdiv
      rw [tdiv_cast_two]
      simp only [int_cast_pos_eq, int_toNat_cast]
      rw [if_pos (show 0 < W * H / 2 by omega)]
      rw [dma3Copy32_eq m src.base bb.base (W * H / 2) (by omega) (by omega)]
      have hrows := copyRowsAux_eq16 bb src W H hbW hsW hsH hb16 (hbpp.trans hb16) hsvb
        (by omega) H 0 m (by omega)
      simp only [Nat.cast_zero] at hrows
      rw [hrows]
      funext b
      rw [copyWords_apply (W * H / 2) m src.base bb.base hm (by omega) b]
      have e0s : src.base + 0 * W * 2 = src.base := by omega
      have e0d : bb.base + 0 * W * 2 = bb.base := by omega
      rw [e0s, e0d,
        copySeq16_apply (W * H) m src.base bb.base hm (by omega) b]
      have he : 4 * (W * H / 2) = 2 * (W * H) := by omega
      rw [he]
    · rw [if_neg hb16]
      rw [if_neg hb16] at hdisj hsvs hdiv
      rw [tdiv_cast_four]
      simp only [int_cast_pos_eq, int_toNat_cast]
      rw [if_pos (show 0 < W * H / 4 by omega)]
      rw [dma3Copy32_eq m src.base bb.base (W * H / 4) (by omega) (by omega)]
      have hsb8 : ¬ src.bpp = 16 := by rw [hbpp]; exact hb16
      have hrows := copyRowsAux_eq8 bb src W H hbW hsW hsH hb16 hsb8 hsvb
        (by omega) H 0 m hm (by omega)
      simp only [Nat.cast_zero] at hrows
      rw [hrows]
      funext b
      rw [copyWords_apply (W * H / 4) m src.base bb.base hm (by omega) b]
      have e0s : src.base + 0 * W = src.base := by omega
      have e0d : bb.base + 0 * W = bb.base := by omega
      rw [e0s, e0d,
        copySeqBytes_apply (W * H) m src.base bb.base hm (by omega) b]
      have he : 4 * (W * H / 4) = W * H := by omega
      rw [he]
  · rw [if_neg hbig]

end BitmapBuffer

/-! ### C7: FastFill/FastCopy against their per-pixel equivalents -/

/-- C7 (corrected): `FastFill` produces memory byte-identical to the
per-pixel `FillRect` — below and at/above the 64-pixel DMA threshold, at
both depths — whenever the DMA word count fits the 16-bit `DMA3CNT_L`
register (pixel count below 2^17 at 16bpp, below 2^18 at 8bpp; beyond
that `dma3Fill32` programs only `uint16(wordCount)`).  `FastCopy` matches
the per-pixel `CopyFrom` below the 128-pixel threshold and, at/above it,
whenever the pixel count is word-aligned (even at 16bpp, a multiple of
four at 8bpp) for non-overlapping in-VRAM buffers of equal geometry — the
VRAM bound keeps the word count below 2^16; for non-aligned counts the
DMA path drops the trailing `w*h mod 2` pixels (16bpp) or `w*h mod 4`
bytes (8bpp), so the claim's unconditional `FastCopy` equivalence fails. -/
theorem fastOps_match_perPixel :
    (∀ (bb : BitmapBuffer) (m : Mem) (W H : Nat) (x y w h : Int) (c : Nat),
      ByteMem m → bb.width = (W : Int) → bb.height = (H : Int) →
      bb.base + H * W * 2 < 2 ^ 64 →
      (if bb.bpp = 16 then W * H < 131072 else W * H < 262144) → c < 65536 →
      bb.FastFill m x y w h c = bb.FillRect m x y w h c) ∧
    (∀ (bb src : BitmapBuffer) (m : Mem) (W H : Nat),
      ByteMem m → bb.width = (W : Int) → bb.height = (H : Int) →
      src.width = (W : Int) → src.height = (H : Int) → src.bpp = bb.bpp →
      VRAM_BASE ≤ src.base →
      src.base + H * W * (if bb.bpp = 16 then 2 else 1) ≤ VRAM_BASE + VRAM_SIZE →
      (src.base + H * W * (if bb.bpp = 16 then 2 else 1) ≤ bb.base ∨
        bb.base + H * W * (if bb.bpp = 16 then 2 else 1) ≤ src.base) →
      (if bb.bpp = 16 then 2 ∣ W * H else 4 ∣ W * H) →
      bb.FastCopy src m = bb.CopyFrom src m 0 0 0 0 src.width src.height) :=
  ⟨fun bb m W H x y w h c hm hW hH hsz hWH hc =>
      BitmapBuffer.fastFill_eq_fillRect bb m hm W H hW hH hsz hWH x y w h c hc,
    fun bb src m W H hm hbW hbH hsW hsH hbpp hsvb hsvs hdisj hdiv =>
      BitmapBuffer.fastCopy_eq_copyFrom bb src m hm W H hbW hbH hsW hsH hbpp
        hsvb hsvs hdisj hdiv⟩

set_option maxRecDepth 100000 in
/-- C7 counterexample: a 129×1 16bpp `FastCopy` (129 pixels, at/above the
128-pixel DMA threshold) copies only `129*1/2 = 64` whole words — 128
pixels — so the destination byte of pixel 128 keeps its old value 0 while
the per-pixel `CopyFrom` copies the source byte 1 there: the two result
memories differ. -/
theorem fastCopy_counterexample :
    BitmapBuffer.FastCopy ⟨VRAM_BASE, 129, 1, 16⟩ ⟨VRAM_BASE + 0xA000, 129, 1, 16⟩
        (fun b => if 0x0600A000 ≤ b then 1 else 0) 0x06000100 = 0 ∧
    BitmapBuffer.CopyFrom ⟨VRAM_BASE, 129, 1, 16⟩ ⟨VRAM_BASE + 0xA000, 129, 1, 16⟩
        (fun b => if 0x0600A000 ≤ b then 1 else 0) 0 0 0 0 129 1 0x06000100 = 1 ∧
    BitmapBuffer.FastCopy ⟨VRAM_BASE, 129, 1, 16⟩ ⟨VRAM_BASE + 0xA000, 129, 1, 16⟩
        (fun b => if 0x0600A000 ≤ b then 1 else 0)
      ≠ BitmapBuffer.CopyFrom ⟨VRAM_BASE, 129, 1, 16⟩ ⟨VRAM_BASE + 0xA000, 129, 1, 16⟩
        (fun b => if 0x0600A000 ≤ b then 1 else 0) 0 0 0 0 129 1 := by
  have h1 : BitmapBuffer.FastCopy ⟨VRAM_BASE, 129, 1, 16⟩ ⟨VRAM_BASE + 0xA000, 129, 1, 16⟩
      (fun b => if 0x0600A000 ≤ b then 1 else 0) 0x06000100 = 0 := by decide
  have h2 : BitmapBuffer.CopyFrom ⟨VRAM_BASE, 129, 1, 16⟩ ⟨VRAM_BASE + 0xA000, 129, 1, 16⟩
      (fun b => if 0x0600A000 ≤ b then 1 else 0) 0 0 0 0 129 1 0x06000100 = 1 := by decide
  exact ⟨h1, h2, fun hcontra =>
    absurd (h1.symm.trans ((congrFun hcontra 0x06000100).trans h2)) (by decide)⟩

theorem fastOps_match_perPixel_witness :
    BitmapBuffer.FastFill ⟨VRAM_BASE, 8, 8, 16⟩ zeroMem 0 0 8 8 5
      = BitmapBuffer.FillRect ⟨VRAM_BASE, 8, 8, 16⟩ zeroMem 0 0 8 8 5 ∧
    BitmapBuffer.FastCopy ⟨VRAM_BASE, 8, 8, 16⟩ ⟨VRAM_BASE + 0xA000, 8, 8, 16⟩ zeroMem
      = BitmapBuffer.CopyFrom ⟨VRAM_BASE, 8, 8, 16⟩ ⟨VRAM_BASE + 0xA000, 8, 8, 16⟩ zeroMem
          0 0 0 0 8 8 :=
  ⟨fastOps_match_perPixel.1 ⟨VRAM_BASE, 8, 8, 16⟩ zeroMem 8 8 0 0 8 8 5 byteMem_zeroMem
      rfl rfl (by decide) (by decide) (by decide),
    fastOps_match_perPixel.2 ⟨VRAM_BASE, 8, 8, 16⟩ ⟨VRAM_BASE + 0xA000, 8, 8, 16⟩ zeroMem
      8 8 byteMem_zeroMem rfl rfl rfl rfl rfl (by decide) (by decide) (by decide)
      (by decide)⟩

end GbaVram
